import Mathlib

/-!
Verification development for the codex-autopilot run-orchestration engine.

The definitions below are shallow embeddings of the TypeScript sources:

* `Executor` embeds `src/workflow/executor.ts` (`resolveDependencyOrder`,
  `detectCycle`, `findReadySteps`).
* `Js` models the external `JSON.parse` / `JSON.stringify` builtins used by
  `src/utils/json.ts`, and `Parser` embeds `safeJsonParse`,
  `parseWorkflow` / `normalizeWorkflow` from `src/workflow/parser.ts`.
* `Runner` embeds `src/runner.ts` (`executeStep`, `executeWorkflow`,
  `checkCompletion`, `generateWorkflow`, `run`) over an abstract agent
  adapter.
* `Autopilot` embeds the `examples/codex-autopilot.ts` scheduling engine
  (`executeWorkflow` with `effectiveConcurrency`) and its provenance-graph
  builder (`recordGraphEdge`, `ensureThreadNode`, transcript enrichment).

Imperative loops are embedded as fuel-indexed recursions; where a fuel value
is an artifact of the embedding it is given a distinguishable result and
proved unreachable.  JavaScript `Set` / `Map` objects are embedded as
duplicate-free lists / association lists with the same insertion semantics.
-/

namespace Autopilot

/-- Workflow step as produced by `normalizeWorkflow`
(`src/workflow/types.ts`).  The `type` field is the constant `"agent.run"`
after normalization and is omitted; unknown passthrough fields are not
modelled. -/
structure WorkflowStep where
  id : String
  goal : String
  dependsOn : Option (List String) := none
  context : Option String := none
  deriving Repr, DecidableEq

/-- Dependency list of a step: the source reads `step.dependsOn ?? []`. -/
def depsOf (s : WorkflowStep) : List String :=
  s.dependsOn.getD []

/-- Workflow record as produced by `normalizeWorkflow`.  `concurrency` is an
integer after `Math.max(1, Math.floor(c))`. -/
structure Workflow where
  id : String
  name : Option String := none
  description : Option String := none
  concurrency : Option Int := none
  steps : List WorkflowStep
  deriving Repr, DecidableEq

namespace Executor

/-- Lookup in the JS `Map` built by `new Map(steps.map(s => [s.id, s]))`:
later entries overwrite earlier ones, so the last occurrence wins. -/
def byIdGet (steps : List WorkflowStep) (id : String) : Option WorkflowStep :=
  steps.reverse.find? (fun s => s.id == id)

/-- Dependencies reachable through the `byId` map inside `detectCycle`
(`byId.get(id)` followed by `step.dependsOn ?? []`). -/
def depsOfId (steps : List WorkflowStep) (id : String) : List String :=
  match byIdGet steps id with
  | some s => depsOf s
  | none => []

/-- Index of the first occurrence of `a`, mirroring `Array.prototype.indexOf`
(total: returns the length when absent, which the source never relies on). -/
def idxOfStr (a : String) : List String → Nat
  | [] => 0
  | b :: l => if b = a then 0 else idxOfStr a l + 1

/-- Cycle path reconstruction: `[...path.slice(path.indexOf(id)), id]`. -/
def cyclePath (path : List String) (id : String) : List String :=
  path.drop (idxOfStr id path) ++ [id]

/-- DFS state of `detectCycle`.  `visited` and `path` mirror the JS `visited`
set and `path` array (`inStack` always holds exactly the members of `path`
and is represented by membership in `path`).  `finished` is a ghost field
recording ids in the order they are popped from the stack; it is written but
never read by the algorithm and exists only to support the acyclicity
proof. -/
structure DfsSt where
  visited : List String
  path : List String
  finished : List String
  deriving Repr, DecidableEq

/-- Iteration with early exit used for the `for (const dep of ...)` loops:
thread the state through `f`, stopping at the first cycle result. -/
def runDeps (f : DfsSt → String → DfsSt × Option (List String)) :
    DfsSt → List String → DfsSt × Option (List String)
  | st, [] => (st, none)
  | st, d :: rest =>
    match f st d with
    | (st', some c) => (st', some c)
    | (st', none) => runDeps f st' rest

/-- The recursive `dfs` helper of `detectCycle`.  Fuel bounds the recursion
depth; each nested call visits a previously unvisited id, so any fuel above
the number of distinct ids suffices (the zero-fuel branch returns `none`
without finishing the node and is unreachable from `detectCycle`). -/
def dfsVisit (steps : List WorkflowStep) : Nat → DfsSt → String → DfsSt × Option (List String)
  | 0, st, _ => (st, none)
  | fuel + 1, st, id =>
    if id ∈ st.path then (st, some (cyclePath st.path id))
    else if id ∈ st.visited then (st, none)
    else
      let st1 : DfsSt := ⟨st.visited ++ [id], st.path ++ [id], st.finished⟩
      match runDeps (dfsVisit steps fuel) st1 (depsOfId steps id) with
      | (st2, some c) => (st2, some c)
      | (st2, none) => (⟨st2.visited, st.path, st2.finished ++ [id]⟩, none)

/-- The `for (const step of steps)` loop of `detectCycle`, threading the
shared `visited` set and returning the first cycle found. -/
def detectCycleGo (steps : List WorkflowStep) (fuel : Nat) :
    DfsSt → List WorkflowStep → Option (List String)
  | _, [] => none
  | st, s :: rest =>
    match dfsVisit steps fuel st s.id with
    | (_, some c) => some c
    | (st', none) => detectCycleGo steps fuel st' rest

/-- Fuel that strictly dominates the number of distinct ids ever visited. -/
def dfsFuel (steps : List WorkflowStep) : Nat :=
  steps.length + (steps.map (fun s => (depsOf s).length)).sum + 1

/-- Embedding of `detectCycle` (`src/workflow/executor.ts`): returns the
cycle path if the dependency graph has a cycle, `none` otherwise. -/
def detectCycle (steps : List WorkflowStep) : Option (List String) :=
  detectCycleGo steps (dfsFuel steps) ⟨[], [], []⟩ steps

/-- Faults raised by `resolveDependencyOrder`.  The source throws `Error`
with two distinguishable messages; `fuelExhausted` is an artifact of the
fuel-based embedding and is proved unreachable. -/
inductive ResolveError where
  | circular (path : List String)
  | stuck (remaining : List String)
  | fuelExhausted
  deriving Repr, DecidableEq

/-- Insertion into the JS `completed` set (no duplicates). -/
def insertId (c : List String) (id : String) : List String :=
  if id ∈ c then c else c ++ [id]

/-- Steps collectable this round:
`steps.filter(s => !completed.has(s.id) && (s.dependsOn ?? []).every(d => completed.has(d)))`. -/
def readySteps (steps : List WorkflowStep) (completed : List String) : List WorkflowStep :=
  steps.filter (fun s => s.id ∉ completed ∧ ∀ d ∈ depsOf s, d ∈ completed)

/-- Remaining ids reported by the stuck-workflow error:
`steps.filter(s => !completed.has(s.id)).map(s => s.id)`. -/
def remainingIds (steps : List WorkflowStep) (completed : List String) : List String :=
  (steps.filter (fun s => s.id ∉ completed)).map (fun s => s.id)

/-- Marking a wave of steps as completed: `for (const step of ready) completed.add(step.id)`. -/
def insertIds (completed : List String) (ready : List WorkflowStep) : List String :=
  ready.foldl (fun c s => insertId c s.id) completed

/-- The `while (completed.size < steps.length)` loop of
`resolveDependencyOrder`, returning the waves still to be produced.  Each
iteration grows `completed` by at least one id, so fuel above
`steps.length` suffices. -/
def wavesLoop (steps : List WorkflowStep) : Nat → List String → Except ResolveError (List (List WorkflowStep))
  | 0, _ => .error .fuelExhausted
  | fuel + 1, completed =>
    if completed.length < steps.length then
      if readySteps steps completed = [] then .error (.stuck (remainingIds steps completed))
      else
        match wavesLoop steps fuel (insertIds completed (readySteps steps completed)) with
        | .ok rest => .ok (readySteps steps completed :: rest)
        | .error e => .error e
    else .ok []

/-- Embedding of `resolveDependencyOrder` (`src/workflow/executor.ts`). -/
def resolveDependencyOrder (steps : List WorkflowStep) : Except ResolveError (List (List WorkflowStep)) :=
  match detectCycle steps with
  | some cycle => .error (.circular cycle)
  | none => wavesLoop steps (steps.length + 1) []

/-- Embedding of `findReadySteps` (`src/workflow/executor.ts`). -/
def findReadySteps (steps : List WorkflowStep) (completed running : List String) :
    List WorkflowStep :=
  steps.filter (fun s =>
    s.id ∉ completed ∧ s.id ∉ running ∧ ∀ d ∈ depsOf s, d ∈ completed)

/-! Specification-side graph notions for the resolver claims.  A dependency
edge goes from a step id to each id it depends on, through the `byId` map
used by `detectCycle`. -/

/-- Dependency edge of the step graph: `b` is listed in the dependencies of
the step registered under id `a`. -/
def DepEdge (steps : List WorkflowStep) (a b : String) : Prop :=
  b ∈ depsOfId steps a

/-- A dependency cycle: a nonempty id sequence whose consecutive elements
are dependency edges and whose last element has an edge back to the
first. -/
def IsCycle (steps : List WorkflowStep) : List String → Prop
  | [] => False
  | a :: l =>
    List.Chain (DepEdge steps) a l ∧
      DepEdge steps ((a :: l).getLast (List.cons_ne_nil a l)) a

/-- The step list contains a dependency cycle. -/
def HasCycle (steps : List WorkflowStep) : Prop :=
  ∃ c, IsCycle steps c

/-- Ranks witnessing acyclicity: every dependency strictly decreases the
rank. -/
def RankedBy (steps : List WorkflowStep) (r : String → Nat) : Prop :=
  ∀ s ∈ steps, ∀ d ∈ depsOf s, r d < r s.id

/-- A valid DAG of steps: ids are pairwise distinct, every dependency
references a step of the list, and some rank function certifies
acyclicity. -/
def ValidDag (steps : List WorkflowStep) : Prop :=
  (steps.map (fun s => s.id)).Nodup ∧
    (∀ s ∈ steps, ∀ d ∈ depsOf s, d ∈ steps.map (fun s => s.id)) ∧
    ∃ r : String → Nat, RankedBy steps r

theorem depEdge_elim {steps : List WorkflowStep} {a b : String}
    (h : DepEdge steps a b) : ∃ s ∈ steps, s.id = a ∧ b ∈ depsOf s := by
  unfold DepEdge depsOfId at h
  cases hfind : byIdGet steps a with
  | none => rw [hfind] at h; simp at h
  | some s =>
    rw [hfind] at h
    refine ⟨s, ?_, ?_, h⟩
    · have := List.mem_of_find?_eq_some hfind
      simpa using this
    · have := List.find?_some hfind
      simpa using this

theorem rank_le_of_chain {steps : List WorkflowStep} {r : String → Nat}
    (hr : ∀ a b, DepEdge steps a b → r b < r a) :
    ∀ (l : List String) (a : String), List.Chain (DepEdge steps) a l →
      r ((a :: l).getLast (List.cons_ne_nil a l)) ≤ r a := by
  intro l
  induction l with
  | nil => intro a _; simp [List.getLast]
  | cons b t ih =>
    intro a hch
    rw [List.chain_cons] at hch
    have h1 : r ((b :: t).getLast (List.cons_ne_nil b t)) ≤ r b := ih b hch.2
    have h2 : r b < r a := hr a b hch.1
    calc r ((a :: b :: t).getLast (List.cons_ne_nil a (b :: t)))
        = r ((b :: t).getLast (List.cons_ne_nil b t)) := by
          rw [List.getLast_cons_cons]
      _ ≤ r b := h1
      _ ≤ r a := Nat.le_of_lt h2

theorem no_cycle_of_rank {steps : List WorkflowStep} {r : String → Nat}
    (hr : ∀ a b, DepEdge steps a b → r b < r a) : ¬ HasCycle steps := by
  rintro ⟨c, hc⟩
  cases c with
  | nil => exact hc
  | cons a l =>
    obtain ⟨hch, hcl⟩ := hc
    have h1 := rank_le_of_chain hr l a hch
    have h2 := hr _ a hcl
    omega

theorem validDag_rank_edges {steps : List WorkflowStep}
    (h : ValidDag steps) : ∃ r : String → Nat, ∀ a b, DepEdge steps a b → r b < r a := by
  obtain ⟨-, -, r, hr⟩ := h
  refine ⟨r, fun a b hab => ?_⟩
  obtain ⟨s, hs, rfl, hb⟩ := depEdge_elim hab
  exact hr s hs b hb

theorem validDag_no_cycle {steps : List WorkflowStep} (h : ValidDag steps) :
    ¬ HasCycle steps := by
  obtain ⟨r, hr⟩ := validDag_rank_edges h
  exact no_cycle_of_rank hr

/-! DFS soundness: a returned path is a genuine dependency cycle. -/

theorem drop_idxOfStr {a : String} : ∀ {l : List String}, a ∈ l →
    ∃ t, l.drop (idxOfStr a l) = a :: t := by
  intro l
  induction l with
  | nil => intro h; simp at h
  | cons b t ih =>
    intro h
    by_cases hba : b = a
    · subst hba; exact ⟨t, by simp [idxOfStr]⟩
    · have ha : a ∈ t := by
        rcases List.mem_cons.1 h with h1 | h1
        · exact absurd h1.symm hba
        · exact h1
      obtain ⟨t', ht'⟩ := ih ha
      exact ⟨t', by simpa [idxOfStr, hba] using ht'⟩

theorem getLast_of_suffix {l₁ l₂ : List String} (h : l₁ <:+ l₂)
    (h₁ : l₁ ≠ []) (h₂ : l₂ ≠ []) : l₁.getLast h₁ = l₂.getLast h₂ := by
  obtain ⟨p, rfl⟩ := h
  exact (List.getLast_append' p l₁ h₁).symm

theorem getLast_eq_of_eq {l l' : List String} (h : l = l') (hne : l ≠ []) :
    l.getLast hne = l'.getLast (h ▸ hne) := by subst h; rfl

theorem runDeps_none_path {f : DfsSt → String → DfsSt × Option (List String)}
    (hf : ∀ st d st', f st d = (st', none) → st'.path = st.path) :
    ∀ (ds : List String) (st st' : DfsSt),
      runDeps f st ds = (st', none) → st'.path = st.path := by
  intro ds
  induction ds with
  | nil => intro st st' h; simp [runDeps] at h; subst h; rfl
  | cons d rest ih =>
    intro st st' h
    simp only [runDeps] at h
    cases hfd : f st d with
    | mk st1 res =>
      cases res with
      | some c => rw [hfd] at h; simp at h
      | none =>
        rw [hfd] at h
        exact (ih st1 st' h).trans (hf st d st1 hfd)

theorem dfsVisit_none_path {steps : List WorkflowStep} :
    ∀ (fuel : Nat) (st : DfsSt) (id : String) (st' : DfsSt),
      dfsVisit steps fuel st id = (st', none) → st'.path = st.path := by
  intro fuel
  induction fuel with
  | zero => intro st id st' h; simp [dfsVisit] at h; subst h; rfl
  | succ fuel ih =>
    intro st id st' h
    simp only [dfsVisit] at h
    by_cases hp : id ∈ st.path
    · simp [hp] at h
    · by_cases hv : id ∈ st.visited
      · simp [hp, hv] at h; subst h; rfl
      · simp only [hp, hv, if_neg, if_pos, ite_false, ite_true] at h
        cases hrun : runDeps (dfsVisit steps fuel)
            ⟨st.visited ++ [id], st.path ++ [id], st.finished⟩ (depsOfId steps id) with
        | mk st2 res =>
          cases res with
          | some c => rw [hrun] at h; simp at h
          | none => rw [hrun] at h; simp at h; subst h; rfl

theorem dfsVisit_some_hasCycle {steps : List WorkflowStep} :
    ∀ (fuel : Nat) (st : DfsSt) (id : String) (out : DfsSt) (c : List String),
      List.Chain' (DepEdge steps) st.path →
      (∀ h : st.path ≠ [], DepEdge steps (st.path.getLast h) id) →
      dfsVisit steps fuel st id = (out, some c) →
      HasCycle steps ∧ 2 ≤ c.length := by
  intro fuel
  induction fuel with
  | zero => intro st id out c _ _ h; simp [dfsVisit] at h
  | succ fuel ih =>
    intro st id out c hch he h
    simp only [dfsVisit] at h
    by_cases hp : id ∈ st.path
    · simp only [hp, if_pos, Prod.mk.injEq] at h
      obtain ⟨-, hc0⟩ := h
      have hc : cyclePath st.path id = c := by injection hc0
      have hpne : st.path ≠ [] := List.ne_nil_of_mem hp
      obtain ⟨t, ht⟩ := drop_idxOfStr hp
      have hsuffix : (id :: t) <:+ st.path := ht ▸ List.drop_suffix _ _
      have hchain : List.Chain (DepEdge steps) id t := List.Chain'.suffix hch hsuffix
      have hlast : (id :: t).getLast (List.cons_ne_nil id t) = st.path.getLast hpne :=
        getLast_of_suffix hsuffix (List.cons_ne_nil id t) hpne
      have hcyc : IsCycle steps (id :: t) := ⟨hchain, by rw [hlast]; exact he hpne⟩
      constructor
      · exact ⟨id :: t, hcyc⟩
      · rw [← hc]; unfold cyclePath; rw [ht]; simp
    · by_cases hv : id ∈ st.visited
      · simp [hp, hv] at h
      · simp only [hp, hv, if_neg, not_false_iff, ite_false] at h
        have aux : ∀ (ds : List String), (∀ d ∈ ds, DepEdge steps id d) →
            ∀ (stx : DfsSt), stx.path = st.path ++ [id] →
            ∀ (out2 : DfsSt) (c2 : List String),
              runDeps (dfsVisit steps fuel) stx ds = (out2, some c2) →
              HasCycle steps ∧ 2 ≤ c2.length := by
          intro ds
          induction ds with
          | nil => intro _ stx _ out2 c2 hr; simp [runDeps] at hr
          | cons d rest ihd =>
            intro hds stx hpx out2 c2 hr
            simp only [runDeps] at hr
            cases hfd : dfsVisit steps fuel stx d with
            | mk sty resy =>
              cases resy with
              | some cy =>
                rw [hfd] at hr
                simp only [Prod.mk.injEq, Option.some.injEq] at hr
                obtain ⟨-, hcy⟩ := hr
                subst hcy
                refine ih stx d sty _ ?_ ?_ hfd
                · rw [hpx]
                  rw [List.chain'_append]
                  refine ⟨hch, List.chain'_singleton id, ?_⟩
                  intro x hx y hy
                  simp only [List.head?_cons, Option.mem_def, Option.some.injEq] at hy
                  subst hy
                  have hne : st.path ≠ [] := by
                    intro hnil; rw [hnil] at hx; simp at hx
                  rw [List.getLast?_eq_getLast st.path hne] at hx
                  simp only [Option.mem_def, Option.some.injEq] at hx
                  subst hx
                  exact he hne
                · intro hne
                  have h1 : (stx.path).getLast hne = id := by
                    rw [getLast_eq_of_eq hpx hne]
                    exact List.getLast_append_singleton st.path
                  rw [h1]
                  exact hds d (List.mem_cons_self d rest)
              | none =>
                rw [hfd] at hr
                have hpath : sty.path = stx.path :=
                  dfsVisit_none_path fuel stx d sty hfd
                exact ihd (fun d' hd' => hds d' (List.mem_cons_of_mem d hd'))
                  sty (hpath.trans hpx) out2 c2 hr
        cases hrun : runDeps (dfsVisit steps fuel)
            ⟨st.visited ++ [id], st.path ++ [id], st.finished⟩ (depsOfId steps id) with
        | mk st2 res =>
          cases res with
          | some c2 =>
            rw [hrun] at h
            simp only [Prod.mk.injEq, Option.some.injEq] at h
            obtain ⟨-, rfl⟩ := h
            exact aux (depsOfId steps id) (fun d hd => hd)
              ⟨st.visited ++ [id], st.path ++ [id], st.finished⟩ rfl st2 c2 hrun
          | none => rw [hrun] at h; simp at h

theorem detectCycleGo_some_hasCycle {steps : List WorkflowStep} :
    ∀ (fuel : Nat) (l : List WorkflowStep) (st : DfsSt) (c : List String),
      st.path = [] → detectCycleGo steps fuel st l = some c →
      HasCycle steps ∧ 2 ≤ c.length := by
  intro fuel l
  induction l with
  | nil => intro st c _ h; simp [detectCycleGo] at h
  | cons s rest ihl =>
    intro st c hpath h
    simp only [detectCycleGo] at h
    cases hfd : dfsVisit steps fuel st s.id with
    | mk st1 res =>
      cases res with
      | some c1 =>
        rw [hfd] at h
        simp only [Option.some.injEq] at h
        subst h
        refine dfsVisit_some_hasCycle fuel st s.id st1 _ ?_ ?_ hfd
        · rw [hpath]; exact List.chain'_nil
        · intro hne; rw [hpath] at hne; exact absurd rfl hne
      | none =>
        rw [hfd] at h
        have hp1 : st1.path = st.path := dfsVisit_none_path fuel st s.id st1 hfd
        exact ihl st1 c (hp1.trans hpath) h

/-- Soundness of `detectCycle`: a returned path certifies a genuine
dependency cycle, and the path has at least two entries. -/
theorem detectCycle_some_hasCycle {steps : List WorkflowStep} {c : List String}
    (h : detectCycle steps = some c) : HasCycle steps ∧ 2 ≤ c.length :=
  detectCycleGo_some_hasCycle (dfsFuel steps) steps ⟨[], [], []⟩ c rfl h

theorem detectCycle_eq_none {steps : List WorkflowStep}
    (h : ¬ HasCycle steps) : detectCycle steps = none := by
  cases hd : detectCycle steps with
  | none => rfl
  | some c => exact absurd (detectCycle_some_hasCycle hd).1 h

/-! DFS completeness: if no cycle path is returned, the ghost finish order
is a topological order, so the graph is acyclic. -/

/-- Append-extension of id lists (the ghost `finished` log only grows). -/
def ExtendsL (l l' : List String) : Prop := ∃ t, l' = l ++ t

theorem ExtendsL.refl (l : List String) : ExtendsL l l := ⟨[], by simp⟩

theorem ExtendsL.trans {l₁ l₂ l₃ : List String}
    (h₁ : ExtendsL l₁ l₂) (h₂ : ExtendsL l₂ l₃) : ExtendsL l₁ l₃ := by
  obtain ⟨t₁, rfl⟩ := h₁; obtain ⟨t₂, rfl⟩ := h₂
  exact ⟨t₁ ++ t₂, by simp⟩

theorem ExtendsL.mem {l l' : List String} {x : String}
    (h : ExtendsL l l') (hx : x ∈ l) : x ∈ l' := by
  obtain ⟨t, rfl⟩ := h; exact List.mem_append_left t hx

/-- All ids the DFS can ever visit: step ids and all dependency entries. -/
def univIds (steps : List WorkflowStep) : Finset String :=
  (steps.map (fun s => s.id) ++ (steps.map depsOf).flatten).toFinset

theorem stepId_mem_univ {steps : List WorkflowStep} {s : WorkflowStep}
    (hs : s ∈ steps) : s.id ∈ univIds steps := by
  unfold univIds
  rw [List.mem_toFinset, List.mem_append]
  exact Or.inl (List.mem_map_of_mem _ hs)

theorem depsOfId_mem_univ {steps : List WorkflowStep} {id d : String}
    (hd : d ∈ depsOfId steps id) : d ∈ univIds steps := by
  unfold depsOfId at hd
  cases hfind : byIdGet steps id with
  | none => rw [hfind] at hd; simp at hd
  | some s =>
    rw [hfind] at hd
    have hs : s ∈ steps := by
      have := List.mem_of_find?_eq_some hfind
      simpa using this
    unfold univIds
    rw [List.mem_toFinset, List.mem_append]
    refine Or.inr (List.mem_flatten.2 ⟨depsOf s, List.mem_map_of_mem depsOf hs, hd⟩)

/-- The ghost finish order is dependency-closed and topologically sorted:
all dependencies of the `i`-th finished id are finished strictly earlier. -/
def FinOK (steps : List WorkflowStep) (f : List String) : Prop :=
  ∀ (i : Nat) (x : String), f[i]? = some x → ∀ d ∈ depsOfId steps x, d ∈ f.take i

/-- DFS state invariant: `visited` is exactly `finished` plus the active
stack, and the finish order is topologically sorted. -/
def StInv (steps : List WorkflowStep) (st : DfsSt) : Prop :=
  (∀ x, x ∈ st.visited ↔ x ∈ st.finished ∨ x ∈ st.path) ∧ FinOK steps st.finished

theorem finOK_append {steps : List WorkflowStep} {f : List String} {id : String}
    (hf : FinOK steps f) (hdeps : ∀ d ∈ depsOfId steps id, d ∈ f) :
    FinOK steps (f ++ [id]) := by
  intro i x hx d hd
  rcases Nat.lt_or_ge i f.length with hi | hi
  · rw [List.getElem?_append_left hi] at hx
    have := hf i x hx d hd
    rw [List.take_append_of_le_length (Nat.le_of_lt hi)]
    exact this
  · have hx2 : ([id])[i - f.length]? = some x := by
      rw [← List.getElem?_append_right hi]
      exact hx
    have hi2 : i - f.length = 0 := by
      by_contra hne
      cases hk : i - f.length with
      | zero => exact hne hk
      | succ k => rw [hk] at hx2; simp at hx2
    rw [hi2] at hx2
    simp only [List.getElem?_cons_zero, Option.some.injEq] at hx2
    subst hx2
    rw [List.take_append_eq_append_take]
    rw [List.take_of_length_le hi]
    exact List.mem_append_left _ (hdeps d hd)

theorem card_diff_lt_insert {steps : List WorkflowStep} {visited : List String}
    {id : String} (hid : id ∈ univIds steps) (hnv : id ∉ visited) :
    (univIds steps \ (visited ++ [id]).toFinset).card <
      (univIds steps \ visited.toFinset).card := by
  have hmem : id ∈ univIds steps \ visited.toFinset := by
    rw [Finset.mem_sdiff, List.mem_toFinset]
    exact ⟨hid, hnv⟩
  have hsub : univIds steps \ (visited ++ [id]).toFinset ⊆
      (univIds steps \ visited.toFinset).erase id := by
    intro x hx
    rw [Finset.mem_sdiff, List.mem_toFinset, List.mem_append] at hx
    rw [Finset.mem_erase, Finset.mem_sdiff, List.mem_toFinset]
    push_neg at hx
    exact ⟨by simpa using hx.2.2, hx.1, hx.2.1⟩
  calc (univIds steps \ (visited ++ [id]).toFinset).card
      ≤ ((univIds steps \ visited.toFinset).erase id).card := Finset.card_le_card hsub
    _ < (univIds steps \ visited.toFinset).card := Finset.card_erase_lt_of_mem hmem

theorem card_diff_le_mono {steps : List WorkflowStep} {v v' : List String}
    (h : ∀ x ∈ v, x ∈ v') :
    (univIds steps \ v'.toFinset).card ≤ (univIds steps \ v.toFinset).card := by
  refine Finset.card_le_card ?_
  intro x hx
  rw [Finset.mem_sdiff, List.mem_toFinset] at hx ⊢
  exact ⟨hx.1, fun hxv => hx.2 (h x hxv)⟩

theorem runDeps_none_inv {steps : List WorkflowStep} {fuel : Nat}
    (hf : ∀ (st : DfsSt) (d : String) (st' : DfsSt),
        StInv steps st → d ∈ univIds steps →
        (univIds steps \ st.visited.toFinset).card < fuel →
        dfsVisit steps fuel st d = (st', none) →
        StInv steps st' ∧ st'.path = st.path ∧ ExtendsL st.finished st'.finished ∧
          (∀ x ∈ st.visited, x ∈ st'.visited) ∧ d ∈ st'.finished) :
    ∀ (ds : List String) (st st' : DfsSt),
      StInv steps st → (∀ d ∈ ds, d ∈ univIds steps) →
      (univIds steps \ st.visited.toFinset).card < fuel →
      runDeps (dfsVisit steps fuel) st ds = (st', none) →
      StInv steps st' ∧ st'.path = st.path ∧ ExtendsL st.finished st'.finished ∧
        (∀ x ∈ st.visited, x ∈ st'.visited) ∧ ∀ d ∈ ds, d ∈ st'.finished := by
  intro ds
  induction ds with
  | nil =>
    intro st st' hinv _ _ h
    simp only [runDeps] at h
    obtain ⟨rfl, -⟩ := Prod.mk.injEq .. ▸ h
    exact ⟨hinv, rfl, ExtendsL.refl _, fun x hx => hx, by simp⟩
  | cons d rest ih =>
    intro st st' hinv hds hcard h
    simp only [runDeps] at h
    cases hfd : dfsVisit steps fuel st d with
    | mk st1 res =>
      cases res with
      | some c => rw [hfd] at h; simp at h
      | none =>
        rw [hfd] at h
        obtain ⟨hinv1, hpath1, hext1, hvis1, hdf1⟩ :=
          hf st d st1 hinv (hds d (List.mem_cons_self d rest)) hcard hfd
        have hcard1 : (univIds steps \ st1.visited.toFinset).card < fuel :=
          Nat.lt_of_le_of_lt (card_diff_le_mono hvis1) hcard
        obtain ⟨hinv2, hpath2, hext2, hvis2, hrest2⟩ :=
          ih st1 st' hinv1 (fun d' hd' => hds d' (List.mem_cons_of_mem d hd')) hcard1 h
        refine ⟨hinv2, hpath2.trans hpath1, hext1.trans hext2,
          fun x hx => hvis2 x (hvis1 x hx), ?_⟩
        intro d' hd'
        rcases List.mem_cons.1 hd' with rfl | hd'
        · exact hext2.mem hdf1
        · exact hrest2 d' hd'

theorem dfsVisit_none_inv {steps : List WorkflowStep} :
    ∀ (fuel : Nat) (st : DfsSt) (id : String) (st' : DfsSt),
      StInv steps st →
      id ∈ univIds steps →
      (univIds steps \ st.visited.toFinset).card < fuel →
      dfsVisit steps fuel st id = (st', none) →
      StInv steps st' ∧ st'.path = st.path ∧ ExtendsL st.finished st'.finished ∧
        (∀ x ∈ st.visited, x ∈ st'.visited) ∧ id ∈ st'.finished := by
  intro fuel
  induction fuel with
  | zero => intro st id st' _ _ hcard _; exact absurd hcard (Nat.not_lt_zero _)
  | succ fuel ih =>
    intro st id st' hinv hid hcard h
    simp only [dfsVisit] at h
    by_cases hp : id ∈ st.path
    · simp [hp] at h
    · by_cases hv : id ∈ st.visited
      · simp [hp, hv] at h
        subst h
        have hidf : id ∈ st.finished := by
          rcases (hinv.1 id).1 hv with hf | hpp
          · exact hf
          · exact absurd hpp hp
        exact ⟨hinv, rfl, ExtendsL.refl _, fun x hx => hx, hidf⟩
      · simp only [hp, hv, if_neg, not_false_iff, ite_false] at h
        cases hrun : runDeps (dfsVisit steps fuel)
            ⟨st.visited ++ [id], st.path ++ [id], st.finished⟩ (depsOfId steps id) with
        | mk st2 res =>
          cases res with
          | some c => rw [hrun] at h; simp at h
          | none =>
            rw [hrun] at h
            simp only [Prod.mk.injEq] at h
            obtain ⟨hst', -⟩ := h
            have hinv1 : StInv steps ⟨st.visited ++ [id], st.path ++ [id], st.finished⟩ := by
              constructor
              · intro x
                simp only [List.mem_append, List.mem_singleton]
                have := hinv.1 x
                tauto
              · exact hinv.2
            have hcard1 : (univIds steps \ (st.visited ++ [id]).toFinset).card < fuel := by
              have hlt := @card_diff_lt_insert steps st.visited id hid hv
              omega
            obtain ⟨hinv2, hpath2, hext2, hvis2, hdeps2⟩ :=
              runDeps_none_inv (fun s d s' => ih s d s') (depsOfId steps id)
                ⟨st.visited ++ [id], st.path ++ [id], st.finished⟩ st2 hinv1
                (fun d hd => depsOfId_mem_univ hd) hcard1 hrun
            subst hst'
            refine ⟨?_, rfl, ?_, ?_, ?_⟩
            · constructor
              · intro x
                have h2 := hinv2.1 x
                rw [hpath2] at h2
                simp only [List.mem_append, List.mem_singleton] at h2 ⊢
                tauto
              · exact finOK_append hinv2.2 (fun d hd => hdeps2 d hd)
            · exact (ExtendsL.trans hext2 ⟨[id], rfl⟩ : ExtendsL st.finished _)
            · intro x hx
              exact hvis2 x (List.mem_append_left [id] hx)
            · exact List.mem_append_right _ (List.mem_singleton_self id)

theorem detectCycleGo_none_inv {steps : List WorkflowStep} {fuel : Nat} :
    ∀ (l : List WorkflowStep) (st : DfsSt),
      StInv steps st → (∀ s ∈ l, s ∈ steps) →
      (univIds steps \ st.visited.toFinset).card < fuel →
      detectCycleGo steps fuel st l = none →
      ∃ stf, StInv steps stf ∧ ExtendsL st.finished stf.finished ∧
        ∀ s ∈ l, s.id ∈ stf.finished := by
  intro l
  induction l with
  | nil =>
    intro st hinv _ _ _
    exact ⟨st, hinv, ExtendsL.refl _, by simp⟩
  | cons s rest ih =>
    intro st hinv hl hcard h
    simp only [detectCycleGo] at h
    cases hfd : dfsVisit steps fuel st s.id with
    | mk st1 res =>
      cases res with
      | some c => rw [hfd] at h; simp at h
      | none =>
        rw [hfd] at h
        obtain ⟨hinv1, -, hext1, hvis1, hid1⟩ :=
          dfsVisit_none_inv fuel st s.id st1 hinv
            (stepId_mem_univ (hl s (List.mem_cons_self s rest))) hcard hfd
        have hcard1 : (univIds steps \ st1.visited.toFinset).card < fuel :=
          Nat.lt_of_le_of_lt (card_diff_le_mono hvis1) hcard
        obtain ⟨stf, hinvf, hextf, hallf⟩ :=
          ih st1 hinv1 (fun t ht => hl t (List.mem_cons_of_mem s ht)) hcard1 h
        refine ⟨stf, hinvf, hext1.trans hextf, ?_⟩
        intro t ht
        rcases List.mem_cons.1 ht with rfl | ht
        · exact hextf.mem hid1
        · exact hallf t ht

theorem detectCycle_none_topo {steps : List WorkflowStep}
    (h : detectCycle steps = none) :
    ∃ f, FinOK steps f ∧ ∀ s ∈ steps, s.id ∈ f := by
  have hinv0 : StInv steps ⟨[], [], []⟩ := by
    constructor
    · intro x; simp
    · intro i x hx; simp at hx
  have hcard0 : (univIds steps \ (([] : List String)).toFinset).card < dfsFuel steps := by
    have h1 : (univIds steps).card ≤
        (steps.map (fun s => s.id) ++ (steps.map depsOf).flatten).length :=
      List.toFinset_card_le _
    have h2 : ((steps.map depsOf).flatten).length =
        (steps.map (fun s => (depsOf s).length)).sum := by
      rw [List.length_flatten, List.map_map]
      rfl
    rw [List.length_append, List.length_map, h2] at h1
    unfold dfsFuel
    simp only [List.toFinset_nil, Finset.sdiff_empty]
    omega
  obtain ⟨stf, hinvf, -, hallf⟩ :=
    detectCycleGo_none_inv steps ⟨[], [], []⟩ hinv0 (fun s hs => hs) hcard0 h
  exact ⟨stf.finished, hinvf.2, hallf⟩

theorem idxOfStr_getElem? {a : String} :
    ∀ {l : List String}, a ∈ l → l[idxOfStr a l]? = some a := by
  intro l
  induction l with
  | nil => intro h; simp at h
  | cons b t ih =>
    intro h
    by_cases hba : b = a
    · subst hba; simp [idxOfStr]
    · have ha : a ∈ t := by
        rcases List.mem_cons.1 h with h1 | h1
        · exact absurd h1.symm hba
        · exact h1
      simpa [idxOfStr, hba] using ih ha

theorem idxOfStr_lt_of_mem_take {x : String} :
    ∀ (l : List String) (i : Nat), x ∈ l.take i → idxOfStr x l < i := by
  intro l
  induction l with
  | nil => intro i h; simp at h
  | cons b t ih =>
    intro i h
    cases i with
    | zero => simp at h
    | succ i =>
      rw [List.take_succ_cons] at h
      by_cases hbx : b = x
      · simp [idxOfStr, hbx]
      · have hx : x ∈ t.take i := by
          rcases List.mem_cons.1 h with h1 | h1
          · exact absurd h1.symm hbx
          · exact h1
        have := ih i hx
        simp only [idxOfStr, hbx, if_false, ite_false]
        omega

/-- Completeness of `detectCycle`: when it reports no cycle, the dependency
graph is genuinely acyclic (the ghost finish order is a topological
order). -/
theorem detectCycle_none_no_cycle {steps : List WorkflowStep}
    (h : detectCycle steps = none) : ¬ HasCycle steps := by
  obtain ⟨f, hfok, hall⟩ := detectCycle_none_topo h
  refine no_cycle_of_rank (r := fun x => idxOfStr x f) ?_
  intro a b hab
  obtain ⟨s, hs, rfl, -⟩ := depEdge_elim hab
  have haf : s.id ∈ f := hall s hs
  have hget := idxOfStr_getElem? haf
  have htake := hfok (idxOfStr s.id f) s.id hget b hab
  exact idxOfStr_lt_of_mem_take f _ htake

/-- On a step list with a dependency cycle, `detectCycle` finds a cycle path
of length at least 2. -/
theorem detectCycle_isSome_of_hasCycle {steps : List WorkflowStep}
    (h : HasCycle steps) : ∃ c, detectCycle steps = some c ∧ 2 ≤ c.length := by
  cases hd : detectCycle steps with
  | none => exact absurd h (detectCycle_none_no_cycle hd)
  | some c => exact ⟨c, rfl, (detectCycle_some_hasCycle hd).2⟩

/-! Lemmas about the completed-set bookkeeping of `wavesLoop`. -/

theorem mem_insertId {c : List String} {id x : String} :
    x ∈ insertId c id ↔ x ∈ c ∨ x = id := by
  unfold insertId
  by_cases h : id ∈ c
  · simp only [h, if_pos]
    constructor
    · exact Or.inl
    · rintro (hx | rfl)
      · exact hx
      · exact h
  · simp [h]

theorem insertId_nodup {c : List String} {id : String} (h : c.Nodup) :
    (insertId c id).Nodup := by
  unfold insertId
  by_cases hm : id ∈ c
  · simpa [hm]
  · simp only [hm, if_neg, not_false_iff, ite_false]
    exact List.Nodup.append h (List.nodup_singleton id) (by simpa using hm)

theorem insertId_length_le {c : List String} {id : String} :
    c.length ≤ (insertId c id).length := by
  unfold insertId
  by_cases hm : id ∈ c <;> simp [hm]

theorem insertId_length_lt {c : List String} {id : String} (h : id ∉ c) :
    c.length < (insertId c id).length := by
  unfold insertId
  simp [h]

theorem mem_insertIds {x : String} :
    ∀ (l : List WorkflowStep) (c : List String),
      x ∈ insertIds c l ↔ x ∈ c ∨ ∃ s ∈ l, s.id = x := by
  intro l
  induction l with
  | nil => intro c; simp [insertIds]
  | cons s rest ih =>
    intro c
    have hstep : insertIds c (s :: rest) = insertIds (insertId c s.id) rest := rfl
    rw [hstep, ih, mem_insertId]
    constructor
    · rintro ((hx | rfl) | ⟨t, ht, rfl⟩)
      · exact Or.inl hx
      · exact Or.inr ⟨s, List.mem_cons_self s rest, rfl⟩
      · exact Or.inr ⟨t, List.mem_cons_of_mem s ht, rfl⟩
    · rintro (hx | ⟨t, ht, rfl⟩)
      · exact Or.inl (Or.inl hx)
      · rcases List.mem_cons.1 ht with rfl | ht
        · exact Or.inl (Or.inr rfl)
        · exact Or.inr ⟨t, ht, rfl⟩

theorem insertIds_nodup :
    ∀ (l : List WorkflowStep) (c : List String), c.Nodup → (insertIds c l).Nodup := by
  intro l
  induction l with
  | nil => intro c h; exact h
  | cons s rest ih =>
    intro c h
    exact ih (insertId c s.id) (insertId_nodup h)

theorem insertIds_length_le :
    ∀ (l : List WorkflowStep) (c : List String), c.length ≤ (insertIds c l).length := by
  intro l
  induction l with
  | nil => intro c; exact le_refl _
  | cons s rest ih =>
    intro c
    exact le_trans insertId_length_le (ih (insertId c s.id))

theorem insertIds_length_lt :
    ∀ (l : List WorkflowStep) (c : List String), (∃ s ∈ l, s.id ∉ c) →
      c.length < (insertIds c l).length := by
  intro l
  induction l with
  | nil => rintro c ⟨s, hs, -⟩; simp at hs
  | cons s rest ih =>
    rintro c ⟨t, ht, htc⟩
    by_cases hsc : s.id ∈ c
    · have hc' : insertId c s.id = c := by unfold insertId; simp [hsc]
      have hne : t ≠ s := by rintro rfl; exact htc hsc
      have ht' : t ∈ rest := by
        rcases List.mem_cons.1 ht with rfl | h
        · exact absurd rfl hne
        · exact h
      have := ih c ⟨t, ht', htc⟩
      calc c.length < (insertIds c rest).length := this
        _ = (insertIds (insertId c s.id) rest).length := by rw [hc']
    · calc c.length < (insertId c s.id).length := insertId_length_lt hsc
        _ ≤ (insertIds (insertId c s.id) rest).length := insertIds_length_le _ _
        _ = (insertIds c (s :: rest)).length := rfl

theorem nodup_subset_length {l₁ l₂ : List String} (h : l₁.Nodup)
    (hsub : ∀ x ∈ l₁, x ∈ l₂) : l₁.length ≤ l₂.length := by
  calc l₁.length = l₁.toFinset.card := (List.toFinset_card_of_nodup h).symm
    _ ≤ l₂.toFinset.card := Finset.card_le_card (by
        intro x hx
        rw [List.mem_toFinset] at hx ⊢
        exact hsub x hx)
    _ ≤ l₂.length := List.toFinset_card_le _

theorem eq_of_id_eq {steps : List WorkflowStep}
    (hnd : (steps.map (fun s => s.id)).Nodup) {s t : WorkflowStep}
    (hs : s ∈ steps) (ht : t ∈ steps) (hid : s.id = t.id) : s = t :=
  List.inj_on_of_nodup_map hnd hs ht hid

theorem exists_min_by {α : Type} (f : α → Nat) :
    ∀ (l : List α), l ≠ [] → ∃ a ∈ l, ∀ b ∈ l, f a ≤ f b := by
  intro l
  induction l with
  | nil => intro h; exact absurd rfl h
  | cons a rest ih =>
    intro _
    cases hrest : rest with
    | nil => exact ⟨a, List.mem_cons_self a _, by rintro b hb; simp at hb; subst hb; exact le_refl _⟩
    | cons b t =>
      obtain ⟨m, hm, hmin⟩ := ih (by simp [hrest])
      rw [← hrest] at *
      by_cases hcmp : f a ≤ f m
      · refine ⟨a, List.mem_cons_self a rest, ?_⟩
        intro x hx
        rcases List.mem_cons.1 hx with rfl | hx
        · exact le_refl _
        · exact le_trans hcmp (hmin x hx)
      · refine ⟨m, List.mem_cons_of_mem a hm, ?_⟩
        intro x hx
        rcases List.mem_cons.1 hx with rfl | hx
        · exact le_of_not_le hcmp
        · exact hmin x hx

theorem mem_readySteps {steps : List WorkflowStep} {completed : List String}
    {s : WorkflowStep} :
    s ∈ readySteps steps completed ↔
      s ∈ steps ∧ s.id ∉ completed ∧ ∀ d ∈ depsOf s, d ∈ completed := by
  unfold readySteps
  rw [List.mem_filter]
  simp

theorem all_ids_completed {steps : List WorkflowStep} {completed : List String}
    (hnd : (steps.map (fun s => s.id)).Nodup) (hcn : completed.Nodup)
    (hcs : ∀ x ∈ completed, x ∈ steps.map (fun s => s.id))
    (hlen : steps.length ≤ completed.length) :
    ∀ s ∈ steps, s.id ∈ completed := by
  intro s hs
  have hsub : completed.toFinset ⊆ (steps.map (fun s => s.id)).toFinset := by
    intro x hx
    rw [List.mem_toFinset] at hx ⊢
    exact hcs x hx
  have hcards : (steps.map (fun s => s.id)).toFinset.card ≤ completed.toFinset.card := by
    rw [List.toFinset_card_of_nodup hnd, List.toFinset_card_of_nodup hcn, List.length_map]
    exact hlen
  have heq := Finset.eq_of_subset_of_card_le hsub hcards
  have : s.id ∈ completed.toFinset := by
    rw [heq, List.mem_toFinset]
    exact List.mem_map_of_mem _ hs
  rwa [List.mem_toFinset] at this

theorem exists_uncompleted {steps : List WorkflowStep} {completed : List String}
    (hnd : (steps.map (fun s => s.id)).Nodup)
    (hcn : completed.Nodup)
    (hcs : ∀ x ∈ completed, x ∈ steps.map (fun s => s.id))
    (hlen : completed.length < steps.length) :
    ∃ s ∈ steps, s.id ∉ completed := by
  by_contra hall
  push_neg at hall
  have hsub : ∀ x ∈ steps.map (fun s => s.id), x ∈ completed := by
    intro x hx
    obtain ⟨s, hs, rfl⟩ := List.mem_map.1 hx
    exact hall s hs
  have := nodup_subset_length hnd hsub
  rw [List.length_map] at this
  omega

theorem readySteps_ne_nil {steps : List WorkflowStep} {completed : List String}
    (hnd : (steps.map (fun s => s.id)).Nodup)
    (hcl : ∀ s ∈ steps, ∀ d ∈ depsOf s, d ∈ steps.map (fun s => s.id))
    {r : String → Nat} (hr : RankedBy steps r)
    (hcn : completed.Nodup)
    (hcs : ∀ x ∈ completed, x ∈ steps.map (fun s => s.id))
    (hlen : completed.length < steps.length) :
    readySteps steps completed ≠ [] := by
  obtain ⟨s1, hs1, hs1c⟩ := exists_uncompleted hnd hcn hcs hlen
  have hrem : s1 ∈ steps.filter (fun s => s.id ∉ completed) := by
    rw [List.mem_filter]
    exact ⟨hs1, by simpa using hs1c⟩
  obtain ⟨s0, hs0rem, hs0min⟩ :=
    exists_min_by (fun s => r s.id) (steps.filter (fun s => s.id ∉ completed))
      (List.ne_nil_of_mem hrem)
  rw [List.mem_filter] at hs0rem
  obtain ⟨hs0, hs0c⟩ := hs0rem
  have hs0c : s0.id ∉ completed := by simpa using hs0c
  have hready : s0 ∈ readySteps steps completed := by
    rw [mem_readySteps]
    refine ⟨hs0, hs0c, ?_⟩
    intro d hd
    by_contra hdc
    obtain ⟨t, ht, rfl⟩ := List.mem_map.1 (hcl s0 hs0 d hd)
    have htrem : t ∈ steps.filter (fun s => s.id ∉ completed) := by
      rw [List.mem_filter]
      exact ⟨ht, by simpa using hdc⟩
    have h1 := hs0min t htrem
    have h2 := hr s0 hs0 t.id hd
    omega
  exact List.ne_nil_of_mem hready

/-- Main positive lemma for the resolver loop: on a valid DAG it succeeds,
dependencies land strictly earlier, waves are internally independent, every
uncompleted step is scheduled, and every wave after the first is justified
by a dependency in the immediately preceding wave. -/
theorem wavesLoop_spec {steps : List WorkflowStep}
    (hnd : (steps.map (fun s => s.id)).Nodup)
    (hcl : ∀ s ∈ steps, ∀ d ∈ depsOf s, d ∈ steps.map (fun s => s.id))
    {r : String → Nat} (hr : RankedBy steps r) :
    ∀ (fuel : Nat) (completed : List String),
      completed.Nodup → (∀ x ∈ completed, x ∈ steps.map (fun s => s.id)) →
      steps.length - completed.length < fuel →
      ∃ waves, wavesLoop steps fuel completed = .ok waves ∧
        (∀ (i : Nat) (w : List WorkflowStep), waves[i]? = some w → ∀ s ∈ w,
          s ∈ steps ∧ s.id ∉ completed ∧
          ∀ d ∈ depsOf s, d ∈ completed ∨
            ∃ (j : Nat) (w' : List WorkflowStep), j < i ∧ waves[j]? = some w' ∧
              d ∈ w'.map (fun t => t.id)) ∧
        (∀ s ∈ steps, s.id ∉ completed →
          ∃ (i : Nat) (w : List WorkflowStep), waves[i]? = some w ∧ s ∈ w) ∧
        (∀ (i : Nat) (w : List WorkflowStep), waves[i]? = some w →
          ∀ s ∈ w, ∀ t ∈ w, t.id ∉ depsOf s) ∧
        (∀ (i : Nat) (w : List WorkflowStep), waves[i + 1]? = some w → ∀ s ∈ w,
          ∃ w' : List WorkflowStep, waves[i]? = some w' ∧
            ∃ d ∈ depsOf s, d ∈ w'.map (fun t => t.id)) := by
  intro fuel
  induction fuel with
  | zero => intro completed _ _ hf; exact absurd hf (Nat.not_lt_zero _)
  | succ fuel ih =>
    intro completed hcn hcs hfuel
    by_cases hguard : completed.length < steps.length
    · have hready := readySteps_ne_nil hnd hcl hr hcn hcs hguard
      have hcn' : (insertIds completed (readySteps steps completed)).Nodup :=
        insertIds_nodup _ _ hcn
      have hcs' : ∀ x ∈ insertIds completed (readySteps steps completed),
          x ∈ steps.map (fun s => s.id) := by
        intro x hx
        rcases (mem_insertIds _ _).1 hx with hx | ⟨s, hs, rfl⟩
        · exact hcs x hx
        · exact List.mem_map_of_mem _ ((mem_readySteps.1 hs).1)
      have hgrow : completed.length <
          (insertIds completed (readySteps steps completed)).length := by
        refine insertIds_length_lt _ _ ?_
        obtain ⟨s, hs⟩ := List.exists_mem_of_ne_nil _ hready
        exact ⟨s, hs, (mem_readySteps.1 hs).2.1⟩
      have hfuel' : steps.length -
          (insertIds completed (readySteps steps completed)).length < fuel := by
        omega
      obtain ⟨rest, hrest, hP1, hP2, hP3, hP4⟩ := ih _ hcn' hcs' hfuel'
      refine ⟨readySteps steps completed :: rest, ?_, ?_, ?_, ?_, ?_⟩
      · show wavesLoop steps (fuel + 1) completed = _
        rw [wavesLoop]
        rw [if_pos hguard, if_neg hready, hrest]
      · intro i w hw s hs
        cases i with
        | zero =>
          rw [List.getElem?_cons_zero, Option.some.injEq] at hw
          subst hw
          obtain ⟨h1, h2, h3⟩ := mem_readySteps.1 hs
          exact ⟨h1, h2, fun d hd => Or.inl (h3 d hd)⟩
        | succ i =>
          rw [List.getElem?_cons_succ] at hw
          obtain ⟨h1, h2, h3⟩ := hP1 i w hw s hs
          refine ⟨h1, ?_, ?_⟩
          · intro hc
            exact h2 ((mem_insertIds _ _).2 (Or.inl hc))
          · intro d hd
            rcases h3 d hd with hd' | ⟨j, w', hj, hw', hd'⟩
            · rcases (mem_insertIds _ _).1 hd' with hd'' | ⟨t, ht, rfl⟩
              · exact Or.inl hd''
              · exact Or.inr ⟨0, readySteps steps completed,
                  Nat.succ_pos i, List.getElem?_cons_zero, List.mem_map_of_mem _ ht⟩
            · exact Or.inr ⟨j + 1, w', by omega, by rwa [List.getElem?_cons_succ], hd'⟩
      · intro s hs hsc
        by_cases hsr : s ∈ readySteps steps completed
        · exact ⟨0, _, List.getElem?_cons_zero, hsr⟩
        · have hsc' : s.id ∉ insertIds completed (readySteps steps completed) := by
            intro hmem
            rcases (mem_insertIds _ _).1 hmem with h | ⟨t, ht, hid⟩
            · exact hsc h
            · exact hsr (eq_of_id_eq hnd ((mem_readySteps.1 ht).1) hs hid ▸ ht)
          obtain ⟨i, w, hw, hsw⟩ := hP2 s hs hsc'
          exact ⟨i + 1, w, by rwa [List.getElem?_cons_succ], hsw⟩
      · intro i w hw s hs t ht
        cases i with
        | zero =>
          rw [List.getElem?_cons_zero, Option.some.injEq] at hw
          subst hw
          have h3 := (mem_readySteps.1 hs).2.2
          have h2 := (mem_readySteps.1 ht).2.1
          intro hmem
          exact h2 (h3 t.id hmem)
        | succ i =>
          rw [List.getElem?_cons_succ] at hw
          exact hP3 i w hw s hs t ht
      · intro i w hw s hs
        cases i with
        | zero =>
          rw [List.getElem?_cons_succ] at hw
          refine ⟨readySteps steps completed, List.getElem?_cons_zero, ?_⟩
          obtain ⟨hsteps, hsnc', hdeps⟩ := hP1 0 w hw s hs
          by_contra hno
          push_neg at hno
          have hdc : ∀ d ∈ depsOf s, d ∈ completed := by
            intro d hd
            rcases hdeps d hd with hd' | ⟨j, w', hj, -, -⟩
            · rcases (mem_insertIds _ _).1 hd' with h | ⟨t, ht, rfl⟩
              · exact h
              · exact absurd (List.mem_map_of_mem _ ht) (hno t.id hd)
            · omega
          have hsnc : s.id ∉ completed := fun h =>
            hsnc' ((mem_insertIds _ _).2 (Or.inl h))
          have hsready : s ∈ readySteps steps completed :=
            mem_readySteps.2 ⟨hsteps, hsnc, hdc⟩
          exact hsnc' ((mem_insertIds _ _).2 (Or.inr ⟨s, hsready, rfl⟩))
        | succ i =>
          rw [List.getElem?_cons_succ] at hw
          obtain ⟨w', hw', hd⟩ := hP4 i w hw s hs
          exact ⟨w', by rwa [List.getElem?_cons_succ], hd⟩
    · refine ⟨[], ?_, ?_, ?_, ?_, ?_⟩
      · show wavesLoop steps (fuel + 1) completed = _
        rw [wavesLoop, if_neg hguard]
      · intro i w hw; simp at hw
      · intro s hs hsc
        exact absurd (all_ids_completed hnd hcn hcs (by omega) s hs) hsc
      · intro i w hw; simp at hw
      · intro i w hw; simp at hw

theorem wavesLoop_stuck {steps : List WorkflowStep}
    (hnd : (steps.map (fun t => t.id)).Nodup)
    {s : WorkflowStep} {d : String} (hs : s ∈ steps) (hd : d ∈ depsOf s)
    (hdm : d ∉ steps.map (fun t => t.id)) :
    ∀ (fuel : Nat) (completed : List String),
      completed.Nodup → (∀ x ∈ completed, x ∈ steps.map (fun t => t.id)) →
      steps.length - completed.length < fuel →
      s.id ∉ completed →
      ∃ rem, wavesLoop steps fuel completed = .error (.stuck rem) ∧
        s.id ∈ rem ∧ (∀ x ∈ rem, x ∈ steps.map (fun t => t.id)) := by
  intro fuel
  induction fuel with
  | zero => intro completed _ _ hf _; exact absurd hf (Nat.not_lt_zero _)
  | succ fuel ih =>
    intro completed hcn hcs hfuel hsnc
    have hguard : completed.length < steps.length := by
      have h1 : (insertId completed s.id).Nodup := insertId_nodup hcn
      have h2 : ∀ x ∈ insertId completed s.id, x ∈ steps.map (fun t => t.id) := by
        intro x hx
        rcases mem_insertId.1 hx with hx | rfl
        · exact hcs x hx
        · exact List.mem_map_of_mem _ hs
      have h3 := nodup_subset_length h1 h2
      have h4 := insertId_length_lt hsnc
      rw [List.length_map] at h3
      omega
    by_cases hready : readySteps steps completed = []
    · refine ⟨remainingIds steps completed, ?_, ?_, ?_⟩
      · rw [wavesLoop, if_pos hguard, if_pos hready]
      · unfold remainingIds
        refine List.mem_map_of_mem _ ?_
        rw [List.mem_filter]
        exact ⟨hs, by simpa using hsnc⟩
      · intro x hx
        unfold remainingIds at hx
        obtain ⟨t, ht, rfl⟩ := List.mem_map.1 hx
        exact List.mem_map_of_mem _ (List.mem_filter.1 ht).1
    · have hcn' : (insertIds completed (readySteps steps completed)).Nodup :=
        insertIds_nodup _ _ hcn
      have hcs' : ∀ x ∈ insertIds completed (readySteps steps completed),
          x ∈ steps.map (fun t => t.id) := by
        intro x hx
        rcases (mem_insertIds _ _).1 hx with hx | ⟨t, ht, rfl⟩
        · exact hcs x hx
        · exact List.mem_map_of_mem _ ((mem_readySteps.1 ht).1)
      have hgrow : completed.length <
          (insertIds completed (readySteps steps completed)).length := by
        refine insertIds_length_lt _ _ ?_
        obtain ⟨t, ht⟩ := List.exists_mem_of_ne_nil _ hready
        exact ⟨t, ht, (mem_readySteps.1 ht).2.1⟩
      have hfuel' : steps.length -
          (insertIds completed (readySteps steps completed)).length < fuel := by
        omega
      have hsnc' : s.id ∉ insertIds completed (readySteps steps completed) := by
        intro hmem
        rcases (mem_insertIds _ _).1 hmem with h | ⟨t, ht, hid⟩
        · exact hsnc h
        · have hteq : t = s := eq_of_id_eq hnd ((mem_readySteps.1 ht).1) hs hid
          subst hteq
          have hdc := (mem_readySteps.1 ht).2.2 d hd
          exact hdm (hcs d hdc)
      obtain ⟨rem, hrem, hmem, hsub⟩ := ih _ hcn' hcs' hfuel' hsnc'
      refine ⟨rem, ?_, hmem, hsub⟩
      rw [wavesLoop, if_pos hguard, if_neg hready, hrem]

theorem wavesLoop_ne_fuelExhausted {steps : List WorkflowStep} :
    ∀ (fuel : Nat) (completed : List String),
      steps.length - completed.length < fuel →
      wavesLoop steps fuel completed ≠ .error .fuelExhausted := by
  intro fuel
  induction fuel with
  | zero => intro completed hf; exact absurd hf (Nat.not_lt_zero _)
  | succ fuel ih =>
    intro completed hfuel
    by_cases hguard : completed.length < steps.length
    · by_cases hready : readySteps steps completed = []
      · rw [wavesLoop, if_pos hguard, if_pos hready]
        intro h
        exact ResolveError.noConfusion (Except.error.inj h)
      · have hgrow : completed.length <
            (insertIds completed (readySteps steps completed)).length := by
          refine insertIds_length_lt _ _ ?_
          obtain ⟨t, ht⟩ := List.exists_mem_of_ne_nil _ hready
          exact ⟨t, ht, (mem_readySteps.1 ht).2.1⟩
        have hfuel' : steps.length -
            (insertIds completed (readySteps steps completed)).length < fuel := by
          omega
        have hrec := ih _ hfuel'
        rw [wavesLoop, if_pos hguard, if_neg hready]
        cases hr : wavesLoop steps fuel (insertIds completed (readySteps steps completed)) with
        | ok rest => intro h; exact Except.noConfusion h
        | error e =>
          intro h
          apply hrec
          rw [hr, Except.error.inj h]
    · rw [wavesLoop, if_neg hguard]
      intro h
      exact Except.noConfusion h

/-- Totality of the embedding: the artificial fuel bound of the resolver
loop is never reached. -/
theorem resolveDependencyOrder_no_fuel (steps : List WorkflowStep) :
    resolveDependencyOrder steps ≠ .error .fuelExhausted := by
  unfold resolveDependencyOrder
  cases hd : detectCycle steps with
  | some c =>
    intro h
    exact ResolveError.noConfusion (Except.error.inj h)
  | none => exact wavesLoop_ne_fuelExhausted _ [] (by omega)

/-- C1: for every step list forming a valid DAG, `resolveWaves`
(`resolveDependencyOrder`) succeeds and returns waves in which every step
appears, every step's dependencies appear in a strictly earlier wave, no two
steps in the same wave depend on each other, steps with no dependencies land
in the very first wave, and every step in a later wave is forced there by a
dependency in the immediately preceding wave (so every step lands in the
earliest possible wave). -/
theorem resolveDependencyOrder_validDag_spec {steps : List WorkflowStep}
    (h : ValidDag steps) :
    ∃ waves, resolveDependencyOrder steps = .ok waves ∧
      (∀ s ∈ steps, ∃ (i : Nat) (w : List WorkflowStep), waves[i]? = some w ∧ s ∈ w) ∧
      (∀ (i : Nat) (w : List WorkflowStep), waves[i]? = some w → ∀ s ∈ w,
        s ∈ steps ∧ ∀ d ∈ depsOf s, ∃ (j : Nat) (w' : List WorkflowStep),
          j < i ∧ waves[j]? = some w' ∧ d ∈ w'.map (fun t => t.id)) ∧
      (∀ (i : Nat) (w : List WorkflowStep), waves[i]? = some w →
        ∀ s ∈ w, ∀ t ∈ w, t.id ∉ depsOf s) ∧
      (∀ s ∈ steps, depsOf s = [] →
        ∃ w : List WorkflowStep, waves[0]? = some w ∧ s ∈ w) ∧
      (∀ (i : Nat) (w : List WorkflowStep), waves[i + 1]? = some w → ∀ s ∈ w,
        ∃ w' : List WorkflowStep, waves[i]? = some w' ∧
          ∃ d ∈ depsOf s, d ∈ w'.map (fun t => t.id)) := by
  obtain ⟨hnd, hcl, r, hr⟩ := h
  have hnone : detectCycle steps = none :=
    detectCycle_eq_none (validDag_no_cycle ⟨hnd, hcl, r, hr⟩)
  obtain ⟨waves, hwaves, hP1, hP2, hP3, hP4⟩ :=
    wavesLoop_spec hnd hcl hr (steps.length + 1) [] List.nodup_nil
      (by intro x hx; simp at hx) (by omega)
  refine ⟨waves, ?_, ?_, ?_, hP3, ?_, hP4⟩
  · unfold resolveDependencyOrder
    rw [hnone]
    exact hwaves
  · intro s hs
    exact hP2 s hs (by simp)
  · intro i w hw s hsw
    obtain ⟨hsteps, -, hdeps⟩ := hP1 i w hw s hsw
    refine ⟨hsteps, ?_⟩
    intro d hd
    rcases hdeps d hd with hd' | hd'
    · simp at hd'
    · exact hd'
  · intro s hs hdeps
    obtain ⟨i, w, hw, hsw⟩ := hP2 s hs (by simp)
    cases i with
    | zero => exact ⟨w, hw, hsw⟩
    | succ i =>
      obtain ⟨w', -, d, hd, -⟩ := hP4 i w hw s hsw
      rw [hdeps] at hd
      simp at hd

/-- C2: on a step list containing a dependency cycle, `detectCycle` returns
a path of length at least 2 and `resolveWaves` fails with the
circular-dependency fault listing that path; on a step list with distinct
ids, no cycle, and a dependency referencing no step of the list,
`resolveWaves` instead fails with the stuck-workflow fault listing the
unresolved remaining step ids (a nonempty list of step ids including the
blocked step). -/
theorem detectCycle_resolve_faults (steps : List WorkflowStep) :
    (HasCycle steps → ∃ c, detectCycle steps = some c ∧ 2 ≤ c.length ∧
      resolveDependencyOrder steps = .error (.circular c)) ∧
    ((steps.map (fun t => t.id)).Nodup → ¬ HasCycle steps →
      ∀ s ∈ steps, ∀ d ∈ depsOf s, d ∉ steps.map (fun t => t.id) →
      ∃ rem, resolveDependencyOrder steps = .error (.stuck rem) ∧
        s.id ∈ rem ∧ rem ≠ [] ∧ ∀ x ∈ rem, x ∈ steps.map (fun t => t.id)) := by
  constructor
  · intro h
    obtain ⟨c, hc, hlen⟩ := detectCycle_isSome_of_hasCycle h
    refine ⟨c, hc, hlen, ?_⟩
    unfold resolveDependencyOrder
    rw [hc]
  · intro hnd hnc s hs d hd hdm
    have hnone : detectCycle steps = none := detectCycle_eq_none hnc
    obtain ⟨rem, hrem, hmem, hsub⟩ :=
      wavesLoop_stuck hnd hs hd hdm (steps.length + 1) [] List.nodup_nil
        (by intro x hx; simp at hx) (by omega) (by simp)
    refine ⟨rem, ?_, hmem, List.ne_nil_of_mem hmem, hsub⟩
    unfold resolveDependencyOrder
    rw [hnone]
    exact hrem

/-! Concrete inputs used by the resolver witnesses. -/

/-- Step `a` of the spec's example: no dependencies. -/
def demoA : WorkflowStep := { id := "a", goal := "goal a" }

/-- Step `b` of the spec's example: no dependencies. -/
def demoB : WorkflowStep := { id := "b", goal := "goal b" }

/-- Step `c` of the spec's example: depends on `a` and `b`. -/
def demoC : WorkflowStep := { id := "c", goal := "goal c", dependsOn := some ["a", "b"] }

/-- Two steps forming a dependency cycle. -/
def demoCycle : List WorkflowStep :=
  [{ id := "a", goal := "goal a", dependsOn := some ["b"] },
   { id := "b", goal := "goal b", dependsOn := some ["a"] }]

/-- A step depending on an id that no step of the list carries. -/
def demoStuck : List WorkflowStep :=
  [{ id := "a", goal := "goal a", dependsOn := some ["ghost"] }, demoB]

/-- Witness for C1 at the spec's own example: steps `a`, `b` with no
dependencies and `c` depending on both resolve to the waves
`[[a, b], [c]]`, and the general theorem applies. -/
theorem resolveDependencyOrder_validDag_spec_witness :
    resolveDependencyOrder [demoA, demoB, demoC] = .ok [[demoA, demoB], [demoC]] ∧
    ValidDag [demoA, demoB, demoC] ∧
    (∃ waves, resolveDependencyOrder [demoA, demoB, demoC] = .ok waves ∧
      (∀ s ∈ [demoA, demoB, demoC], ∃ (i : Nat) (w : List WorkflowStep),
        waves[i]? = some w ∧ s ∈ w) ∧
      (∀ (i : Nat) (w : List WorkflowStep), waves[i]? = some w → ∀ s ∈ w,
        s ∈ [demoA, demoB, demoC] ∧ ∀ d ∈ depsOf s, ∃ (j : Nat) (w' : List WorkflowStep),
          j < i ∧ waves[j]? = some w' ∧ d ∈ w'.map (fun t => t.id)) ∧
      (∀ (i : Nat) (w : List WorkflowStep), waves[i]? = some w →
        ∀ s ∈ w, ∀ t ∈ w, t.id ∉ depsOf s) ∧
      (∀ s ∈ [demoA, demoB, demoC], depsOf s = [] →
        ∃ w : List WorkflowStep, waves[0]? = some w ∧ s ∈ w) ∧
      (∀ (i : Nat) (w : List WorkflowStep), waves[i + 1]? = some w → ∀ s ∈ w,
        ∃ w' : List WorkflowStep, waves[i]? = some w' ∧
          ∃ d ∈ depsOf s, d ∈ w'.map (fun t => t.id))) := by
  have hdag : ValidDag [demoA, demoB, demoC] := by
    refine ⟨by decide, by decide, fun x => if x = "c" then 1 else 0, ?_⟩
    intro s hs d hd
    fin_cases hs <;> simp_all [demoA, demoB, demoC, depsOf] <;> rcases hd with rfl | rfl <;> decide
  exact ⟨rfl, hdag, resolveDependencyOrder_validDag_spec hdag⟩

/-- Witness for C2 at two concrete inputs: a two-step cycle `a ↔ b` triggers
the circular fault with the cycle path, and a step depending on the missing
id `ghost` triggers the stuck fault listing it. -/
theorem detectCycle_resolve_faults_witness :
    (∃ c, detectCycle demoCycle = some c ∧ 2 ≤ c.length ∧
      resolveDependencyOrder demoCycle = .error (.circular c)) ∧
    (∃ rem, resolveDependencyOrder demoStuck = .error (.stuck rem) ∧
      "a" ∈ rem ∧ rem ≠ [] ∧ ∀ x ∈ rem, x ∈ demoStuck.map (fun t => t.id)) := by
  constructor
  · refine (detectCycle_resolve_faults demoCycle).1 ?_
    refine ⟨["a", "b"], ?_, ?_⟩
    · exact List.Chain.cons (show "b" ∈ depsOfId demoCycle "a" by decide) List.Chain.nil
    · show "a" ∈ depsOfId demoCycle "b"
      decide
  · have hnc : ¬ HasCycle demoStuck :=
      detectCycle_none_no_cycle (by rfl)
    exact (detectCycle_resolve_faults demoStuck).2 (by decide) hnc
      { id := "a", goal := "goal a", dependsOn := some ["ghost"] } (by decide)
      "ghost" (by decide) (by decide)

end Executor

/-! Model of the JavaScript JSON values and of the external `JSON.parse`
builtin consumed by `src/utils/json.ts`.  Numbers are modelled as exact
rationals (JSON text denotes decimal numbers; the double rounding of the JS
engine is not modelled, and no claim depends on it). -/

namespace Js

/-! JavaScript values produced by `JSON.parse`: arrays and objects carry
their own spine types so that the three types form a mutual inductive
family (this keeps equality decidable and recursions structural). -/
mutual

/-- A parsed JSON value. -/
inductive JsValue where
  | null
  | bool (b : Bool)
  | num (q : Rat)
  | str (s : String)
  | arr (elems : JsArr)
  | obj (fields : JsObj)
  deriving DecidableEq

/-- Spine of a JSON array. -/
inductive JsArr where
  | nil
  | cons (v : JsValue) (rest : JsArr)
  deriving DecidableEq

/-- Spine of a JSON object: key/value members in source order. -/
inductive JsObj where
  | nil
  | cons (key : String) (v : JsValue) (rest : JsObj)
  deriving DecidableEq

end

/-- JSON whitespace (also the characters trimmed by `String.prototype.trim`
that occur in this development). -/
def isWs (c : Char) : Bool :=
  c = ' ' ∨ c = '\t' ∨ c = '\n' ∨ c = '\r'

/-- Skip leading whitespace. -/
def skipWs : List Char → List Char
  | [] => []
  | c :: cs => if isWs c then skipWs cs else c :: cs

/-- Characters that can occur in a JSON number token. -/
def isNumChar (c : Char) : Bool :=
  c.isDigit ∨ c = '-' ∨ c = '+' ∨ c = '.' ∨ c = 'e' ∨ c = 'E'

/-- Digit run to a natural number. -/
def digitsToNat (ds : List Char) : Nat :=
  ds.foldl (fun n c => n * 10 + (c.toNat - 48)) 0

/-- Power of ten as a rational, kept kernel-reducible. -/
def pow10 (n : Nat) : Rat := ((10 ^ n : Nat) : Int)

/-- Decode a JSON number token (the maximal run of number characters);
returns `none` if the run is not a well-formed JSON number. -/
def decodeNum (cs : List Char) : Option Rat :=
  let (sign, cs1) : Int × List Char :=
    match cs with
    | '-' :: t => (-1, t)
    | _ => (1, cs)
  let intDigits := cs1.takeWhile Char.isDigit
  let rest1 := cs1.dropWhile Char.isDigit
  if intDigits = [] then none
  else if 2 ≤ intDigits.length ∧ intDigits.head? = some '0' then none
  else
    let intVal : Rat := (sign * (digitsToNat intDigits : Int) : Int)
    let fracStep : Option (Rat × List Char) :=
      match rest1 with
      | '.' :: rest2 =>
        let fracDigits := rest2.takeWhile Char.isDigit
        if fracDigits = [] then none
        else some (intVal + sign * (digitsToNat fracDigits : Int) / pow10 fracDigits.length,
          rest2.dropWhile Char.isDigit)
      | _ => some (intVal, rest1)
    match fracStep with
    | none => none
    | some (mant, rest3) =>
      match rest3 with
      | [] => some mant
      | e :: rest4 =>
        if e = 'e' ∨ e = 'E' then
          let (esign, rest5) : Int × List Char :=
            match rest4 with
            | '-' :: t => (-1, t)
            | '+' :: t => (1, t)
            | _ => (1, rest4)
          let expDigits := rest5.takeWhile Char.isDigit
          if expDigits = [] ∨ rest5.dropWhile Char.isDigit ≠ [] then none
          else if esign = 1 then some (mant * pow10 (digitsToNat expDigits))
          else some (mant / pow10 (digitsToNat expDigits))
        else none

/-- Unescaped translation of a JSON escape character. -/
def escChar (c : Char) : Option Char :=
  if c = '"' then some '"'
  else if c = '\\' then some '\\'
  else if c = '/' then some '/'
  else if c = 'b' then some (Char.ofNat 8)
  else if c = 'f' then some (Char.ofNat 12)
  else if c = 'n' then some '\n'
  else if c = 'r' then some '\r'
  else if c = 't' then some '\t'
  else none

/-- Hexadecimal digit value. -/
def hexVal (c : Char) : Option Nat :=
  if '0' ≤ c ∧ c ≤ '9' then some (c.toNat - 48)
  else if 'a' ≤ c ∧ c ≤ 'f' then some (c.toNat - 87)
  else if 'A' ≤ c ∧ c ≤ 'F' then some (c.toNat - 55)
  else none

/-- Parse the body of a JSON string after the opening quote, returning the
decoded content and the remainder after the closing quote.  `\u` escapes
outside the scalar range fall back to `Char.ofNat`'s default; lone
surrogates of the JS engine are not representable and not modelled. -/
def parseStrChars : Nat → List Char → Option (List Char × List Char)
  | 0, _ => none
  | _ + 1, [] => none
  | fuel + 1, c :: cs =>
    if c = '"' then some ([], cs)
    else if c = '\\' then
      match cs with
      | [] => none
      | e :: cs' =>
        if e = 'u' then
          match cs' with
          | h1 :: h2 :: h3 :: h4 :: cs'' =>
            match hexVal h1, hexVal h2, hexVal h3, hexVal h4 with
            | some a, some b, some c1, some d =>
              (parseStrChars fuel cs'').map
                (fun p => (Char.ofNat (((a * 16 + b) * 16 + c1) * 16 + d) :: p.1, p.2))
            | _, _, _, _ => none
          | _ => none
        else
          match escChar e with
          | some ec => (parseStrChars fuel cs').map (fun p => (ec :: p.1, p.2))
          | none => none
    else if c.toNat < 32 then none
    else (parseStrChars fuel cs).map (fun p => (c :: p.1, p.2))

mutual

/-- Parse one JSON value (model of the JSON grammar of `JSON.parse`),
returning the value and the unconsumed remainder. -/
def parseVal : Nat → List Char → Option (JsValue × List Char)
  | 0, _ => none
  | fuel + 1, cs =>
    match skipWs cs with
    | [] => none
    | c :: cs' =>
      if c = '{' then
        match skipWs cs' with
        | '}' :: rest => some (.obj .nil, rest)
        | _ => (parseMembers fuel cs').map (fun p => (.obj p.1, p.2))
      else if c = '[' then
        match skipWs cs' with
        | ']' :: rest => some (.arr .nil, rest)
        | _ => (parseElems fuel cs').map (fun p => (.arr p.1, p.2))
      else if c = '"' then
        (parseStrChars (cs'.length + 1) cs').map
          (fun p => (.str (String.mk p.1), p.2))
      else if c = 't' then
        if cs'.take 3 = ['r', 'u', 'e'] then some (.bool true, cs'.drop 3) else none
      else if c = 'f' then
        if cs'.take 4 = ['a', 'l', 's', 'e'] then some (.bool false, cs'.drop 4) else none
      else if c = 'n' then
        if cs'.take 3 = ['u', 'l', 'l'] then some (.null, cs'.drop 3) else none
      else if isNumChar c then
        match decodeNum ((c :: cs').takeWhile isNumChar) with
        | some q => some (.num q, (c :: cs').dropWhile isNumChar)
        | none => none
      else none

/-- Parse the (nonempty) member list of a JSON object after the opening
brace, ending at the closing brace. -/
def parseMembers : Nat → List Char → Option (JsObj × List Char)
  | 0, _ => none
  | fuel + 1, cs =>
    match skipWs cs with
    | '"' :: cs1 =>
      match parseStrChars (cs1.length + 1) cs1 with
      | none => none
      | some (key, cs2) =>
        match skipWs cs2 with
        | ':' :: cs3 =>
          match parseVal fuel cs3 with
          | none => none
          | some (v, cs4) =>
            match skipWs cs4 with
            | ',' :: cs5 =>
              (parseMembers fuel cs5).map
                (fun p => (JsObj.cons (String.mk key) v p.1, p.2))
            | '}' :: cs5 => some (JsObj.cons (String.mk key) v .nil, cs5)
            | _ => none
        | _ => none
    | _ => none

/-- Parse the (nonempty) element list of a JSON array after the opening
bracket, ending at the closing bracket. -/
def parseElems : Nat → List Char → Option (JsArr × List Char)
  | 0, _ => none
  | fuel + 1, cs =>
    match parseVal fuel cs with
    | none => none
    | some (v, cs1) =>
      match skipWs cs1 with
      | ',' :: cs2 => (parseElems fuel cs2).map (fun p => (JsArr.cons v p.1, p.2))
      | ']' :: cs2 => some (JsArr.cons v .nil, cs2)
      | _ => none

end

/-- Model of `JSON.parse`: parse one value and require only whitespace to
remain. -/
def jsonParse (s : String) : Option JsValue :=
  match parseVal (s.length + 1) s.data with
  | some (v, rest) => if skipWs rest = [] then some v else none
  | none => none

/-- Trim (model of `String.prototype.trim` for the whitespace characters
occurring in this development). -/
def trimChars (l : List Char) : List Char :=
  ((l.dropWhile (fun c => isWs c)).reverse.dropWhile (fun c => isWs c)).reverse

/-- String-level trim. -/
def trimStr (s : String) : String := String.mk (trimChars s.data)

/-- First index of a character (model of `String.prototype.indexOf` for a
single-character needle; `none` plays the role of `-1`). -/
def idxOfChar (c : Char) : List Char → Option Nat
  | [] => none
  | x :: l => if x = c then some 0 else (idxOfChar c l).map (fun i => i + 1)

/-- Last index of a character (model of `String.prototype.lastIndexOf`). -/
def lastIdxOfChar (c : Char) (l : List Char) : Option Nat :=
  (idxOfChar c l.reverse).map (fun i => l.length - 1 - i)

/-- JavaScript truthiness on JSON values (`NaN` cannot occur). -/
def isFalsy : JsValue → Bool
  | .null => true
  | .bool b => !b
  | .num q => q = 0
  | .str s => s = ""
  | _ => false

/-- List view of an array spine. -/
def arrToList : JsArr → List JsValue
  | .nil => []
  | .cons v rest => v :: arrToList rest

/-- JavaScript `typeof v === "object"` for non-null JSON values: true
exactly for objects and arrays. -/
def isObjTy : JsValue → Bool
  | .obj _ => true
  | .arr _ => true
  | _ => false

/-- Lookup of the value under a key in an object spine; the deepest (last
written) occurrence wins, as for duplicate keys in the JS engine. -/
def objFind (name : String) : JsObj → Option JsValue
  | .nil => none
  | .cons k v rest =>
    match objFind name rest with
    | some r => some r
    | none => if k = name then some v else none

/-- Field access `v.name` on a parsed JSON value: `none` models
`undefined`. -/
def getField (v : JsValue) (name : String) : Option JsValue :=
  match v with
  | .obj fields => objFind name fields
  | _ => none

mutual

/-- Model of the JavaScript `String(v)` conversion (number formatting is
approximated; no claim depends on non-integer number rendering). -/
def jsToString : JsValue → String
  | .null => "null"
  | .bool true => "true"
  | .bool false => "false"
  | .num q => if q.den = 1 then toString q.num else toString q.num ++ "/" ++ toString q.den
  | .str s => s
  | .arr l => jsArrToString l
  | .obj _ => "[object Object]"

/-- Array `toString`: elements joined with commas, `null` rendered empty. -/
def jsArrToString : JsArr → String
  | .nil => ""
  | .cons x rest =>
    (match x with
      | .null => ""
      | x => jsToString x) ++
    (match rest with
      | .nil => ""
      | rest => "," ++ jsArrToString rest)

end

/-- Rendering of `String(x)` when `x` may be `undefined`. -/
def jsToStringOpt : Option JsValue → String
  | none => "undefined"
  | some v => jsToString v

/-! Stability properties of the `JSON.parse` model, used to analyse
prose-wrapped parsing (C6). -/

theorem skipWs_decomp : ∀ cs : List Char,
    ∃ ws, cs = ws ++ skipWs cs ∧ ∀ x ∈ ws, isWs x = true := by
  intro cs
  induction cs with
  | nil => exact ⟨[], rfl, by simp⟩
  | cons c rest ih =>
    by_cases hc : isWs c = true
    · obtain ⟨ws, hws, hall⟩ := ih
      refine ⟨c :: ws, ?_, ?_⟩
      · simp only [skipWs, hc, if_pos, ite_true]
        simpa using hws
      · intro x hx
        rcases List.mem_cons.1 hx with rfl | hx
        · exact hc
        · exact hall x hx
    · refine ⟨[], ?_, by simp⟩
      simp only [skipWs, hc, Bool.not_eq_true, if_neg, ite_false]
      simp at hc
      simp [hc]

theorem skipWs_cons_not_ws {c : Char} (hc : isWs c = false) (l : List Char) :
    skipWs (c :: l) = c :: l := by
  simp [skipWs, hc]

theorem skipWs_ws_append {ws : List Char} (hws : ∀ x ∈ ws, isWs x = true)
    (l : List Char) : skipWs (ws ++ l) = skipWs l := by
  induction ws with
  | nil => rfl
  | cons w rest ih =>
    have hw := hws w (List.mem_cons_self w rest)
    simp only [List.cons_append, skipWs, hw, ite_true, if_pos]
    exact ih (fun x hx => hws x (List.mem_cons_of_mem w hx))

theorem skipWs_shape {ws : List Char} (hws : ∀ x ∈ ws, isWs x = true)
    {c : Char} (hc : isWs c = false) (l : List Char) :
    skipWs (ws ++ c :: l) = c :: l := by
  rw [skipWs_ws_append hws, skipWs_cons_not_ws hc]

theorem skipWs_eq_nil_iff : ∀ l : List Char,
    skipWs l = [] ↔ ∀ c ∈ l, isWs c = true := by
  intro l
  induction l with
  | nil => simp [skipWs]
  | cons c rest ih =>
    by_cases hc : isWs c = true
    · simp only [skipWs, hc, ite_true, if_pos, ih]
      constructor
      · intro h x hx
        rcases List.mem_cons.1 hx with rfl | hx
        · exact hc
        · exact h x hx
      · intro h x hx; exact h x (List.mem_cons_of_mem c hx)
    · simp only [skipWs, hc, Bool.not_eq_true, ite_false, if_neg]
      constructor
      · intro h; exact absurd h (List.cons_ne_nil c rest)
      · intro h; exact absurd (h c (List.mem_cons_self c rest)) (by simpa using hc)

theorem isWs_not_numChar {c : Char} (h : isWs c = true) : isNumChar c = false := by
  unfold isWs at h
  simp only [decide_eq_true_eq] at h
  rcases h with h1 | h1 | h1 | h1 <;> subst h1 <;> rfl

theorem takeWhile_all_append {p : Char → Bool} :
    ∀ (l t : List Char), (∀ x ∈ l, p x = true) → (∀ c ∈ t.head?, p c = false) →
      (l ++ t).takeWhile p = l ∧ (l ++ t).dropWhile p = t := by
  intro l
  induction l with
  | nil =>
    intro t _ ht
    cases t with
    | nil => simp
    | cons c rest =>
      have hc := ht c (by simp)
      simp [List.takeWhile_cons, List.dropWhile_cons, hc]
  | cons x l ih =>
    intro t hl ht
    have hx := hl x (List.mem_cons_self x l)
    have := ih t (fun y hy => hl y (List.mem_cons_of_mem x hy)) ht
    simp [List.takeWhile_cons, List.dropWhile_cons, hx, this.1, this.2]

theorem mem_takeWhile_pred {p : Char → Bool} :
    ∀ (l : List Char) (x : Char), x ∈ l.takeWhile p → p x = true := by
  intro l
  induction l with
  | nil => intro x hx; simp at hx
  | cons c rest ih =>
    intro x hx
    rw [List.takeWhile_cons] at hx
    by_cases hc : p c = true
    · rw [if_pos hc] at hx
      rcases List.mem_cons.1 hx with rfl | hx
      · exact hc
      · exact ih x hx
    · rw [if_neg hc] at hx; simp at hx

theorem dropWhile_head_false {p : Char → Bool} :
    ∀ (l : List Char), ∀ c ∈ (l.dropWhile p).head?, p c = false := by
  intro l
  induction l with
  | nil => intro c hc; simp at hc
  | cons x rest ih =>
    intro c hc
    rw [List.dropWhile_cons] at hc
    by_cases hx : p x = true
    · rw [if_pos hx] at hc; exact ih c hc
    · rw [if_neg hx] at hc
      simp only [List.head?_cons, Option.mem_def, Option.some.injEq] at hc
      subst hc
      simpa using hx

theorem parseStrChars_stable : ∀ (fuel : Nat) (cs content rest : List Char),
    parseStrChars fuel cs = some (content, rest) →
    ∃ c, cs = c ++ rest ∧ ∀ (fuel' : Nat) (t : List Char), c.length ≤ fuel' →
      parseStrChars fuel' (c ++ t) = some (content, t) := by
  intro fuel
  induction fuel with
  | zero => intro cs content rest h; simp [parseStrChars] at h
  | succ fuel ih =>
    intro cs content rest h
    cases cs with
    | nil => simp [parseStrChars] at h
    | cons c cs =>
      simp only [parseStrChars] at h
      by_cases hq : c = '"'
      · subst hq
        rw [if_pos rfl] at h
        simp only [Option.some.injEq, Prod.mk.injEq] at h
        obtain ⟨rfl, rfl⟩ := h
        refine ⟨['"'], rfl, ?_⟩
        intro fuel' t hlen
        cases fuel' with
        | zero => simp at hlen
        | succ f => simp [parseStrChars]
      · rw [if_neg hq] at h
        by_cases hesc : c = '\\'
        · rw [if_pos hesc] at h
          subst hesc
          cases cs with
          | nil => simp at h
          | cons e cs' =>
            simp only [] at h
            by_cases hu : e = 'u'
            · rw [if_pos hu] at h
              subst hu
              rcases cs' with _ | ⟨a1, _ | ⟨a2, _ | ⟨a3, _ | ⟨a4, cs''⟩⟩⟩⟩
              · simp at h
              · simp at h
              · simp at h
              · simp at h
              · simp only [] at h
                cases hh1 : hexVal a1 with
                | none => rw [hh1] at h; simp at h
                | some a =>
                  cases hh2 : hexVal a2 with
                  | none => rw [hh1, hh2] at h; simp at h
                  | some b =>
                    cases hh3 : hexVal a3 with
                    | none => rw [hh1, hh2, hh3] at h; simp at h
                    | some c1 =>
                      cases hh4 : hexVal a4 with
                      | none => rw [hh1, hh2, hh3, hh4] at h; simp at h
                      | some d =>
                        rw [hh1, hh2, hh3, hh4] at h
                        simp only [] at h
                        cases hrec : parseStrChars fuel cs'' with
                        | none => rw [hrec] at h; simp [Option.map] at h
                        | some p =>
                          rw [hrec] at h
                          simp only [Option.map, Option.some.injEq,
                            Prod.mk.injEq] at h
                          obtain ⟨hcontent, hrest⟩ := h
                          obtain ⟨crec, hcrec, hext⟩ := ih cs'' p.1 p.2 (by rw [hrec])
                          refine ⟨'\\' :: 'u' :: a1 :: a2 :: a3 :: a4 :: crec, ?_, ?_⟩
                          · rw [hrest] at hcrec
                            simp [hcrec]
                          · intro fuel' t hlen
                            simp only [List.length_cons] at hlen
                            cases fuel' with
                            | zero => omega
                            | succ f =>
                              show parseStrChars (f + 1)
                                  ('\\' :: 'u' :: a1 :: a2 :: a3 :: a4 :: (crec ++ t))
                                = some (content, t)
                              simp only [parseStrChars, if_true]
                              rw [hh1, hh2, hh3, hh4]
                              simp only []
                              rw [hext f t (by omega)]
                              simp [Option.map, hcontent]
            · rw [if_neg hu] at h
              cases hec : escChar e with
              | none => rw [hec] at h; simp at h
              | some ec =>
                rw [hec] at h
                simp only [] at h
                cases hrec : parseStrChars fuel cs' with
                | none => rw [hrec] at h; simp [Option.map] at h
                | some p =>
                  rw [hrec] at h
                  simp only [Option.map, Option.some.injEq, Prod.mk.injEq] at h
                  obtain ⟨hcontent, hrest⟩ := h
                  obtain ⟨crec, hcrec, hext⟩ := ih cs' p.1 p.2 (by rw [hrec])
                  refine ⟨'\\' :: e :: crec, ?_, ?_⟩
                  · rw [hrest] at hcrec
                    simp [hcrec]
                  · intro fuel' t hlen
                    simp only [List.length_cons] at hlen
                    cases fuel' with
                    | zero => omega
                    | succ f =>
                      show parseStrChars (f + 1) ('\\' :: e :: (crec ++ t))
                        = some (content, t)
                      simp only [parseStrChars, if_true]
                      rw [if_neg hu, hec]
                      simp only []
                      rw [hext f t (by omega)]
                      simp [Option.map, hcontent]
        · rw [if_neg hesc] at h
          by_cases hctl : c.toNat < 32
          · rw [if_pos hctl] at h; simp at h
          · rw [if_neg hctl] at h
            cases hrec : parseStrChars fuel cs with
            | none => rw [hrec] at h; simp [Option.map] at h
            | some p =>
              rw [hrec] at h
              simp only [Option.map, Option.some.injEq, Prod.mk.injEq] at h
              obtain ⟨hcontent, hrest⟩ := h
              obtain ⟨crec, hcrec, hext⟩ := ih cs p.1 p.2 (by rw [hrec])
              refine ⟨c :: crec, ?_, ?_⟩
              · rw [hrest] at hcrec
                simp [hcrec]
              · intro fuel' t hlen
                simp only [List.length_cons] at hlen
                cases fuel' with
                | zero => omega
                | succ f =>
                  show parseStrChars (f + 1) (c :: (crec ++ t)) = some (content, t)
                  simp only [parseStrChars]
                  rw [if_neg hq, if_neg hesc, if_neg hctl]
                  rw [hext f t (by omega)]
                  simp [Option.map, hcontent]

/-- The head of the skipped remainder is never whitespace. -/
theorem skipWs_head_not_ws : ∀ (cs : List Char) {c : Char} {l : List Char},
    skipWs cs = c :: l → isWs c = false := by
  intro cs
  induction cs with
  | nil => intro c l h; simp [skipWs] at h
  | cons x rest ih =>
    intro c l h
    simp only [skipWs] at h
    by_cases hx : isWs x = true
    · rw [if_pos hx] at h
      exact ih h
    · rw [if_neg hx] at h
      injection h with h1 _
      subst h1
      simpa using hx

/-- Extension guard: appending text after a parsed value preserves the parse
only when a trailing number token is not continued by the head of the
appended text. -/
def NumGuard (v : JsValue) (t : List Char) : Prop :=
  ∀ q : Rat, v = JsValue.num q → ∀ x ∈ t.head?, isNumChar x = false

/-- A tail that starts with whitespace or a non-number character satisfies
the extension guard for every value. -/
theorem numGuard_ws_cons (v : JsValue) {ws : List Char}
    (hws : ∀ x ∈ ws, isWs x = true) {c : Char} (hc : isNumChar c = false)
    (l : List Char) : NumGuard v (ws ++ c :: l) := by
  intro q _ x hx
  cases ws with
  | nil =>
    simp only [List.nil_append, List.head?_cons, Option.mem_def,
      Option.some.injEq] at hx
    subst hx
    exact hc
  | cons w tail =>
    simp only [List.cons_append, List.head?_cons, Option.mem_def,
      Option.some.injEq] at hx
    subst hx
    exact isWs_not_numChar (hws w (List.mem_cons_self w tail))

/-- A non-whitespace member of a list survives `skipWs`. -/
theorem mem_skipWs {x : Char} (hx : isWs x = false) :
    ∀ l : List Char, x ∈ l → x ∈ skipWs l := by
  intro l
  induction l with
  | nil => intro h; simp at h
  | cons c rest ih =>
    intro h
    simp only [skipWs]
    by_cases hc : isWs c = true
    · rw [if_pos hc]
      rcases List.mem_cons.1 h with rfl | h2
      · rw [hx] at hc; exact absurd hc (by simp)
      · exact ih h2
    · rw [if_neg hc]
      exact h

/-- A member of a list that fails the predicate survives `dropWhile`. -/
theorem mem_dropWhile_of_not_pred {p : Char → Bool} {x : Char}
    (hx : p x = false) : ∀ l : List Char, x ∈ l → x ∈ l.dropWhile p := by
  intro l
  induction l with
  | nil => intro h; simp at h
  | cons c rest ih =>
    intro h
    rw [List.dropWhile_cons]
    by_cases hc : p c = true
    · rw [if_pos hc]
      rcases List.mem_cons.1 h with rfl | h2
      · rw [hx] at hc; exact absurd hc (by simp)
      · exact ih h2
    · rw [if_neg hc]
      exact h

/-- Stability of the mutual JSON parsers under replacement of the text that
follows the consumed token: a successful parse consumes a determined prefix
(whitespace, a dispatch character, and a tail), and re-parsing that prefix
followed by any other text yields the same value with the new text as
remainder (for values ending in a number token the new text must not extend
the token).  Proved for all three parsers simultaneously by induction on
fuel. -/
theorem parse_stable : ∀ fuel : Nat,
    (∀ cs v rest, parseVal fuel cs = some (v, rest) →
      ∃ ws c tl, cs = (ws ++ c :: tl) ++ rest ∧ (∀ x ∈ ws, isWs x = true) ∧
        isWs c = false ∧
        ∀ (fuel' : Nat) (t : List Char), fuel ≤ fuel' → NumGuard v t →
          parseVal fuel' ((ws ++ c :: tl) ++ t) = some (v, t)) ∧
    (∀ cs o rest, parseMembers fuel cs = some (o, rest) →
      ∃ ws tl, cs = (ws ++ '"' :: tl) ++ rest ∧ (∀ x ∈ ws, isWs x = true) ∧
        ∀ (fuel' : Nat) (t : List Char), fuel ≤ fuel' →
          parseMembers fuel' ((ws ++ '"' :: tl) ++ t) = some (o, t)) ∧
    (∀ cs a rest, parseElems fuel cs = some (a, rest) →
      ∃ ws c tl, cs = (ws ++ c :: tl) ++ rest ∧ (∀ x ∈ ws, isWs x = true) ∧
        isWs c = false ∧
        ∀ (fuel' : Nat) (t : List Char), fuel ≤ fuel' →
          parseElems fuel' ((ws ++ c :: tl) ++ t) = some (a, t)) := by
  intro fuel
  induction fuel with
  | zero =>
    refine ⟨?_, ?_, ?_⟩ <;> intro cs x rest h <;>
      simp [parseVal, parseMembers, parseElems] at h
  | succ F ih =>
    obtain ⟨ihV, ihM, ihE⟩ := ih
    refine ⟨?_, ?_, ?_⟩
    · -- parseVal
      intro cs v rest h
      simp only [parseVal] at h
      cases hsw : skipWs cs with
      | nil => rw [hsw] at h; simp at h
      | cons c cs' =>
        rw [hsw] at h
        simp only [] at h
        obtain ⟨ws0, hcs0, hws0⟩ := skipWs_decomp cs
        rw [hsw] at hcs0
        have hcns : isWs c = false := skipWs_head_not_ws cs hsw
        by_cases hbrace : c = '{'
        · subst hbrace
          rw [if_pos rfl] at h
          split at h
          next rest2 heq2 =>
            simp only [Option.some.injEq, Prod.mk.injEq] at h
            obtain ⟨hv, hrest⟩ := h
            subst hv
            subst hrest
            obtain ⟨ws2, hd2, hws2⟩ := skipWs_decomp cs'
            rw [heq2] at hd2
            refine ⟨ws0, '{', ws2 ++ ['}'], ?_, hws0, by decide, ?_⟩
            · rw [hcs0, hd2]; simp
            · intro fuel' t hf hg
              cases fuel' with
              | zero => omega
              | succ F2 =>
                have h1 : (ws0 ++ '{' :: (ws2 ++ ['}'])) ++ t
                    = ws0 ++ '{' :: (ws2 ++ '}' :: t) := by simp
                rw [h1]
                simp only [parseVal]
                rw [skipWs_shape hws0 (by decide)]
                show (match skipWs (ws2 ++ '}' :: t) with
                      | '}' :: r => some (JsValue.obj JsObj.nil, r)
                      | _ => (parseMembers F2 (ws2 ++ '}' :: t)).map
                          (fun q => (JsValue.obj q.1, q.2)))
                    = some (JsValue.obj JsObj.nil, t)
                rw [skipWs_shape hws2 (by decide)]
                rfl
          next hne =>
            cases hpm : parseMembers F cs' with
            | none => rw [hpm] at h; simp [Option.map] at h
            | some p =>
              rw [hpm] at h
              simp only [Option.map, Option.some.injEq, Prod.mk.injEq] at h
              obtain ⟨hv, hrest⟩ := h
              subst hv
              subst hrest
              obtain ⟨wsM, tlM, hdM, hwsM, hextM⟩ := ihM cs' p.1 p.2 hpm
              refine ⟨ws0, '{', wsM ++ '"' :: tlM, ?_, hws0, by decide, ?_⟩
              · rw [hcs0, hdM]; simp
              · intro fuel' t hf hg
                cases fuel' with
                | zero => omega
                | succ F2 =>
                  have h1 : (ws0 ++ '{' :: (wsM ++ '"' :: tlM)) ++ t
                      = ws0 ++ '{' :: ((wsM ++ '"' :: tlM) ++ t) := by simp
                  rw [h1]
                  simp only [parseVal]
                  rw [skipWs_shape hws0 (by decide)]
                  show (match skipWs ((wsM ++ '"' :: tlM) ++ t) with
                        | '}' :: r => some (JsValue.obj JsObj.nil, r)
                        | _ => (parseMembers F2 ((wsM ++ '"' :: tlM) ++ t)).map
                            (fun q => (JsValue.obj q.1, q.2)))
                      = some (JsValue.obj p.1, t)
                  have h3 : parseMembers F2 ((wsM ++ '"' :: tlM) ++ t) = some (p.1, t) :=
                    hextM F2 t (by omega)
                  have h2 : (wsM ++ '"' :: tlM) ++ t = wsM ++ '"' :: (tlM ++ t) := by simp
                  rw [h2] at h3 ⊢
                  rw [skipWs_shape hwsM (by decide)]
                  split
                  next r heqB =>
                    injection heqB with hB _
                    exact absurd hB (by decide)
                  next hneB =>
                    rw [h3]
                    rfl
        · rw [if_neg hbrace] at h
          by_cases hbrack : c = '['
          · subst hbrack
            rw [if_pos rfl] at h
            split at h
            next rest2 heq2 =>
              simp only [Option.some.injEq, Prod.mk.injEq] at h
              obtain ⟨hv, hrest⟩ := h
              subst hv
              subst hrest
              obtain ⟨ws2, hd2, hws2⟩ := skipWs_decomp cs'
              rw [heq2] at hd2
              refine ⟨ws0, '[', ws2 ++ [']'], ?_, hws0, by decide, ?_⟩
              · rw [hcs0, hd2]; simp
              · intro fuel' t hf hg
                cases fuel' with
                | zero => omega
                | succ F2 =>
                  have h1 : (ws0 ++ '[' :: (ws2 ++ [']'])) ++ t
                      = ws0 ++ '[' :: (ws2 ++ ']' :: t) := by simp
                  rw [h1]
                  simp only [parseVal]
                  rw [skipWs_shape hws0 (by decide)]
                  show (match skipWs (ws2 ++ ']' :: t) with
                        | ']' :: r => some (JsValue.arr JsArr.nil, r)
                        | _ => (parseElems F2 (ws2 ++ ']' :: t)).map
                            (fun q => (JsValue.arr q.1, q.2)))
                      = some (JsValue.arr JsArr.nil, t)
                  rw [skipWs_shape hws2 (by decide)]
                  rfl
            next hne =>
              cases hpe : parseElems F cs' with
              | none => rw [hpe] at h; simp [Option.map] at h
              | some p =>
                rw [hpe] at h
                simp only [Option.map, Option.some.injEq, Prod.mk.injEq] at h
                obtain ⟨hv, hrest⟩ := h
                subst hv
                subst hrest
                obtain ⟨wsE, cE, tlE, hdE, hwsE, hcE, hextE⟩ := ihE cs' p.1 p.2 hpe
                have hcene : ¬ cE = ']' := by
                  intro hc
                  apply hne (tlE ++ p.2)
                  rw [hdE, hc]
                  have hx : (wsE ++ (']' : Char) :: tlE) ++ p.2
                      = wsE ++ ']' :: (tlE ++ p.2) := by simp
                  rw [hx, skipWs_shape hwsE (by decide)]
                refine ⟨ws0, '[', wsE ++ cE :: tlE, ?_, hws0, by decide, ?_⟩
                · rw [hcs0, hdE]; simp
                · intro fuel' t hf hg
                  cases fuel' with
                  | zero => omega
                  | succ F2 =>
                    have h1 : (ws0 ++ '[' :: (wsE ++ cE :: tlE)) ++ t
                        = ws0 ++ '[' :: ((wsE ++ cE :: tlE) ++ t) := by simp
                    rw [h1]
                    simp only [parseVal]
                    rw [skipWs_shape hws0 (by decide)]
                    show (match skipWs ((wsE ++ cE :: tlE) ++ t) with
                          | ']' :: r => some (JsValue.arr JsArr.nil, r)
                          | _ => (parseElems F2 ((wsE ++ cE :: tlE) ++ t)).map
                              (fun q => (JsValue.arr q.1, q.2)))
                        = some (JsValue.arr p.1, t)
                    have h3 : parseElems F2 ((wsE ++ cE :: tlE) ++ t) = some (p.1, t) :=
                      hextE F2 t (by omega)
                    have h2 : (wsE ++ cE :: tlE) ++ t = wsE ++ cE :: (tlE ++ t) := by simp
                    rw [h2] at h3 ⊢
                    rw [skipWs_shape hwsE hcE]
                    split
                    next r heqB =>
                      injection heqB with hB _
                      exact absurd hB hcene
                    next hneB =>
                      rw [h3]
                      rfl
          · rw [if_neg hbrack] at h
            by_cases hquot : c = '"'
            · subst hquot
              rw [if_pos rfl] at h
              cases hps : parseStrChars (cs'.length + 1) cs' with
              | none => rw [hps] at h; simp [Option.map] at h
              | some p =>
                rw [hps] at h
                simp only [Option.map, Option.some.injEq, Prod.mk.injEq] at h
                obtain ⟨hv, hrest⟩ := h
                subst hv
                subst hrest
                obtain ⟨conS, hdS, hextS⟩ := parseStrChars_stable _ cs' p.1 p.2 hps
                refine ⟨ws0, '"', conS, ?_, hws0, by decide, ?_⟩
                · rw [hcs0, hdS]; simp
                · intro fuel' t hf hg
                  cases fuel' with
                  | zero => omega
                  | succ F2 =>
                    have h1 : (ws0 ++ '"' :: conS) ++ t = ws0 ++ '"' :: (conS ++ t) := by
                      simp
                    rw [h1]
                    simp only [parseVal]
                    rw [skipWs_shape hws0 (by decide)]
                    show (parseStrChars ((conS ++ t).length + 1) (conS ++ t)).map
                          (fun q => (JsValue.str (String.mk q.1), q.2))
                        = some (JsValue.str (String.mk p.1), t)
                    rw [hextS ((conS ++ t).length + 1) t
                      (by simp only [List.length_append]; omega)]
                    rfl
            · rw [if_neg hquot] at h
              by_cases hbt : c = 't'
              · subst hbt
                rw [if_pos rfl] at h
                by_cases htk : cs'.take 3 = ['r', 'u', 'e']
                · rw [if_pos htk] at h
                  simp only [Option.some.injEq, Prod.mk.injEq] at h
                  obtain ⟨hv, hrest⟩ := h
                  subst hv
                  subst hrest
                  have hsplit : cs' = 'r' :: 'u' :: 'e' :: cs'.drop 3 := by
                    conv_lhs => rw [← List.take_append_drop 3 cs']
                    rw [htk]
                    rfl
                  refine ⟨ws0, 't', ['r', 'u', 'e'], ?_, hws0, by decide, ?_⟩
                  · rw [hcs0]
                    conv_lhs => rw [hsplit]
                    simp
                  · intro fuel' t hf hg
                    cases fuel' with
                    | zero => omega
                    | succ F2 =>
                      have h1 : (ws0 ++ 't' :: ['r', 'u', 'e']) ++ t
                          = ws0 ++ 't' :: ('r' :: 'u' :: 'e' :: t) := by simp
                      rw [h1]
                      simp only [parseVal]
                      rw [skipWs_shape hws0 (by decide)]
                      rfl
                · rw [if_neg htk] at h
                  simp at h
              · rw [if_neg hbt] at h
                by_cases hbf : c = 'f'
                · subst hbf
                  rw [if_pos rfl] at h
                  by_cases htk : cs'.take 4 = ['a', 'l', 's', 'e']
                  · rw [if_pos htk] at h
                    simp only [Option.some.injEq, Prod.mk.injEq] at h
                    obtain ⟨hv, hrest⟩ := h
                    subst hv
                    subst hrest
                    have hsplit : cs' = 'a' :: 'l' :: 's' :: 'e' :: cs'.drop 4 := by
                      conv_lhs => rw [← List.take_append_drop 4 cs']
                      rw [htk]
                      rfl
                    refine ⟨ws0, 'f', ['a', 'l', 's', 'e'], ?_, hws0, by decide, ?_⟩
                    · rw [hcs0]
                      conv_lhs => rw [hsplit]
                      simp
                    · intro fuel' t hf hg
                      cases fuel' with
                      | zero => omega
                      | succ F2 =>
                        have h1 : (ws0 ++ 'f' :: ['a', 'l', 's', 'e']) ++ t
                            = ws0 ++ 'f' :: ('a' :: 'l' :: 's' :: 'e' :: t) := by simp
                        rw [h1]
                        simp only [parseVal]
                        rw [skipWs_shape hws0 (by decide)]
                        rfl
                  · rw [if_neg htk] at h
                    simp at h
                · rw [if_neg hbf] at h
                  by_cases hbn : c = 'n'
                  · subst hbn
                    rw [if_pos rfl] at h
                    by_cases htk : cs'.take 3 = ['u', 'l', 'l']
                    · rw [if_pos htk] at h
                      simp only [Option.some.injEq, Prod.mk.injEq] at h
                      obtain ⟨hv, hrest⟩ := h
                      subst hv
                      subst hrest
                      have hsplit : cs' = 'u' :: 'l' :: 'l' :: cs'.drop 3 := by
                        conv_lhs => rw [← List.take_append_drop 3 cs']
                        rw [htk]
                        rfl
                      refine ⟨ws0, 'n', ['u', 'l', 'l'], ?_, hws0, by decide, ?_⟩
                      · rw [hcs0]
                        conv_lhs => rw [hsplit]
                        simp
                      · intro fuel' t hf hg
                        cases fuel' with
                        | zero => omega
                        | succ F2 =>
                          have h1 : (ws0 ++ 'n' :: ['u', 'l', 'l']) ++ t
                              = ws0 ++ 'n' :: ('u' :: 'l' :: 'l' :: t) := by simp
                          rw [h1]
                          simp only [parseVal]
                          rw [skipWs_shape hws0 (by decide)]
                          rfl
                    · rw [if_neg htk] at h
                      simp at h
                  · rw [if_neg hbn] at h
                    by_cases hnum : isNumChar c = true
                    · rw [if_pos hnum] at h
                      cases hdn : decodeNum ((c :: cs').takeWhile isNumChar) with
                      | none => rw [hdn] at h; simp at h
                      | some q =>
                        rw [hdn] at h
                        simp only [Option.some.injEq, Prod.mk.injEq] at h
                        obtain ⟨hv, hrest⟩ := h
                        subst hv
                        subst hrest
                        have htok : (c :: cs').takeWhile isNumChar
                            = c :: cs'.takeWhile isNumChar := by
                          simp [List.takeWhile_cons, hnum]
                        have hsplit2 : c :: cs' = (c :: cs'.takeWhile isNumChar)
                            ++ (c :: cs').dropWhile isNumChar := by
                          conv_lhs => rw [← List.takeWhile_append_dropWhile
                            (p := isNumChar) (l := c :: cs')]
                          rw [htok]
                        refine ⟨ws0, c, cs'.takeWhile isNumChar, ?_, hws0, hcns, ?_⟩
                        · rw [hcs0]
                          conv_lhs => rw [hsplit2]
                          simp
                        · intro fuel' t hf hg
                          cases fuel' with
                          | zero => omega
                          | succ F2 =>
                            have hguard : ∀ x ∈ t.head?, isNumChar x = false := hg q rfl
                            have hall : ∀ x ∈ c :: cs'.takeWhile isNumChar,
                                isNumChar x = true := by
                              intro x hx
                              rcases List.mem_cons.1 hx with rfl | hx2
                              · exact hnum
                              · exact mem_takeWhile_pred _ x hx2
                            have htw := takeWhile_all_append
                              (c :: cs'.takeWhile isNumChar) t hall hguard
                            have h1 : (ws0 ++ c :: cs'.takeWhile isNumChar) ++ t
                                = ws0 ++ c :: (cs'.takeWhile isNumChar ++ t) := by simp
                            rw [h1]
                            simp only [parseVal]
                            rw [skipWs_shape hws0 hcns]
                            simp only []
                            rw [if_neg hbrace, if_neg hbrack, if_neg hquot, if_neg hbt,
                              if_neg hbf, if_neg hbn, if_pos hnum]
                            have h2 : (c : Char) :: (cs'.takeWhile isNumChar ++ t)
                                = (c :: cs'.takeWhile isNumChar) ++ t := by simp
                            rw [h2, htw.1, htw.2, ← htok, hdn]
                    · rw [if_neg hnum] at h
                      simp at h
    · -- parseMembers
      intro cs o rest h
      simp only [parseMembers] at h
      split at h
      next cs1 heq =>
        split at h
        next heqS => simp at h
        next key cs2 heqS =>
          split at h
          next cs3 heq2 =>
            split at h
            next hpvn => simp at h
            next v cs4 hpv =>
              split at h
              next cs5 heq3 =>
                cases hpm : parseMembers F cs5 with
                | none => rw [hpm] at h; simp [Option.map] at h
                | some p =>
                  rw [hpm] at h
                  simp only [Option.map, Option.some.injEq, Prod.mk.injEq] at h
                  obtain ⟨ho, hrest⟩ := h
                  subst ho
                  subst hrest
                  obtain ⟨ws0, hcs0, hws0⟩ := skipWs_decomp cs
                  rw [heq] at hcs0
                  obtain ⟨conK, hdK, hextK⟩ := parseStrChars_stable _ cs1 key cs2 heqS
                  obtain ⟨ws2, hd2, hws2⟩ := skipWs_decomp cs2
                  rw [heq2] at hd2
                  obtain ⟨wsV, cV, tlV, hd3, hwsV, hcV, hextV⟩ := ihV cs3 v cs4 hpv
                  obtain ⟨ws4, hd4, hws4⟩ := skipWs_decomp cs4
                  rw [heq3] at hd4
                  obtain ⟨ws5, tl5, hd5, hws5, hextM5⟩ := ihM cs5 p.1 p.2 hpm
                  refine ⟨ws0, conK ++ (ws2 ++ ':' :: ((wsV ++ cV :: tlV)
                    ++ (ws4 ++ ',' :: (ws5 ++ '"' :: tl5)))), ?_, hws0, ?_⟩
                  · rw [hcs0, hdK, hd2, hd3, hd4, hd5]
                    simp
                  · intro fuel' t hf
                    cases fuel' with
                    | zero => omega
                    | succ F2 =>
                      have h1 : (ws0 ++ '"' :: (conK ++ (ws2 ++ ':' :: ((wsV ++ cV :: tlV)
                          ++ (ws4 ++ ',' :: (ws5 ++ '"' :: tl5)))))) ++ t
                          = ws0 ++ '"' :: (conK ++ (ws2 ++ ':' :: ((wsV ++ cV :: tlV)
                          ++ (ws4 ++ ',' :: ((ws5 ++ '"' :: tl5) ++ t))))) := by simp
                      rw [h1]
                      simp only [parseMembers]
                      rw [skipWs_shape hws0 (by decide)]
                      split
                      next cs1' heqA =>
                        injection heqA with _ hA
                        subst hA
                        rw [hextK _ _ (by simp only [List.length_append]; omega)]
                        simp only []
                        rw [skipWs_shape hws2 (by decide)]
                        split
                        next cs3' heqB =>
                          injection heqB with _ hB
                          subst hB
                          rw [hextV F2 _ (by omega)
                            (numGuard_ws_cons v hws4 (by decide) _)]
                          simp only []
                          rw [skipWs_shape hws4 (by decide)]
                          split
                          next cs5' heqC =>
                            injection heqC with _ hC
                            subst hC
                            rw [hextM5 F2 t (by omega)]
                            rfl
                          next cs5' heqC =>
                            injection heqC with hC _
                            exact absurd hC (by decide)
                          next hne1 hne2 => exact absurd rfl (hne1 _)
                        next hneB => exact absurd rfl (hneB _)
                      next hneA => exact absurd rfl (hneA _)
              next cs5 heq3 =>
                simp only [Option.some.injEq, Prod.mk.injEq] at h
                obtain ⟨ho, hrest⟩ := h
                subst ho
                subst hrest
                obtain ⟨ws0, hcs0, hws0⟩ := skipWs_decomp cs
                rw [heq] at hcs0
                obtain ⟨conK, hdK, hextK⟩ := parseStrChars_stable _ cs1 key cs2 heqS
                obtain ⟨ws2, hd2, hws2⟩ := skipWs_decomp cs2
                rw [heq2] at hd2
                obtain ⟨wsV, cV, tlV, hd3, hwsV, hcV, hextV⟩ := ihV cs3 v cs4 hpv
                obtain ⟨ws4, hd4, hws4⟩ := skipWs_decomp cs4
                rw [heq3] at hd4
                refine ⟨ws0, conK ++ (ws2 ++ ':' :: ((wsV ++ cV :: tlV)
                  ++ (ws4 ++ ['}']))), ?_, hws0, ?_⟩
                · rw [hcs0, hdK, hd2, hd3, hd4]
                  simp
                · intro fuel' t hf
                  cases fuel' with
                  | zero => omega
                  | succ F2 =>
                    have h1 : (ws0 ++ '"' :: (conK ++ (ws2 ++ ':' :: ((wsV ++ cV :: tlV)
                        ++ (ws4 ++ ['}']))))) ++ t
                        = ws0 ++ '"' :: (conK ++ (ws2 ++ ':' :: ((wsV ++ cV :: tlV)
                        ++ (ws4 ++ '}' :: t)))) := by simp
                    rw [h1]
                    simp only [parseMembers]
                    rw [skipWs_shape hws0 (by decide)]
                    split
                    next cs1' heqA =>
                      injection heqA with _ hA
                      subst hA
                      rw [hextK _ _ (by simp only [List.length_append]; omega)]
                      simp only []
                      rw [skipWs_shape hws2 (by decide)]
                      split
                      next cs3' heqB =>
                        injection heqB with _ hB
                        subst hB
                        rw [hextV F2 _ (by omega)
                          (numGuard_ws_cons v hws4 (by decide) _)]
                        simp only []
                        rw [skipWs_shape hws4 (by decide)]
                        split
                        next cs5' heqC =>
                          injection heqC with hC _
                          exact absurd hC (by decide)
                        next cs5' heqC =>
                          injection heqC with _ hC
                          subst hC
                          rfl
                        next hne1 hne2 => exact absurd rfl (hne2 _)
                      next hneB => exact absurd rfl (hneB _)
                    next hneA => exact absurd rfl (hneA _)
              next hne1 hne2 => simp at h
          next hne => simp at h
      next hne => simp at h
    · -- parseElems
      intro cs a rest h
      simp only [parseElems] at h
      split at h
      next hpvn => simp at h
      next v cs1 hpv =>
        split at h
        next cs2 heq1 =>
          cases hpe : parseElems F cs2 with
          | none => rw [hpe] at h; simp [Option.map] at h
          | some p =>
            rw [hpe] at h
            simp only [Option.map, Option.some.injEq, Prod.mk.injEq] at h
            obtain ⟨ha, hrest⟩ := h
            subst ha
            subst hrest
            obtain ⟨wsV, cV, tlV, hd1, hwsV, hcV, hextV⟩ := ihV cs v cs1 hpv
            obtain ⟨ws1, hdw1, hws1⟩ := skipWs_decomp cs1
            rw [heq1] at hdw1
            obtain ⟨wsE, cE, tlE, hdE, hwsE, hcE, hextE⟩ := ihE cs2 p.1 p.2 hpe
            refine ⟨wsV, cV, tlV ++ (ws1 ++ ',' :: (wsE ++ cE :: tlE)), ?_, hwsV, hcV, ?_⟩
            · rw [hd1, hdw1, hdE]; simp
            · intro fuel' t hf
              cases fuel' with
              | zero => omega
              | succ F2 =>
                have h1 : (wsV ++ cV :: (tlV ++ (ws1 ++ ',' :: (wsE ++ cE :: tlE)))) ++ t
                    = (wsV ++ cV :: tlV) ++ (ws1 ++ ',' :: ((wsE ++ cE :: tlE) ++ t)) := by
                  simp
                rw [h1]
                simp only [parseElems]
                rw [hextV F2 _ (by omega) (numGuard_ws_cons v hws1 (by decide) _)]
                simp only []
                rw [skipWs_shape hws1 (by decide)]
                split
                next cs2' heqA =>
                  injection heqA with _ hA
                  subst hA
                  rw [hextE F2 t (by omega)]
                  rfl
                next cs2' heqA =>
                  injection heqA with hA _
                  exact absurd hA (by decide)
                next hne1 hne2 => exact absurd rfl (hne1 _)
        next cs2 heq1 =>
          simp only [Option.some.injEq, Prod.mk.injEq] at h
          obtain ⟨ha, hrest⟩ := h
          subst ha
          subst hrest
          obtain ⟨wsV, cV, tlV, hd1, hwsV, hcV, hextV⟩ := ihV cs v cs1 hpv
          obtain ⟨ws1, hdw1, hws1⟩ := skipWs_decomp cs1
          rw [heq1] at hdw1
          refine ⟨wsV, cV, tlV ++ (ws1 ++ [']']), ?_, hwsV, hcV, ?_⟩
          · rw [hd1, hdw1]; simp
          · intro fuel' t hf
            cases fuel' with
            | zero => omega
            | succ F2 =>
              have h1 : (wsV ++ cV :: (tlV ++ (ws1 ++ [']']))) ++ t
                  = (wsV ++ cV :: tlV) ++ (ws1 ++ ']' :: t) := by simp
              rw [h1]
              simp only [parseElems]
              rw [hextV F2 _ (by omega) (numGuard_ws_cons v hws1 (by decide) _)]
              simp only []
              rw [skipWs_shape hws1 (by decide)]
              split
              next cs2' heqA =>
                injection heqA with hA _
                exact absurd hA (by decide)
              next cs2' heqA =>
                injection heqA with _ hA
                subst hA
                rfl
              next hne1 hne2 => exact absurd rfl (hne2 _)
        next hne1 hne2 => simp at h

/-- `dropWhile` distributes over an append whose right part starts with a
character failing the predicate. -/
theorem dropWhile_append_head_false {p : Char → Bool} :
    ∀ (a b : List Char), (∀ c ∈ b.head?, p c = false) →
      (a ++ b).dropWhile p = a.dropWhile p ++ b := by
  intro a
  induction a with
  | nil =>
    intro b hb
    cases b with
    | nil => simp
    | cons c rest =>
      have hc := hb c (by simp)
      simp [List.dropWhile_cons, hc]
  | cons x a' ih =>
    intro b hb
    simp only [List.cons_append, List.dropWhile_cons]
    by_cases hx : p x = true
    · rw [if_pos hx, if_pos hx]
      exact ih b hb
    · rw [if_neg hx, if_neg hx]
      rfl

/-- Trimming text that is a bare token (non-whitespace first and last
character) with possible surrounding text decomposes into trimming the two
sides. -/
theorem trimChars_decomp (preD postD mid : List Char) :
    trimChars (preD ++ (('{' :: (mid ++ ['}'])) ++ postD))
      = preD.dropWhile isWs ++ (('{' :: (mid ++ ['}']))
        ++ (postD.reverse.dropWhile isWs).reverse) := by
  unfold trimChars
  have h1 : (preD ++ (('{' :: (mid ++ ['}'])) ++ postD)).dropWhile isWs
      = preD.dropWhile isWs ++ (('{' :: (mid ++ ['}'])) ++ postD) := by
    apply dropWhile_append_head_false
    intro c hc
    simp only [List.cons_append, List.head?_cons, Option.mem_def,
      Option.some.injEq] at hc
    subst hc
    rfl
  rw [h1]
  have h2 : (preD.dropWhile isWs ++ (('{' :: (mid ++ ['}'])) ++ postD)).reverse
      = postD.reverse ++ (('}' :: (mid.reverse ++ ('{' :: (preD.dropWhile isWs).reverse)))) := by
    simp
  rw [h2]
  have h3 : (postD.reverse ++ ('}' :: (mid.reverse
      ++ ('{' :: (preD.dropWhile isWs).reverse)))).dropWhile isWs
      = postD.reverse.dropWhile isWs ++ ('}' :: (mid.reverse
        ++ ('{' :: (preD.dropWhile isWs).reverse))) := by
    apply dropWhile_append_head_false
    intro c hc
    simp only [List.head?_cons, Option.mem_def, Option.some.injEq] at hc
    subst hc
    rfl
  rw [h3]
  simp

/-- `idxOfChar` on a list headed by the needle. -/
theorem idxOfChar_cons_self (c : Char) (l : List Char) :
    idxOfChar c (c :: l) = some 0 := by
  simp [idxOfChar]

/-- `idxOfChar` skips a prefix free of the needle. -/
theorem idxOfChar_append_not_mem {ch : Char} :
    ∀ (a : List Char), (∀ x ∈ a, ¬ x = ch) → ∀ l : List Char,
      idxOfChar ch (a ++ l) = (idxOfChar ch l).map (fun i => i + a.length) := by
  intro a
  induction a with
  | nil =>
    intro _ l
    cases hid : idxOfChar ch l with
    | none => simp [hid]
    | some i => simp [hid]
  | cons x a' ih =>
    intro ha l
    have hx : ¬ x = ch := ha x (List.mem_cons_self x a')
    simp only [List.cons_append, idxOfChar, if_neg hx, List.append_eq]
    rw [ih (fun y hy => ha y (List.mem_cons_of_mem x hy)) l]
    cases hid : idxOfChar ch l with
    | none => rfl
    | some i =>
      show some (i + a'.length + 1) = some (i + (a'.length + 1))
      rw [Nat.add_assoc]

/-- A successful `parseVal` whose dispatch character is not an opening
brace, bracket, or quote either fails or leaves the brace of a later object
in its remainder. -/
theorem parseVal_no_open (fuel : Nat) (cs : List Char) {c : Char}
    {cs' : List Char} (hsw : skipWs cs = c :: cs') (hc1 : ¬ c = '{')
    (hc2 : ¬ c = '[') (hc3 : ¬ c = '"') (hmem : '{' ∈ cs') :
    parseVal fuel cs = none ∨
      ∃ v r, parseVal fuel cs = some (v, r) ∧ '{' ∈ r := by
  cases fuel with
  | zero => exact Or.inl rfl
  | succ F =>
    cases hres : parseVal (F + 1) cs with
    | none => exact Or.inl rfl
    | some p =>
      refine Or.inr ⟨p.1, p.2, rfl, ?_⟩
      simp only [parseVal] at hres
      rw [hsw] at hres
      simp only [] at hres
      rw [if_neg hc1, if_neg hc2, if_neg hc3] at hres
      by_cases hbt : c = 't'
      · subst hbt
        rw [if_pos rfl] at hres
        by_cases htk : cs'.take 3 = ['r', 'u', 'e']
        · rw [if_pos htk] at hres
          simp only [Option.some.injEq] at hres
          subst hres
          have hsplit := List.take_append_drop 3 cs'
          rw [← hsplit] at hmem
          rcases List.mem_append.1 hmem with hin | hin
          · rw [htk] at hin
            exact absurd hin (by decide)
          · exact hin
        · rw [if_neg htk] at hres
          simp at hres
      · rw [if_neg hbt] at hres
        by_cases hbf : c = 'f'
        · subst hbf
          rw [if_pos rfl] at hres
          by_cases htk : cs'.take 4 = ['a', 'l', 's', 'e']
          · rw [if_pos htk] at hres
            simp only [Option.some.injEq] at hres
            subst hres
            have hsplit := List.take_append_drop 4 cs'
            rw [← hsplit] at hmem
            rcases List.mem_append.1 hmem with hin | hin
            · rw [htk] at hin
              exact absurd hin (by decide)
            · exact hin
          · rw [if_neg htk] at hres
            simp at hres
        · rw [if_neg hbf] at hres
          by_cases hbn : c = 'n'
          · subst hbn
            rw [if_pos rfl] at hres
            by_cases htk : cs'.take 3 = ['u', 'l', 'l']
            · rw [if_pos htk] at hres
              simp only [Option.some.injEq] at hres
              subst hres
              have hsplit := List.take_append_drop 3 cs'
              rw [← hsplit] at hmem
              rcases List.mem_append.1 hmem with hin | hin
              · rw [htk] at hin
                exact absurd hin (by decide)
              · exact hin
            · rw [if_neg htk] at hres
              simp at hres
          · rw [if_neg hbn] at hres
            by_cases hnum : isNumChar c = true
            · rw [if_pos hnum] at hres
              cases hdn : decodeNum ((c :: cs').takeWhile isNumChar) with
              | none => rw [hdn] at hres; simp at hres
              | some q =>
                rw [hdn] at hres
                simp only [Option.some.injEq] at hres
                subst hres
                exact mem_dropWhile_of_not_pred (by decide) _
                  (List.mem_cons_of_mem c hmem)
            · rw [if_neg hnum] at hres
              simp at hres

/-- A JSON text whose first character is an opening brace can only parse to
an object. -/
theorem jsonParse_open_brace_obj (s : String) (l : List Char)
    (hs : s.data = '{' :: l) (v : JsValue) (h : jsonParse s = some v) :
    ∃ o, v = JsValue.obj o := by
  unfold jsonParse at h
  cases hpv : parseVal (s.length + 1) s.data with
  | none => rw [hpv] at h; simp at h
  | some p =>
    rw [hpv] at h
    simp only [] at h
    by_cases hws : skipWs p.2 = []
    · rw [if_pos hws] at h
      simp only [Option.some.injEq] at h
      subst h
      simp only [parseVal] at hpv
      rw [hs, skipWs_cons_not_ws (by decide)] at hpv
      simp only [] at hpv
      rw [if_pos trivial] at hpv
      split at hpv
      next rest2 heq2 =>
        simp only [Option.some.injEq] at hpv
        rw [← hpv]
        exact ⟨JsObj.nil, rfl⟩
      next hne =>
        cases hpm : parseMembers s.length l with
        | none => rw [hpm] at hpv; simp [Option.map] at hpv
        | some q =>
          rw [hpm] at hpv
          simp only [Option.map, Option.some.injEq] at hpv
          rw [← hpv]
          exact ⟨q.1, rfl⟩
    · rw [if_neg hws] at h
      simp at h

/-- Unfold a successful `jsonParse` into its `parseVal` run. -/
theorem jsonParse_elim (s : String) (v : JsValue) (h : jsonParse s = some v) :
    ∃ rest, parseVal (s.length + 1) s.data = some (v, rest) ∧ skipWs rest = [] := by
  unfold jsonParse at h
  cases hpv : parseVal (s.length + 1) s.data with
  | none => rw [hpv] at h; simp at h
  | some p =>
    rw [hpv] at h
    simp only [] at h
    by_cases hws : skipWs p.2 = []
    · rw [if_pos hws] at h
      simp only [Option.some.injEq] at h
      subst h
      refine ⟨p.2, ?_, hws⟩
      rfl
    · rw [if_neg hws] at h
      simp at h

/-- Build a successful `jsonParse` from its `parseVal` run. -/
theorem jsonParse_intro (s : String) (v : JsValue) (rest : List Char)
    (hpv : parseVal (s.length + 1) s.data = some (v, rest))
    (hws : skipWs rest = []) : jsonParse s = some v := by
  unfold jsonParse
  rw [hpv]
  show (if skipWs rest = [] then some v else none) = some v
  rw [if_pos hws]

/-- `jsonParse` fails when the parsed value leaves a non-whitespace
remainder. -/
theorem jsonParse_some_tail_ne (s : String) (v : JsValue) (rest : List Char)
    (hpv : parseVal (s.length + 1) s.data = some (v, rest))
    (hne : ¬ skipWs rest = []) : jsonParse s = none := by
  unfold jsonParse
  rw [hpv]
  show (if skipWs rest = [] then some v else none) = none
  rw [if_neg hne]

/-- `jsonParse` fails when `parseVal` fails. -/
theorem jsonParse_none_intro (s : String)
    (hpv : parseVal (s.length + 1) s.data = none) : jsonParse s = none := by
  unfold jsonParse
  rw [hpv]

/-- Members of `dropWhile` are members of the list. -/
theorem mem_of_mem_dropWhile' {p : Char → Bool} {x : Char} :
    ∀ l : List Char, x ∈ l.dropWhile p → x ∈ l := by
  intro l
  induction l with
  | nil => intro h; simp at h
  | cons c rest ih =>
    intro h
    rw [List.dropWhile_cons] at h
    by_cases hc : p c = true
    · rw [if_pos hc] at h
      exact List.mem_cons_of_mem c (ih h)
    · rw [if_neg hc] at h
      exact h

/-- Locating the brace-delimited slice of prose-wrapped JSON: the first
opening brace starts the JSON token and the last closing brace ends it, and
the extracted slice is exactly the JSON token. -/
theorem slice_extract (pre1 post1 mid : List Char)
    (hpre1 : ∀ x ∈ pre1, ¬ x = '{') (hpost1 : ∀ x ∈ post1, ¬ x = '}') :
    idxOfChar '{' (pre1 ++ (('{' :: (mid ++ ['}'])) ++ post1)) = some pre1.length ∧
    lastIdxOfChar '}' (pre1 ++ (('{' :: (mid ++ ['}'])) ++ post1))
      = some (pre1.length + (mid.length + 1)) ∧
    ((pre1 ++ (('{' :: (mid ++ ['}'])) ++ post1)).drop pre1.length).take
        ((pre1.length + (mid.length + 1)) + 1 - pre1.length)
      = '{' :: (mid ++ ['}']) := by
  refine ⟨?_, ?_, ?_⟩
  · rw [idxOfChar_append_not_mem pre1 hpre1, List.cons_append, idxOfChar_cons_self]
    simp
  · unfold lastIdxOfChar
    have hrev : (pre1 ++ (('{' :: (mid ++ ['}'])) ++ post1)).reverse
        = post1.reverse ++ ('}' :: (mid.reverse ++ ('{' :: pre1.reverse))) := by
      simp
    rw [hrev, idxOfChar_append_not_mem post1.reverse
      (fun x hx => hpost1 x (List.mem_reverse.1 hx)), idxOfChar_cons_self]
    show some ((pre1 ++ (('{' :: (mid ++ ['}'])) ++ post1)).length - 1
      - (0 + post1.reverse.length)) = some (pre1.length + (mid.length + 1))
    simp only [List.length_append, List.length_cons, List.length_reverse,
      List.length_nil]
    congr 1
    omega
  · rw [List.drop_left]
    have harith : (pre1.length + (mid.length + 1)) + 1 - pre1.length
        = mid.length + 2 := by omega
    rw [harith]
    have hlen : ('{' :: (mid ++ ['}'])).length = mid.length + 2 := by simp
    rw [← hlen, List.take_left]

end Js

namespace Utils

/-- Embedding of `safeJsonParse` (`src/utils/json.ts`): trim, try a whole
parse, else extract the slice from the first `{` to the last `}` and try
that. -/
def safeJsonParse (text : String) : Option Js.JsValue :=
  let trimmed := Js.trimStr text
  if trimmed = "" then none
  else
    match Js.jsonParse trimmed with
    | some v => some v
    | none =>
      match Js.idxOfChar '{' trimmed.data, Js.lastIdxOfChar '}' trimmed.data with
      | some start, some stop =>
        if stop ≤ start then none
        else Js.jsonParse (String.mk ((trimmed.data.drop start).take (stop + 1 - start)))
      | _, _ => none

/-- Embedding of `truncate` (`src/utils/json.ts`).  The float fractions
`maxChars * 0.7` and `maxChars * 0.3` are modelled with exact integer
arithmetic on character counts. -/
def truncate (text : String) (maxChars : Nat) : String :=
  if text.length ≤ maxChars then text
  else
    String.mk (text.data.take (maxChars * 7 / 10)) ++
      "\n\n...(truncated " ++ toString (text.length - maxChars) ++ " chars)...\n\n" ++
      String.mk (text.data.drop (text.length - maxChars * 3 / 10))

/-- Wrapping a bare, brace-delimited valid JSON object in prose that opens
no JSON token (no `{`, `[`, `"` before it, no `}` after it) does not change
the result of `safeJsonParse`. -/
theorem safeJsonParse_wrap (pre j post : String) (mid : List Char)
    (v : Js.JsValue) (hj : j.data = '{' :: (mid ++ ['}']))
    (hpre : ∀ c ∈ pre.data, ¬ c = '{' ∧ ¬ c = '[' ∧ ¬ c = '"')
    (hpost : ∀ c ∈ post.data, ¬ c = '}')
    (hv : Js.jsonParse j = some v) :
    safeJsonParse (pre ++ j ++ post) = some v ∧ safeJsonParse j = some v := by
  have hjne : ¬ j = "" := by
    intro h0
    have hd : ("" : String).data = '{' :: (mid ++ ['}']) := by rw [← h0]; exact hj
    simp at hd
  have htrimj : Js.trimStr j = j := by
    have hd := Js.trimChars_decomp [] [] mid
    simp only [List.nil_append, List.append_nil, List.dropWhile_nil,
      List.reverse_nil] at hd
    show String.mk (Js.trimChars j.data) = j
    rw [hj, hd, ← hj]
  have hcase2 : safeJsonParse j = some v := by
    simp only [safeJsonParse]
    rw [htrimj, if_neg hjne, hv]
  have hdata : (pre ++ j ++ post).data
      = pre.data ++ (('{' :: (mid ++ ['}'])) ++ post.data) := by
    rw [String.data_append, String.data_append, hj, List.append_assoc]
  have htrim : Js.trimChars ((pre ++ j ++ post).data)
      = pre.data.dropWhile Js.isWs ++ (('{' :: (mid ++ ['}']))
        ++ ((post.data.reverse.dropWhile Js.isWs).reverse)) := by
    rw [hdata]
    exact Js.trimChars_decomp _ _ _
  have hTdata : (Js.trimStr (pre ++ j ++ post)).data
      = pre.data.dropWhile Js.isWs ++ (('{' :: (mid ++ ['}']))
        ++ ((post.data.reverse.dropWhile Js.isWs).reverse)) := htrim
  have hTne : ¬ Js.trimStr (pre ++ j ++ post) = "" := by
    intro h0
    have hd0 := congrArg String.data h0
    rw [hTdata] at hd0
    simp at hd0
  refine ⟨?_, hcase2⟩
  by_cases hA : pre.data.dropWhile Js.isWs = []
      ∧ (post.data.reverse.dropWhile Js.isWs).reverse = []
  · obtain ⟨hpre1, hpost1⟩ := hA
    have htrA : Js.trimStr (pre ++ j ++ post) = j := by
      show String.mk (Js.trimChars ((pre ++ j ++ post).data)) = j
      rw [htrim, hpre1, hpost1]
      simp only [List.nil_append, List.append_nil]
      rw [← hj]
    simp only [safeJsonParse]
    rw [htrA, if_neg hjne, hv]
  · have hfail : Js.jsonParse (Js.trimStr (pre ++ j ++ post)) = none := by
      by_cases hpre1 : pre.data.dropWhile Js.isWs = []
      · have hpost1 : ¬ (post.data.reverse.dropWhile Js.isWs).reverse = [] := by
          intro h0
          exact hA ⟨hpre1, h0⟩
        obtain ⟨rest0, hpv0, hws0⟩ := Js.jsonParse_elim j v hv
        obtain ⟨o, hvo⟩ := Js.jsonParse_open_brace_obj j _ hj v hv
        obtain ⟨ws, c, tl, hdec, hws, hc, hext⟩ :=
          (Js.parse_stable (j.length + 1)).1 j.data v rest0 hpv0
        apply Js.jsonParse_some_tail_ne _ v
          (rest0 ++ (post.data.reverse.dropWhile Js.isWs).reverse)
        · have hTd2 : (Js.trimStr (pre ++ j ++ post)).data
              = (ws ++ c :: tl) ++ (rest0
                ++ (post.data.reverse.dropWhile Js.isWs).reverse) := by
            rw [hTdata, hpre1]
            simp only [List.nil_append]
            rw [← hj, hdec, List.append_assoc]
          rw [hTd2]
          apply hext
          · have h1 : j.length = j.data.length := rfl
            have h2 : (Js.trimStr (pre ++ j ++ post)).length
                = (Js.trimStr (pre ++ j ++ post)).data.length := rfl
            rw [h1, h2, hTd2, hdec]
            simp only [List.length_append]
            omega
          · intro q hq
            rw [hvo] at hq
            exact Js.JsValue.noConfusion hq
        · have hall0 : ∀ x ∈ rest0, Js.isWs x = true :=
            (Js.skipWs_eq_nil_iff rest0).1 hws0
          rw [Js.skipWs_ws_append hall0]
          intro h0
          have hallp := (Js.skipWs_eq_nil_iff _).1 h0
          cases hdw : post.data.reverse.dropWhile Js.isWs with
          | nil => rw [hdw] at hpost1; simp at hpost1
          | cons y ys =>
            have hy : Js.isWs y = false := by
              have hh := Js.dropWhile_head_false (p := Js.isWs) post.data.reverse
              rw [hdw] at hh
              exact hh y (by simp)
            have hymem : y ∈ (post.data.reverse.dropWhile Js.isWs).reverse := by
              rw [hdw]
              simp
            have hyw := hallp y hymem
            rw [hy] at hyw
            exact absurd hyw (by simp)
      · cases hpc : pre.data.dropWhile Js.isWs with
        | nil => exact absurd hpc hpre1
        | cons pc pre1' =>
          have hpcw : Js.isWs pc = false := by
            have hh := Js.dropWhile_head_false (p := Js.isWs) pre.data
            rw [hpc] at hh
            exact hh pc (by simp)
          have hpcmem : pc ∈ pre.data :=
            Js.mem_of_mem_dropWhile' pre.data (by rw [hpc]; simp)
          obtain ⟨hpc1, hpc2, hpc3⟩ := hpre pc hpcmem
          have hswT : Js.skipWs (Js.trimStr (pre ++ j ++ post)).data
              = pc :: (pre1' ++ (('{' :: (mid ++ ['}']))
                ++ (post.data.reverse.dropWhile Js.isWs).reverse)) := by
            rw [hTdata, hpc, List.cons_append]
            exact Js.skipWs_cons_not_ws hpcw _
          have hbm : '{' ∈ pre1' ++ (('{' :: (mid ++ ['}']))
              ++ (post.data.reverse.dropWhile Js.isWs).reverse) := by
            simp
          rcases Js.parseVal_no_open ((Js.trimStr (pre ++ j ++ post)).length + 1)
              (Js.trimStr (pre ++ j ++ post)).data hswT hpc1 hpc2 hpc3 hbm with
            hnone | ⟨v', r, hsome, hbr⟩
          · exact Js.jsonParse_none_intro _ hnone
          · apply Js.jsonParse_some_tail_ne _ v' r hsome
            intro h0
            have hallr := (Js.skipWs_eq_nil_iff r).1 h0
            have hbw := hallr '{' hbr
            exact absurd hbw (by decide)
    obtain ⟨hidx1, hidx2, hslice⟩ := Js.slice_extract (pre.data.dropWhile Js.isWs)
      ((post.data.reverse.dropWhile Js.isWs).reverse) mid
      (fun x hx => (hpre x (Js.mem_of_mem_dropWhile' pre.data hx)).1)
      (fun x hx => hpost x (List.mem_reverse.1
        (Js.mem_of_mem_dropWhile' post.data.reverse (List.mem_reverse.1 hx))))
    simp only [safeJsonParse]
    rw [if_neg hTne, hfail]
    simp only []
    rw [hTdata, hidx1, hidx2]
    simp only []
    rw [if_neg (by omega), hslice, ← hj]
    exact hv

end Utils

namespace Parser

/-- Normalization of one raw step (`normalizeStep`,
`src/workflow/parser.ts`).  The `...step` passthrough of unknown fields and
the `adapterRequest` payload are not modelled; no claim depends on them. -/
def normalizeStep (raw : Js.JsValue) (index : Nat) : Except String WorkflowStep :=
  if ¬ Js.isObjTy raw then
    .error ("Step " ++ toString (index + 1) ++ " must be an object")
  else
    let id :=
      match Js.getField raw "id" with
      | some (.str s) => if Js.trimStr s ≠ "" then Js.trimStr s else "step-" ++ toString (index + 1)
      | _ => "step-" ++ toString (index + 1)
    let typeOk :=
      match Js.getField raw "type" with
      | some (.str t) => t = "agent.run"
      | _ => false
    if typeOk = false then
      .error ("Step \"" ++ id ++ "\" has unsupported type \"" ++
        Js.jsToStringOpt (Js.getField raw "type") ++ "\"")
    else
      let goal :=
        match Js.getField raw "goal" with
        | some (.str g) => g
        | _ => ""
      if Js.trimStr goal = "" then
        .error ("Step \"" ++ id ++ "\" is missing goal")
      else
        .ok {
          id := id
          goal := goal
          dependsOn :=
            match Js.getField raw "dependsOn" with
            | some (.arr deps) =>
              some ((Js.arrToList deps).map (fun d => Js.trimStr (Js.jsToString d))
                |>.filter (fun d => d ≠ ""))
            | _ => none
          context :=
            match Js.getField raw "context" with
            | some (.str c) => some c
            | _ => none }

/-- Normalization of the raw step array, aborting at the first invalid
step. -/
def normalizeSteps : List Js.JsValue → Nat → Except String (List WorkflowStep)
  | [], _ => .ok []
  | raw :: rest, index =>
    match normalizeStep raw index with
    | .error e => .error e
    | .ok s =>
      match normalizeSteps rest (index + 1) with
      | .error e => .error e
      | .ok ss => .ok (s :: ss)

/-- Embedding of `normalizeWorkflow` (`src/workflow/parser.ts`).  The
`defaults` passthrough object is not modelled; no claim depends on it.
`Number.isFinite` always holds for parsed JSON numbers and is therefore
omitted. -/
def normalizeWorkflow (v : Js.JsValue) : Except String Workflow :=
  if ¬ Js.isObjTy v then .error "Workflow must be an object"
  else
    let versionOk :=
      match Js.getField v "version" with
      | some (.num q) => q = (1 : Rat)
      | _ => false
    if versionOk = false then .error "Workflow.version must be 1"
    else
      match Js.getField v "id" with
      | some (.str id0) =>
        if Js.trimStr id0 = "" then .error "Workflow.id must be a non-empty string"
        else
          match Js.getField v "steps" with
          | some (.arr rawSteps) =>
            match normalizeSteps (Js.arrToList rawSteps) 0 with
            | .error e => .error e
            | .ok steps =>
              .ok {
                id := Js.trimStr id0
                name :=
                  match Js.getField v "name" with
                  | some (.str s) => some s
                  | _ => none
                description :=
                  match Js.getField v "description" with
                  | some (.str s) => some s
                  | _ => none
                concurrency :=
                  match Js.getField v "concurrency" with
                  | some (.num q) => some (max 1 ⌊q⌋)
                  | _ => none
                steps := steps }
          | _ => .error "Workflow.steps must be an array"
      | _ => .error "Workflow.id must be a non-empty string"

/-- Embedding of `parseWorkflow` (`src/workflow/parser.ts`): extract JSON
from the text (prose-tolerant) and normalize it.  The JS `!parsed` guard
rejects all falsy parses (`null`, `false`, `0`, `""`). -/
def parseWorkflow (text : String) : Except String Workflow :=
  match Utils.safeJsonParse text with
  | none => .error "Invalid JSON: could not parse workflow"
  | some v =>
    if Js.isFalsy v then .error "Invalid JSON: could not parse workflow"
    else normalizeWorkflow v

/-! Specification-side failure conditions for C7. -/

/-- The raw step value lacks a non-empty `goal` string (a non-object step
vacuously lacks one). -/
def StepLacksGoal (raw : Js.JsValue) : Prop :=
  match Js.getField raw "goal" with
  | some (.str g) => Js.trimStr g = ""
  | _ => True

/-- The raw step value declares a `type` other than the string
`"agent.run"`. -/
def StepBadType (raw : Js.JsValue) : Prop :=
  match Js.getField raw "type" with
  | some (.str t) => t ≠ "agent.run"
  | _ => True

/-- The workflow `version` field is not the number `1`. -/
def VersionBad (v : Js.JsValue) : Prop :=
  match Js.getField v "version" with
  | some (.num q) => q ≠ 1
  | _ => True

/-- The workflow `id` field is not a non-blank string. -/
def IdBad (v : Js.JsValue) : Prop :=
  match Js.getField v "id" with
  | some (.str s) => Js.trimStr s = ""
  | _ => True

/-- Exactly the situations in which `parse(rawText)` fails: no JSON value
extracted, a falsy or non-object extraction (so no JSON *object* was
extracted), wrong version, bad id, `steps` not an array, or some step
lacking a goal or declaring a foreign type. -/
def WorkflowFailCond (parsed : Option Js.JsValue) : Prop :=
  match parsed with
  | none => True
  | some v =>
    Js.isFalsy v = true ∨
    Js.isObjTy v = false ∨
    VersionBad v ∨
    IdBad v ∨
    (match Js.getField v "steps" with
      | some (.arr _) => False
      | _ => True) ∨
    (match Js.getField v "steps" with
      | some (.arr steps) => ∃ raw ∈ Js.arrToList steps, StepLacksGoal raw ∨ StepBadType raw
      | _ => False)

theorem normalizeStep_isOk (raw : Js.JsValue) (index : Nat) :
    (normalizeStep raw index).isOk = true ↔ ¬ (StepLacksGoal raw ∨ StepBadType raw) := by
  unfold normalizeStep StepLacksGoal StepBadType
  cases hobj : Js.isObjTy raw with
  | false =>
    have hgf : Js.getField raw "goal" = none := by
      cases raw <;> simp_all [Js.isObjTy, Js.getField]
    simp [hobj, hgf, Except.isOk, Except.toBool]
  | true =>
    simp only [hobj, not_false_iff, if_true, Bool.not_true, ite_true, ite_false]
    cases hty : Js.getField raw "type" with
    | none => simp [hty, Except.isOk, Except.toBool]
    | some tv =>
      cases tv with
      | str t =>
        by_cases ht : t = "agent.run"
        · subst ht
          simp only [hty]
          cases hgl : Js.getField raw "goal" with
          | none => simp [hgl, show Js.trimStr "" = "" from rfl, Except.isOk, Except.toBool]
          | some gv =>
            cases gv with
            | str g =>
              by_cases hg : Js.trimStr g = ""
              · simp [hgl, hg, Except.isOk, Except.toBool]
              · simp [hgl, hg, Except.isOk, Except.toBool]
            | null => simp [hgl, show Js.trimStr "" = "" from rfl, Except.isOk, Except.toBool]
            | bool b => simp [hgl, show Js.trimStr "" = "" from rfl, Except.isOk, Except.toBool]
            | num q => simp [hgl, show Js.trimStr "" = "" from rfl, Except.isOk, Except.toBool]
            | arr l => simp [hgl, show Js.trimStr "" = "" from rfl, Except.isOk, Except.toBool]
            | obj o => simp [hgl, show Js.trimStr "" = "" from rfl, Except.isOk, Except.toBool]
        · simp [hty, ht, Except.isOk, Except.toBool]
      | _ => simp [hty, Except.isOk, Except.toBool]

theorem normalizeSteps_isOk (l : List Js.JsValue) :
    ∀ index : Nat, (normalizeSteps l index).isOk = true ↔
      ∀ raw ∈ l, ¬ (StepLacksGoal raw ∨ StepBadType raw) := by
  induction l with
  | nil => intro index; simp [normalizeSteps, Except.isOk, Except.toBool]
  | cons raw rest ih =>
    intro index
    simp only [normalizeSteps]
    cases hstep : normalizeStep raw index with
    | error e =>
      have h1 := normalizeStep_isOk raw index
      rw [hstep] at h1
      have hfail : StepLacksGoal raw ∨ StepBadType raw := by
        by_contra hn
        exact absurd (h1.mpr hn) (by simp [Except.isOk, Except.toBool])
      constructor
      · intro h; simp [Except.isOk, Except.toBool] at h
      · intro h; exact absurd hfail (h raw (List.mem_cons_self raw rest))
    | ok s =>
      have h1 := normalizeStep_isOk raw index
      rw [hstep] at h1
      have hok : ¬ (StepLacksGoal raw ∨ StepBadType raw) :=
        h1.mp (by simp [Except.isOk, Except.toBool])
      cases hrest : normalizeSteps rest (index + 1) with
      | error e =>
        have h2 := ih (index + 1)
        rw [hrest] at h2
        constructor
        · intro h; simp [Except.isOk, Except.toBool] at h
        · intro h
          have hall : ∀ x ∈ rest, ¬ (StepLacksGoal x ∨ StepBadType x) :=
            fun x hx => h x (List.mem_cons_of_mem raw hx)
          exact absurd (h2.mpr hall) (by simp [Except.isOk, Except.toBool])
      | ok ss =>
        have h2 := ih (index + 1)
        rw [hrest] at h2
        have hall := h2.mp (by simp [Except.isOk, Except.toBool])
        constructor
        · intro _ x hx
          rcases List.mem_cons.1 hx with rfl | hx
          · exact hok
          · exact hall x hx
        · intro _; simp [Except.isOk, Except.toBool]

theorem normalizeWorkflow_isOk (v : Js.JsValue) :
    (normalizeWorkflow v).isOk = true ↔
      ¬ (Js.isObjTy v = false ∨ VersionBad v ∨ IdBad v ∨
        (match Js.getField v "steps" with
          | some (.arr _) => False
          | _ => True) ∨
        (match Js.getField v "steps" with
          | some (.arr steps) =>
            ∃ raw ∈ Js.arrToList steps, StepLacksGoal raw ∨ StepBadType raw
          | _ => False)) := by
  unfold normalizeWorkflow VersionBad IdBad
  cases hobj : Js.isObjTy v with
  | false => simp [Except.isOk, Except.toBool]
  | true =>
    simp only [Bool.true_eq_false, false_or, not_false_iff, if_true, ite_true, ite_false]
    cases hver : Js.getField v "version" with
    | none => simp [hver, Except.isOk, Except.toBool]
    | some vv =>
      cases vv with
      | num q =>
        by_cases hq : q = (1 : Rat)
        · subst hq
          rw [if_neg (by simp), if_neg (by simp)]
          cases hid : Js.getField v "id" with
          | none => simp [hid, Except.isOk, Except.toBool]
          | some iv =>
            cases iv with
            | str s =>
              by_cases hs : Js.trimStr s = ""
              · simp [hid, hs, Except.isOk, Except.toBool]
              · simp only [hid, hs, ite_true, ite_false, if_neg, if_pos]
                cases hsteps : Js.getField v "steps" with
                | none => simp [hsteps, hs, Except.isOk, Except.toBool]
                | some sv =>
                  cases sv with
                  | arr steps =>
                    have hns := normalizeSteps_isOk (Js.arrToList steps) 0
                    cases hrun : normalizeSteps (Js.arrToList steps) 0 with
                    | error e =>
                      rw [hrun] at hns
                      have hbad : ∃ raw ∈ Js.arrToList steps,
                          StepLacksGoal raw ∨ StepBadType raw := by
                        by_contra hn
                        push_neg at hn
                        exact absurd (hns.mpr (by
                          intro x hx
                          have := hn x hx
                          tauto)) (by simp [Except.isOk, Except.toBool])
                      simp only [hsteps, hrun, hs]
                      constructor
                      · intro h; simp [Except.isOk, Except.toBool] at h
                      · intro h
                        exact absurd (Or.inr (Or.inr (Or.inr hbad))) h
                    | ok ss =>
                      rw [hrun] at hns
                      have hgood := hns.mp (by simp [Except.isOk, Except.toBool])
                      simp only [hsteps, hrun, hs]
                      constructor
                      · intro _
                        rintro (h1 | h2 | h3 | h4)
                        · exact h1 rfl
                        · exact h2
                        · exact h3
                        · obtain ⟨x, hmem, hfail⟩ := h4
                          exact absurd hfail (hgood x hmem)
                      · intro _; simp [Except.isOk, Except.toBool]
                  | null => simp [hsteps, hs, Except.isOk, Except.toBool]
                  | bool b => simp [hsteps, hs, Except.isOk, Except.toBool]
                  | num q2 => simp [hsteps, hs, Except.isOk, Except.toBool]
                  | str s2 => simp [hsteps, hs, Except.isOk, Except.toBool]
                  | obj o => simp [hsteps, hs, Except.isOk, Except.toBool]
            | null => simp [hid, Except.isOk, Except.toBool]
            | bool b => simp [hid, Except.isOk, Except.toBool]
            | num q2 => simp [hid, Except.isOk, Except.toBool]
            | arr l => simp [hid, Except.isOk, Except.toBool]
            | obj o => simp [hid, Except.isOk, Except.toBool]
        · simp [hver, hq, Except.isOk, Except.toBool]
      | null => simp [hver, Except.isOk, Except.toBool]
      | bool b => simp [hver, Except.isOk, Except.toBool]
      | str s => simp [hver, Except.isOk, Except.toBool]
      | arr l => simp [hver, Except.isOk, Except.toBool]
      | obj o => simp [hver, Except.isOk, Except.toBool]

theorem parseWorkflow_isOk (raw : String) :
    (parseWorkflow raw).isOk = true ↔ ¬ WorkflowFailCond (Utils.safeJsonParse raw) := by
  unfold parseWorkflow WorkflowFailCond
  cases hp : Utils.safeJsonParse raw with
  | none => simp [Except.isOk, Except.toBool]
  | some v =>
    cases hf : Js.isFalsy v with
    | true =>
      have hobjf : Js.isObjTy v = false := by
        cases v <;> simp_all [Js.isFalsy, Js.isObjTy]
      simp [hf, hobjf, Except.isOk, Except.toBool]
    | false =>
      simp only [hf, Bool.false_eq_true, false_or, if_false, ite_false]
      exact normalizeWorkflow_isOk v

theorem normalizeWorkflow_version_error {v : Js.JsValue}
    (hobj : Js.isObjTy v = true) (hbad : VersionBad v) :
    normalizeWorkflow v = .error "Workflow.version must be 1" := by
  unfold normalizeWorkflow
  rw [if_neg (by simp [hobj])]
  rw [if_pos]
  unfold VersionBad at hbad
  cases hver : Js.getField v "version" with
  | none => simp
  | some vv =>
    rw [hver] at hbad
    cases vv with
    | num q => simpa using hbad
    | null => simp
    | bool b => simp
    | str s => simp
    | arr l => simp
    | obj o => simp

theorem normalizeStep_goal_error {raw : Js.JsValue} (index : Nat)
    (hobj : Js.isObjTy raw = true)
    (hty : Js.getField raw "type" = some (.str "agent.run"))
    (hgoal : StepLacksGoal raw) :
    ∃ id, normalizeStep raw index =
      .error ("Step \"" ++ id ++ "\" is " ++ "missing goal") := by
  unfold normalizeStep
  rw [if_neg (by simp [hobj])]
  rw [if_neg (by simp [hty])]
  unfold StepLacksGoal at hgoal
  refine ⟨match Js.getField raw "id" with
    | some (.str s) => if Js.trimStr s ≠ "" then Js.trimStr s else "step-" ++ toString (index + 1)
    | _ => "step-" ++ toString (index + 1), ?_⟩
  rw [if_pos]
  · have hlit : ("\" is " ++ "missing goal" : String) = "\" is missing goal" := rfl
    simp [String.append_assoc, hlit]
  · cases hg : Js.getField raw "goal" with
    | none => rfl
    | some gv =>
      rw [hg] at hgoal
      cases gv with
      | str g => exact hgoal
      | null => rfl
      | bool b => rfl
      | num q => rfl
      | arr l => rfl
      | obj o => rfl

/-- C7: `parse(rawText)` fails exactly when no JSON object can be extracted
from the text, the version is not 1, the id is missing or blank, `steps` is
not an array, some step lacks a non-empty goal, or some step declares a
type other than `"agent.run"`; the wrong-version error reads
`"Workflow.version must be 1"` (identifying `"version must be 1"`) and the
missing-goal error ends in `"missing goal"`. -/
theorem parseWorkflow_fails_iff :
    (∀ raw : String, (Parser.parseWorkflow raw).isOk = true ↔
      ¬ Parser.WorkflowFailCond (Utils.safeJsonParse raw)) ∧
    (∀ v : Js.JsValue, Js.isObjTy v = true → Parser.VersionBad v →
      Parser.normalizeWorkflow v = .error "Workflow.version must be 1") ∧
    ("Workflow.version must be 1" = "Workflow." ++ "version must be 1") ∧
    (∀ (raw : Js.JsValue) (index : Nat), Js.isObjTy raw = true →
      Js.getField raw "type" = some (.str "agent.run") →
      Parser.StepLacksGoal raw →
      ∃ id, Parser.normalizeStep raw index =
        .error ("Step \"" ++ id ++ "\" is " ++ "missing goal")) :=
  ⟨parseWorkflow_isOk, fun _ => normalizeWorkflow_version_error, rfl,
    fun raw index => normalizeStep_goal_error index⟩

/-- Concrete well-formed workflow JSON used by the parser witnesses. -/
def wfDemoText : String :=
  "\x7b\"version\":1,\"id\":\"w\",\"steps\":[\x7b\"id\":\"impl\",\"type\":\"agent.run\",\"goal\":\"implement feature\"\x7d]\x7d"

/-- Concrete raw step value with a type but no goal. -/
def demoNoGoalStep : Js.JsValue :=
  .obj (.cons "id" (.str "s") (.cons "type" (.str "agent.run") .nil))

/-- Witness for C7: the well-formed demo text parses (so none of the fail
conditions holds for it), a version-2 object raises exactly the
wrong-version message, and a goalless step raises the missing-goal
message. -/
theorem parseWorkflow_fails_iff_witness :
    (¬ Parser.WorkflowFailCond (Utils.safeJsonParse Parser.wfDemoText)) ∧
    Parser.normalizeWorkflow (.obj (.cons "version" (.num 2) .nil)) =
      .error "Workflow.version must be 1" ∧
    ∃ id, Parser.normalizeStep Parser.demoNoGoalStep 0 =
      .error ("Step \"" ++ id ++ "\" is " ++ "missing goal") := by
  refine ⟨(parseWorkflow_fails_iff.1 Parser.wfDemoText).mp (by rfl), ?_, ?_⟩
  · exact parseWorkflow_fails_iff.2.1 _ (by rfl)
      (show (2 : Rat) ≠ 1 by norm_num)
  · exact parseWorkflow_fails_iff.2.2.2 Parser.demoNoGoalStep 0 (by rfl) (by rfl) trivial

/-- The value `JSON.parse` yields on the demo workflow text. -/
def wfDemoValue : Js.JsValue :=
  .obj (.cons "version" (.num 1) (.cons "id" (.str "w") (.cons "steps"
    (.arr (.cons (.obj (.cons "id" (.str "impl") (.cons "type"
      (.str "agent.run") (.cons "goal" (.str "implement feature") .nil))))
      .nil)) .nil)))

/-- The workflow the demo text parses to. -/
def wfDemoParsed : Workflow :=
  { id := "w", steps := [{ id := "impl", goal := "implement feature" }] }

/-- C6 (corrected): wrapping a bare brace-delimited workflow JSON object in
prose yields the same parsed workflow as the bare JSON, provided the
leading prose opens no JSON token (contains no `{`, `[`, or `"`) and the
trailing prose contains no `}`; the parser falls back to slicing from the
first `{` to the last `}` when whole-text parsing fails. -/
theorem parseWorkflow_prose_wrap (pre j post : String) (mid : List Char)
    (v : Js.JsValue) (w : Workflow)
    (hj : j.data = '{' :: (mid ++ ['}']))
    (hpre : ∀ c ∈ pre.data, ¬ c = '{' ∧ ¬ c = '[' ∧ ¬ c = '"')
    (hpost : ∀ c ∈ post.data, ¬ c = '}')
    (hv : Js.jsonParse j = some v)
    (hw : Parser.parseWorkflow j = .ok w) :
    Parser.parseWorkflow (pre ++ j ++ post) = .ok w := by
  obtain ⟨h1, h2⟩ := Utils.safeJsonParse_wrap pre j post mid v hj hpre hpost hv
  unfold Parser.parseWorkflow at hw ⊢
  rw [h1]
  rw [h2] at hw
  exact hw

/-- Counterexample to C6 as stated: wrapping the demo workflow JSON in
prose that itself contains a `{` makes parsing fail (the slice from the
first `{` to the last `}` is no longer valid JSON), so wrapping in
arbitrary prose does not preserve the parse. -/
theorem parseWorkflow_prose_wrap_cex :
    Parser.parseWorkflow Parser.wfDemoText = .ok Parser.wfDemoParsed ∧
    Parser.parseWorkflow ("see \x7bexample\x7d " ++ Parser.wfDemoText)
      = .error "Invalid JSON: could not parse workflow" :=
  ⟨by rfl, by rfl⟩

/-- Witness for C6: the demo workflow text wrapped in benign prose parses
to the same workflow as the bare text. -/
theorem parseWorkflow_prose_wrap_witness :
    Parser.parseWorkflow ("Here is the workflow: " ++ Parser.wfDemoText
      ++ " Done.") = .ok Parser.wfDemoParsed :=
  parseWorkflow_prose_wrap "Here is the workflow: " Parser.wfDemoText " Done."
    ((Parser.wfDemoText.data.drop 1).dropLast) Parser.wfDemoValue
    Parser.wfDemoParsed (by rfl) (by decide) (by decide) (by rfl) (by rfl)

end Parser

namespace Runner

/-! Embedding of the library engine (`src/runner.ts`, `src/workflow/prompt.ts`).
The adapter (`AgentAdapter.execute`) is modelled as a function from the
prompt to either a result or a thrown error message; timestamps, artifact
files, and per-exec manifest entries are not modelled (no claim depends on
them), and the manifest is modelled by its `finishedAt` field together with
the last state flushed to disk by `writeManifest`. -/

/-- Result of one adapter execution (fields of the adapter result used by
the runner). -/
structure ExecResult where
  sessionId : String
  status : String
  outputText : String
  usage : Option String := none
  deriving Repr, DecidableEq

/-- An adapter maps the prompt to a result; `.error` models a thrown
exception carrying its message. -/
def Adapter : Type := String → Except String ExecResult

/-- A step's execution record (`StepResult`, `src/workflow/types.ts`). -/
structure StepResult where
  stepId : String
  status : String
  sessionId : String
  outputText : String
  usage : Option String := none
  error : Option String := none
  deriving Repr, DecidableEq

/-- JS `Map.get` on a map modelled as an association list in insertion
order. -/
def mapGet {α : Type} (m : List (String × α)) (k : String) : Option α :=
  (m.find? (fun p => p.1 == k)).map (fun p => p.2)

/-- JS `Map.set`: overwrite in place if the key exists, else append. -/
def mapSet {α : Type} (m : List (String × α)) (k : String) (v : α) :
    List (String × α) :=
  if m.any (fun p => p.1 == k) then
    m.map (fun p => if p.1 == k then (k, v) else p)
  else m ++ [(k, v)]

/-- The blocks that `buildStepPrompt` joins with newlines
(`src/workflow/prompt.ts`). -/
def buildStepPromptBlocks (step : WorkflowStep)
    (completed : List (String × StepResult)) (task : String) : List String :=
  [Js.trimStr step.goal, "", "Overall task: " ++ task]
  ++ (let deps := (depsOf step).filterMap (fun depId => mapGet completed depId)
      if deps = [] then []
      else ["", "Dependency outputs:"]
        ++ deps.flatMap (fun dep =>
          ["\n--- " ++ dep.stepId ++ " (" ++ dep.status ++ ") ---\n",
           if dep.outputText = "" then "(empty)" else dep.outputText]))
  ++ (match step.context with
      | some ctx =>
        if Js.trimStr ctx = "" then [] else ["", "Additional context:", Js.trimStr ctx]
      | none => [])
  ++ ["",
      "If you make code changes, run the most relevant checks/tests and report results.",
      "Finish with a short 'Done' summary and any remaining risks."]

/-- `buildStepPrompt` (`src/workflow/prompt.ts`): the blocks joined with
newlines. -/
def buildStepPrompt (step : WorkflowStep) (completed : List (String × StepResult))
    (task : String) : String :=
  String.intercalate "\n" (buildStepPromptBlocks step completed task)

/-- `buildWorkflowGenPrompt` (`src/workflow/prompt.ts`). -/
def buildWorkflowGenPrompt (task : String) (iteration : Nat)
    (carrySummary : String) : String :=
  String.intercalate "\n"
    (["use the workflow-generator skill.", "", "Task: " ++ task]
    ++ (if Js.trimStr carrySummary = "" then []
        else ["", "Context from previous iterations:", carrySummary])
    ++ ["", "Output ONLY valid JSON for a workflow object with fields:",
        "- version (1)", "- id (string)",
        "- steps: array of \x7b id, type:\"agent.run\", goal, dependsOn? \x7d", "",
        "Rules:",
        "- Keep it small (<= 8 steps). Prefer parallel research → execute → verify → summarize.",
        "- Every step.goal MUST begin with: \"use the <skill> skill.\"",
        "- Use only skills that exist in this workspace.",
        "- Use dependsOn to express data dependencies.",
        "- If iteration > 1, focus only on remaining work (do not repeat completed steps).",
        "", "Iteration: " ++ toString iteration])

/-- One line of the condensed results that `buildCompletionCheckPrompt`
serializes (the exact pretty-printed `JSON.stringify` layout is abbreviated
to a field list; no claim depends on the prompt text). -/
def condensedResultLine (r : StepResult) : String :=
  r.stepId ++ "|" ++ r.status ++ "|" ++ r.sessionId ++ "|"
    ++ Utils.truncate r.outputText 18000 ++ "|" ++ (r.error.getD "")

/-- `buildCompletionCheckPrompt` (`src/workflow/prompt.ts`). -/
def buildCompletionCheckPrompt (task : String) (workflow : Workflow)
    (results : List StepResult) (iteration : Nat) : String :=
  String.intercalate "\n"
    (["use the reviewer skill.", "", "Task: " ++ task,
      "Iteration: " ++ toString iteration, "",
      "Here are the workflow results (JSON):",
      String.intercalate "\n"
        (("workflowId: " ++ workflow.id) :: results.map condensedResultLine), "",
      "Return JSON ONLY with one of these shapes:",
      "1) \x7b\"done\":true,\"summary\":\"...\"\x7d",
      "2) \x7b\"done\":false,\"reason\":\"...\",\"nextWorkflow\":\x7b...workflow json...\x7d\x7d",
      "", "Rules:",
      "- Be strict: done=true only if the task is actually completed.",
      "- If not done, provide a small nextWorkflow (<= 6 steps) that finishes the remaining work.",
      "- nextWorkflow steps should begin with: \"use the <skill> skill.\""])

/-- `buildCarrySummary` (`src/workflow/prompt.ts`). -/
def buildCarrySummary (workflow : Workflow) (results : List StepResult)
    (reviewerDone : Bool) (reviewerReason : Option String) : String :=
  String.intercalate "\n"
    (["Previous workflow: " ++ workflow.id, "Step statuses:"]
    ++ results.flatMap (fun r =>
      ("- " ++ r.stepId ++ ": " ++ r.status ++ " (session " ++ r.sessionId ++ ")")
        :: (match r.error with
            | some e => ["  error: " ++ e]
            | none => []))
    ++ (if reviewerDone then []
        else ["Reviewer: not done (" ++ (reviewerReason.getD "") ++ ")"]))

/-- `executeStep` (`src/runner.ts`): a successful adapter call becomes a
result with the adapter's status; a thrown adapter error is caught and
becomes a `"failed"` result carrying the error message (empty session and
output). -/
def executeStep (adapter : Adapter) (step : WorkflowStep)
    (completed : List (String × StepResult)) (task : String) : StepResult :=
  match adapter (buildStepPrompt step completed task) with
  | .ok r =>
    { stepId := step.id, status := r.status, sessionId := r.sessionId,
      outputText := r.outputText, usage := r.usage }
  | .error msg =>
    { stepId := step.id, status := "failed", sessionId := "", outputText := "",
      error := some msg }

/-- Faults of the execution loop.  `fuelExhausted` is an artifact of the
fuel-indexed embedding and is proved unreachable for the fuel used by
`executeWorkflow`. -/
inductive ExecErr where
  | stuck
  | fuelExhausted
  deriving Repr, DecidableEq

/-- The thrown error's message (`new Error(...)` in `executeWorkflow`). -/
def execErrMsg : ExecErr → String
  | .stuck => "Workflow stuck: cannot resolve remaining steps"
  | .fuelExhausted => "fuel exhausted"

/-- The `while (pending.size > 0)` loop of `executeWorkflow`
(`src/runner.ts`).  Between waves the `running` set is always empty (the
loop awaits the whole wave), so it is passed to `findReadySteps` as the
empty list; the wave bound `ready.slice(0, max(1, slots))` with
`slots = max(1, concurrency) - running.size` is kept verbatim. -/
def execLoop (adapter : Adapter) (steps : List WorkflowStep) (task : String)
    (concurrency : Int) :
    Nat → List (String × StepResult) → List String →
      List (List WorkflowStep) →
      Except ExecErr (List (String × StepResult) × List (List WorkflowStep))
  | 0, _, _, _ => .error .fuelExhausted
  | fuel + 1, completed, pending, waves =>
    if pending = [] then .ok (completed, waves)
    else
      let ready := Executor.findReadySteps
        (steps.filter (fun s => s.id ∈ pending))
        (completed.map (fun p => p.1)) []
      if ready = [] then .error .stuck
      else
        let slots : Int := max 1 concurrency - 0
        let wave := ready.take (max 1 slots).toNat
        let results := wave.map (fun s => executeStep adapter s completed task)
        execLoop adapter steps task concurrency fuel
          (results.foldl (fun m r => mapSet m r.stepId r) completed)
          (pending.filter (fun id => ¬ results.any (fun r => r.stepId == id)))
          (waves ++ [wave])

/-- `executeWorkflow` (`src/runner.ts`): run the loop starting from the
deduplicated pending id set, then read one result per declared step.  The
`completed.get(s.id)!` non-null assertion of the source is modelled by a
default that is proved unreachable. -/
def executeWorkflow (adapter : Adapter) (w : Workflow) (task : String)
    (concurrency : Int) : Except ExecErr (List StepResult) :=
  (execLoop adapter w.steps task concurrency (w.steps.length + 1) []
      ((w.steps.map (fun s => s.id)).eraseDups) []).map
    (fun p => w.steps.map (fun s =>
      (mapGet p.1 s.id).getD
        { stepId := s.id, status := "", sessionId := "", outputText := "" }))

/-- Completion check verdict (`CompletionCheck`,
`src/workflow/types.ts`). -/
structure CompletionCheck where
  done : Bool
  summary : Option String := none
  reason : Option String := none
  nextWorkflow : Option Workflow := none
  deriving Repr, DecidableEq

/-- `String(x ?? default)` on an optional JSON field (`??` replaces both a
missing field and an explicit `null`). -/
def jsFieldString (v : Option Js.JsValue) (dflt : String) : String :=
  match v with
  | some Js.JsValue.null => dflt
  | some x => Js.jsToString x
  | none => dflt

/-- The parsing tail of `checkCompletion` (`src/runner.ts`), applied to the
reviewer's output text: unparseable, falsy, or non-object output yields the
graceful fallback; `done === true` yields a summary; otherwise the reason
is read and a truthy `nextWorkflow` is normalized, whose parse error (the
source's `normalizeWorkflow` throw) propagates. -/
def checkCompletion (outputText : String) : Except String CompletionCheck :=
  match Utils.safeJsonParse outputText with
  | none => .ok { done := false, reason := some "Reviewer returned invalid JSON" }
  | some parsed =>
    if Js.isFalsy parsed = true ∨ Js.isObjTy parsed = false then
      .ok { done := false, reason := some "Reviewer returned invalid JSON" }
    else if Js.getField parsed "done" = some (.bool true) then
      .ok { done := true,
            summary := some (jsFieldString (Js.getField parsed "summary") "Done.") }
    else
      let reason := jsFieldString (Js.getField parsed "reason") "Not done."
      match Js.getField parsed "nextWorkflow" with
      | some nwv =>
        if Js.isFalsy nwv = true then
          .ok { done := false, reason := some reason }
        else
          match Parser.normalizeWorkflow nwv with
          | .ok nw =>
            .ok { done := false, reason := some reason, nextWorkflow := some nw }
          | .error e => .error e
      | none => .ok { done := false, reason := some reason }

/-- `checkCompletion`'s adapter call followed by the parsing tail; an
adapter throw propagates to the caller. -/
def checkCompletionRun (adapter : Adapter) (prompt : String) :
    Except String CompletionCheck :=
  match adapter prompt with
  | .error e => .error e
  | .ok r => checkCompletion r.outputText

/-- `generateWorkflow` (`src/runner.ts`): adapter call then
`parseWorkflow` of its output; both throws propagate. -/
def generateWorkflow (adapter : Adapter) (prompt : String) :
    Except String Workflow :=
  match adapter prompt with
  | .error e => .error e
  | .ok r => Parser.parseWorkflow r.outputText

/-- The manifest, modelled by its finalization timestamp. -/
structure Manifest where
  finishedAt : Option String := none
  deriving Repr, DecidableEq

/-- Runner-side state: the in-memory manifest and the last manifest flushed
to disk by `writeManifest`. -/
structure RunSt where
  manifest : Manifest
  disk : Option Manifest := none
  deriving Repr, DecidableEq

/-- `writeManifest`: flush the manifest to disk. -/
def writeManifest (st : RunSt) : RunSt := { st with disk := some st.manifest }

/-- `finalizeRun`: stamp the finish timestamp. -/
def finalizeRun (now : String) (st : RunSt) : RunSt :=
  { st with manifest := { st.manifest with finishedAt := some now } }

/-- `RunnerResult` (`src/runner.ts`). -/
structure RunnerResult where
  status : String
  summary : Option String := none
  error : Option String := none
  deriving Repr, DecidableEq

/-- `RunOptions` fields the loop reads. -/
structure RunOptions where
  maxIterations : Nat
  concurrency : Int
  deriving Repr, DecidableEq

/-- The iteration loop of `run` (`src/runner.ts`), indexed by the number of
remaining iterations.  Every error of the body (generator parse error,
stuck workflow, reviewer-side `normalizeWorkflow` throw, adapter throw)
reaches the `catch`, which finalizes the manifest, flushes it, and returns
status `"error"` with the message; `done:true` returns `"completed"` after
finalize-and-flush, and running out of iterations returns
`"max-iterations"` after finalize-and-flush. -/
def runLoop (adapter : Adapter) (task : String) (options : RunOptions)
    (now : String) :
    Nat → Nat → String → Option Workflow → RunSt → RunnerResult × RunSt
  | 0, _, _, _, st =>
    ({ status := "max-iterations" }, writeManifest (finalizeRun now st))
  | rem + 1, iteration, carry, override, st =>
    match (match override with
           | some wf => Except.ok wf
           | none =>
             generateWorkflow adapter (buildWorkflowGenPrompt task iteration carry)) with
    | .error e =>
      ({ status := "error", error := some e }, writeManifest (finalizeRun now st))
    | .ok workflow =>
      match executeWorkflow adapter workflow task options.concurrency with
      | .error e =>
        ({ status := "error", error := some (execErrMsg e) },
          writeManifest (finalizeRun now st))
      | .ok stepResults =>
        match checkCompletionRun adapter
            (buildCompletionCheckPrompt task workflow stepResults iteration) with
        | .error e =>
          ({ status := "error", error := some e }, writeManifest (finalizeRun now st))
        | .ok completion =>
          let st2 := writeManifest st
          if completion.done then
            ({ status := "completed", summary := completion.summary },
              writeManifest (finalizeRun now st2))
          else
            runLoop adapter task options now rem (iteration + 1)
              (buildCarrySummary workflow stepResults completion.done
                completion.reason)
              completion.nextWorkflow st2

/-- `run` (`src/runner.ts`): initialize (the initial manifest is written to
disk), then iterate from 1 up to `maxIterations`. -/
def run (adapter : Adapter) (task : String) (options : RunOptions)
    (now : String) : RunnerResult × RunSt :=
  runLoop adapter task options now options.maxIterations 1 "" none
    { manifest := {}, disk := some {} }

/-- Every exit of the iteration loop returns one of the three statuses, and
finalizes and flushes the manifest first; an error exit carries a
message. -/
theorem runLoop_spec (adapter : Adapter) (task : String) (options : RunOptions)
    (now : String) :
    ∀ (rem iteration : Nat) (carry : String) (override : Option Workflow)
      (st : RunSt) (res : RunnerResult) (stF : RunSt),
      runLoop adapter task options now rem iteration carry override st = (res, stF) →
      (res.status = "completed" ∨ res.status = "max-iterations" ∨
        res.status = "error") ∧
      stF.manifest.finishedAt = some now ∧
      stF.disk = some stF.manifest ∧
      (res.status = "error" → ∃ msg, res.error = some msg) := by
  intro rem
  induction rem with
  | zero =>
    intro iteration carry override st res stF h
    simp only [runLoop] at h
    injection h with h1 h2
    subst h1
    subst h2
    refine ⟨Or.inr (Or.inl rfl), rfl, rfl, ?_⟩
    intro hc
    exact absurd hc (by decide)
  | succ rem ih =>
    intro iteration carry override st res stF h
    simp only [runLoop] at h
    split at h
    next e heq =>
      injection h with h1 h2
      subst h1
      subst h2
      exact ⟨Or.inr (Or.inr rfl), rfl, rfl, fun _ => ⟨e, rfl⟩⟩
    next workflow heq =>
      split at h
      next e heq2 =>
        injection h with h1 h2
        subst h1
        subst h2
        exact ⟨Or.inr (Or.inr rfl), rfl, rfl, fun _ => ⟨execErrMsg e, rfl⟩⟩
      next stepResults heq2 =>
        split at h
        next e heq3 =>
          injection h with h1 h2
          subst h1
          subst h2
          exact ⟨Or.inr (Or.inr rfl), rfl, rfl, fun _ => ⟨e, rfl⟩⟩
        next completion heq3 =>
          split at h
          · injection h with h1 h2
            subst h1
            subst h2
            refine ⟨Or.inl rfl, rfl, rfl, ?_⟩
            intro hc
            exact absurd hc (show ¬ ("completed" : String) = "error" by decide)
          · exact ih _ _ _ _ _ _ h

/-- C9 (corrected): an unparseable reviewer output — and any falsy or
non-object parse — yields the graceful fallback
`{done := false, reason := "Reviewer returned invalid JSON"}` and the run
continues with the next iteration, whereas a malformed workflow-generation
output raises a parse error that terminates the run with status `error`. -/
theorem checkCompletion_parse_faults :
    (∀ out : String, Utils.safeJsonParse out = none →
      checkCompletion out =
        .ok { done := false, reason := some "Reviewer returned invalid JSON" }) ∧
    (∀ (out : String) (v : Js.JsValue), Utils.safeJsonParse out = some v →
      Js.isFalsy v = true ∨ Js.isObjTy v = false →
      checkCompletion out =
        .ok { done := false, reason := some "Reviewer returned invalid JSON" }) ∧
    (∀ (adapter : Adapter) (task : String) (options : RunOptions) (now : String)
      (e : String), 1 ≤ options.maxIterations →
      generateWorkflow adapter (buildWorkflowGenPrompt task 1 "") = .error e →
      (run adapter task options now).1 = { status := "error", error := some e }) ∧
    (∀ (adapter : Adapter) (task : String) (options : RunOptions) (now : String)
      (rem iteration : Nat) (carry : String) (st : RunSt) (workflow : Workflow)
      (stepResults : List StepResult) (r : ExecResult),
      executeWorkflow adapter workflow task options.concurrency = .ok stepResults →
      adapter (buildCompletionCheckPrompt task workflow stepResults iteration) = .ok r →
      Utils.safeJsonParse r.outputText = none →
      runLoop adapter task options now (rem + 1) iteration carry (some workflow) st
        = runLoop adapter task options now rem (iteration + 1)
            (buildCarrySummary workflow stepResults false
              (some "Reviewer returned invalid JSON"))
            none (writeManifest st)) := by
  refine ⟨?_, ?_, ?_, ?_⟩
  · intro out hout
    unfold checkCompletion
    rw [hout]
  · intro out v hout hbad
    unfold checkCompletion
    rw [hout]
    simp only []
    rw [if_pos ?_]
    rcases hbad with hb | hb
    · exact Or.inl hb
    · exact Or.inr hb
  · intro adapter task options now e hiter hgen
    obtain ⟨k, hk⟩ : ∃ k, options.maxIterations = k + 1 :=
      ⟨options.maxIterations - 1, by omega⟩
    unfold run
    rw [hk]
    simp only [runLoop]
    rw [hgen]
  · intro adapter task options now rem iteration carry st workflow stepResults r
      hexec hadapter hparse
    simp only [runLoop]
    rw [hexec]
    show (match checkCompletionRun adapter
        (buildCompletionCheckPrompt task workflow stepResults iteration) with
      | .error e =>
        (({ status := "error", error := some e } : RunnerResult),
          writeManifest (finalizeRun now st))
      | .ok completion =>
        let st2 := writeManifest st
        if completion.done then
          (({ status := "completed", summary := completion.summary } : RunnerResult),
            writeManifest (finalizeRun now st2))
        else
          runLoop adapter task options now rem (iteration + 1)
            (buildCarrySummary workflow stepResults completion.done
              completion.reason)
            completion.nextWorkflow st2) = _
    rw [show checkCompletionRun adapter
        (buildCompletionCheckPrompt task workflow stepResults iteration)
      = .ok { done := false, reason := some "Reviewer returned invalid JSON" } by
        unfold checkCompletionRun
        rw [hadapter]
        simp only []
        unfold checkCompletion
        rw [hparse]]
    rfl

/-- Counterexample to C9 as stated: a JSON array is not a JSON object, yet
`checkCompletion` does not return the invalid-JSON fallback for it — the JS
`typeof` check treats arrays as objects, so `"[]"` proceeds to the normal
path and yields reason `"Not done."`. -/
theorem checkCompletion_parse_faults_cex :
    Utils.safeJsonParse "[]" = some (Js.JsValue.arr Js.JsArr.nil) ∧
    checkCompletion "[]" = .ok { done := false, reason := some "Not done." } ∧
    ¬ ("Not done." = "Reviewer returned invalid JSON") :=
  ⟨by rfl, by rfl, by decide⟩

/-- Witness for C9: a non-JSON reviewer output gets the fallback, and a
generator whose output is not workflow JSON terminates the concrete run
with the parse error. -/
theorem checkCompletion_parse_faults_witness :
    checkCompletion "not json" =
      .ok { done := false, reason := some "Reviewer returned invalid JSON" } ∧
    (run (fun _ => Except.ok
        { sessionId := "s", status := "succeeded", outputText := "not json" })
      "T" { maxIterations := 2, concurrency := 3 } "NOW").1
      = { status := "error",
          error := some "Invalid JSON: could not parse workflow" } :=
  ⟨checkCompletion_parse_faults.1 "not json" (by rfl),
    checkCompletion_parse_faults.2.2.1
      (fun _ => Except.ok
        { sessionId := "s", status := "succeeded", outputText := "not json" })
      "T" { maxIterations := 2, concurrency := 3 } "NOW"
      "Invalid JSON: could not parse workflow" (by decide) (by rfl)⟩

/-- `executeStep` always reports the step's own id. -/
theorem executeStep_stepId (adapter : Adapter) (step : WorkflowStep)
    (completed : List (String × StepResult)) (task : String) :
    (executeStep adapter step completed task).stepId = step.id := by
  unfold executeStep
  split <;> rfl

/-- Overwriting a present key preserves the key list pointwise. -/
theorem map_fst_overwrite {α : Type} (k : String) (v : α) :
    ∀ m : List (String × α),
      (m.map (fun p => if p.1 == k then (k, v) else p)).map (fun p => p.1)
        = m.map (fun p => p.1) := by
  intro m
  induction m with
  | nil => rfl
  | cons p t ih =>
    simp only [List.map_cons]
    rw [ih]
    by_cases hp : (p.1 == k) = true
    · rw [if_pos hp]
      have : k = p.1 := (eq_of_beq hp).symm
      rw [this]
    · rw [if_neg hp]

/-- `any` over an association list's keys. -/
theorem any_fst {α : Type} (k : String) : ∀ m : List (String × α),
    m.any (fun p => p.1 == k) = (m.map (fun p => p.1)).any (fun x => x == k) := by
  intro m
  induction m with
  | nil => rfl
  | cons p t ih => simp only [List.any_cons, List.map_cons, ih]

/-- The key list of `mapSet` depends only on the key list. -/
theorem mapSet_keys {α : Type} (m : List (String × α)) (k : String) (v : α) :
    (mapSet m k v).map (fun p => p.1)
      = if (m.map (fun p => p.1)).any (fun x => x == k)
        then m.map (fun p => p.1) else m.map (fun p => p.1) ++ [k] := by
  unfold mapSet
  rw [any_fst]
  by_cases h : ((m.map (fun p => p.1)).any (fun x => x == k)) = true
  · rw [if_pos h, if_pos h, map_fst_overwrite]
  · rw [if_neg h, if_neg h]
    simp

/-- The key list after folding a wave of results into the completed map
depends only on the starting key list and the result ids. -/
theorem foldl_mapSet_keys :
    ∀ (rs1 rs2 : List StepResult) (m1 m2 : List (String × StepResult)),
      m1.map (fun p => p.1) = m2.map (fun p => p.1) →
      rs1.map (fun r => r.stepId) = rs2.map (fun r => r.stepId) →
      (rs1.foldl (fun m r => mapSet m r.stepId r) m1).map (fun p => p.1)
        = (rs2.foldl (fun m r => mapSet m r.stepId r) m2).map (fun p => p.1) := by
  intro rs1
  induction rs1 with
  | nil =>
    intro rs2 m1 m2 hm hids
    cases rs2 with
    | nil => exact hm
    | cons r t => simp at hids
  | cons r1 t1 ih =>
    intro rs2 m1 m2 hm hids
    cases rs2 with
    | nil => simp at hids
    | cons r2 t2 =>
      simp only [List.map_cons, List.cons.injEq] at hids
      simp only [List.foldl_cons]
      apply ih t2 _ _ _ hids.2
      rw [mapSet_keys, mapSet_keys, hm, hids.1]

/-- Wave scheduling is adapter-independent: with equal completed-key lists,
two runs of the loop under different adapters fail identically or succeed
with equal completed-key lists.  In particular a step failure (which is
just a `"failed"` result) never aborts or reorders execution. -/
theorem execLoop_adapter_indep :
    ∀ (fuel : Nat) (a1 a2 : Adapter) (steps : List WorkflowStep) (task : String)
      (c : Int) (completed1 completed2 : List (String × StepResult))
      (pending : List String) (waves1 waves2 : List (List WorkflowStep)),
      completed1.map (fun p => p.1) = completed2.map (fun p => p.1) →
      (∃ e, execLoop a1 steps task c fuel completed1 pending waves1 = .error e ∧
            execLoop a2 steps task c fuel completed2 pending waves2 = .error e) ∨
      (∃ m1 w1 m2 w2,
        execLoop a1 steps task c fuel completed1 pending waves1 = .ok (m1, w1) ∧
        execLoop a2 steps task c fuel completed2 pending waves2 = .ok (m2, w2) ∧
        m1.map (fun p => p.1) = m2.map (fun p => p.1)) := by
  intro fuel
  induction fuel with
  | zero =>
    intro a1 a2 steps task c completed1 completed2 pending waves1 waves2 hm
    exact Or.inl ⟨.fuelExhausted, rfl, rfl⟩
  | succ fuel ih =>
    intro a1 a2 steps task c completed1 completed2 pending waves1 waves2 hm
    simp only [execLoop]
    by_cases hp : pending = []
    · rw [if_pos hp, if_pos hp]
      exact Or.inr ⟨completed1, waves1, completed2, waves2, rfl, rfl, hm⟩
    · rw [if_neg hp, if_neg hp, hm]
      by_cases hr : Executor.findReadySteps (steps.filter (fun s => s.id ∈ pending))
          (completed2.map (fun p => p.1)) [] = []
      · rw [if_pos hr, if_pos hr]
        exact Or.inl ⟨.stuck, rfl, rfl⟩
      · rw [if_neg hr, if_neg hr]
        have hids :
            ((((Executor.findReadySteps (steps.filter (fun s => s.id ∈ pending))
                (completed2.map (fun p => p.1)) []).take
                  (max 1 (max 1 c - 0)).toNat).map
              (fun s => executeStep a1 s completed1 task)).map (fun r => r.stepId))
            = ((((Executor.findReadySteps (steps.filter (fun s => s.id ∈ pending))
                (completed2.map (fun p => p.1)) []).take
                  (max 1 (max 1 c - 0)).toNat).map
              (fun s => executeStep a2 s completed2 task)).map (fun r => r.stepId)) := by
          rw [List.map_map, List.map_map]
          apply List.map_congr_left
          intro s _
          show (executeStep a1 s completed1 task).stepId
            = (executeStep a2 s completed2 task).stepId
          rw [executeStep_stepId, executeStep_stepId]
        have hany2 : ∀ (rs : List StepResult) (id : String),
            rs.any (fun r => r.stepId == id)
              = (rs.map (fun r => r.stepId)).any (fun x => x == id) := by
          intro rs id
          induction rs with
          | nil => rfl
          | cons r t iht => simp only [List.any_cons, List.map_cons, iht]
        have hpend :
            pending.filter (fun id =>
              ¬ (((Executor.findReadySteps (steps.filter (fun s => s.id ∈ pending))
                  (completed2.map (fun p => p.1)) []).take
                    (max 1 (max 1 c - 0)).toNat).map
                (fun s => executeStep a1 s completed1 task)).any
                  (fun r => r.stepId == id))
            = pending.filter (fun id =>
              ¬ (((Executor.findReadySteps (steps.filter (fun s => s.id ∈ pending))
                  (completed2.map (fun p => p.1)) []).take
                    (max 1 (max 1 c - 0)).toNat).map
                (fun s => executeStep a2 s completed2 task)).any
                  (fun r => r.stepId == id)) := by
          apply List.filter_congr
          intro id _
          rw [hany2, hany2, hids]
        rw [hpend]
        apply ih
        apply foldl_mapSet_keys _ _ _ _ hm hids

/-- Membership in `findReadySteps` depends only on id membership: a step is
ready exactly when it is pending, not completed, not running, and every
dependency id is in the completed id set — irrespective of any step's
status. -/
theorem mem_findReadySteps (steps : List WorkflowStep)
    (completed running : List String) (s : WorkflowStep) :
    s ∈ Executor.findReadySteps steps completed running ↔
      s ∈ steps ∧ s.id ∉ completed ∧ s.id ∉ running ∧
        ∀ d ∈ depsOf s, d ∈ completed := by
  simp [Executor.findReadySteps, List.mem_filter]

/-- The dependency block of a step prompt contains, for each completed
dependency, the header naming the dependency and its status and the
dependency's output text (`"(empty)"` when empty). -/
theorem buildStepPrompt_dep_block (step : WorkflowStep)
    (completed : List (String × StepResult)) (task : String) (depId : String)
    (r : StepResult) (hdep : depId ∈ depsOf step)
    (hget : mapGet completed depId = some r) :
    ("\n--- " ++ r.stepId ++ " (" ++ r.status ++ ") ---\n")
      ∈ buildStepPromptBlocks step completed task ∧
    (if r.outputText = "" then "(empty)" else r.outputText)
      ∈ buildStepPromptBlocks step completed task := by
  have hrdep : r ∈ (depsOf step).filterMap (fun depId => mapGet completed depId) := by
    rw [List.mem_filterMap]
    exact ⟨depId, hdep, hget⟩
  have hne : ¬ (depsOf step).filterMap (fun depId => mapGet completed depId) = [] := by
    intro h0
    rw [h0] at hrdep
    simp at hrdep
  have hmem : ∀ x : String,
      x ∈ ["\n--- " ++ r.stepId ++ " (" ++ r.status ++ ") ---\n",
           if r.outputText = "" then "(empty)" else r.outputText] →
      x ∈ buildStepPromptBlocks step completed task := by
    intro x hx
    simp only [buildStepPromptBlocks]
    apply List.mem_append.mpr
    refine Or.inl ?_
    apply List.mem_append.mpr
    refine Or.inl ?_
    apply List.mem_append.mpr
    refine Or.inr ?_
    rw [if_neg hne]
    apply List.mem_append.mpr
    refine Or.inr (List.mem_flatMap.mpr ⟨r, hrdep, hx⟩)
  exact ⟨hmem _ (by simp), hmem _ (by simp)⟩

/-- C3: a step whose adapter call throws resolves to a `"failed"`
`StepResult` carrying the error message instead of aborting the run; the
scheduling of the remaining steps is unchanged by any step's outcome (so
dependents still execute once the failed step is in the completed set, the
readiness test looking only at completed ids); and the dependent's prompt
contains the dependency block naming the failed dependency with its
`(failed)` status marker and its output text. -/
theorem executeStep_failure_isolated :
    (∀ (adapter : Adapter) (step : WorkflowStep)
      (completed : List (String × StepResult)) (task msg : String),
      adapter (buildStepPrompt step completed task) = .error msg →
      executeStep adapter step completed task =
        { stepId := step.id, status := "failed", sessionId := "",
          outputText := "", error := some msg }) ∧
    (∀ (a1 a2 : Adapter) (w : Workflow) (task : String) (c : Int),
      (executeWorkflow a1 w task c).isOk = (executeWorkflow a2 w task c).isOk) ∧
    (∀ (steps : List WorkflowStep) (completed running : List String)
      (s : WorkflowStep),
      s ∈ Executor.findReadySteps steps completed running ↔
        s ∈ steps ∧ s.id ∉ completed ∧ s.id ∉ running ∧
          ∀ d ∈ depsOf s, d ∈ completed) ∧
    (∀ (step : WorkflowStep) (completed : List (String × StepResult))
      (task depId : String) (r : StepResult), depId ∈ depsOf step →
      mapGet completed depId = some r → r.status = "failed" →
      ("\n--- " ++ r.stepId ++ " (" ++ "failed" ++ ") ---\n")
        ∈ buildStepPromptBlocks step completed task ∧
      (if r.outputText = "" then "(empty)" else r.outputText)
        ∈ buildStepPromptBlocks step completed task) := by
  refine ⟨?_, ?_, mem_findReadySteps, ?_⟩
  · intro adapter step completed task msg hthrow
    unfold executeStep
    rw [hthrow]
  · intro a1 a2 w task c
    unfold executeWorkflow
    rcases execLoop_adapter_indep (w.steps.length + 1) a1 a2 w.steps task c [] []
        ((w.steps.map (fun s => s.id)).eraseDups) [] [] rfl with
      ⟨e, h1, h2⟩ | ⟨m1, w1, m2, w2, h1, h2, _⟩
    · rw [h1, h2]
    · rw [h1, h2]
      rfl
  · intro step completed task depId r hdep hget hfail
    have h := buildStepPrompt_dep_block step completed task depId r hdep hget
    rw [hfail] at h
    exact h

/-- Witness for C3 at a concrete two-step workflow (`b` depends on `a`)
whose adapter throws on `a`'s prompt: `a` resolves to a failed result with
the message, scheduling matches the never-failing adapter, `b` is ready
once `a` is completed, and `b`'s prompt block names `a (failed)`. -/
theorem executeStep_failure_isolated_witness :
    executeStep
        (fun p => if p = buildStepPrompt { id := "a", goal := "ga" } [] "T"
          then Except.error "boom"
          else Except.ok { sessionId := "s", status := "succeeded", outputText := "out" })
        { id := "a", goal := "ga" } [] "T"
      = { stepId := "a", status := "failed", sessionId := "", outputText := "",
          error := some "boom" } ∧
    (executeWorkflow
        (fun p => if p = buildStepPrompt { id := "a", goal := "ga" } [] "T"
          then Except.error "boom"
          else Except.ok { sessionId := "s", status := "succeeded", outputText := "out" })
        { id := "w", steps := [{ id := "a", goal := "ga" },
          { id := "b", goal := "gb", dependsOn := some ["a"] }] } "T" 3).isOk
      = (executeWorkflow
        (fun _ => Except.ok { sessionId := "s", status := "succeeded", outputText := "out" })
        { id := "w", steps := [{ id := "a", goal := "ga" },
          { id := "b", goal := "gb", dependsOn := some ["a"] }] } "T" 3).isOk ∧
    ({ id := "b", goal := "gb", dependsOn := some ["a"] } : WorkflowStep)
      ∈ Executor.findReadySteps
        [({ id := "b", goal := "gb", dependsOn := some ["a"] } : WorkflowStep)]
        ["a"] [] ∧
    ("\n--- " ++ "a" ++ " (" ++ "failed" ++ ") ---\n")
      ∈ buildStepPromptBlocks { id := "b", goal := "gb", dependsOn := some ["a"] }
        [("a",
          { stepId := "a", status := "failed", sessionId := "",
            outputText := "", error := some "boom" })] "T" := by
  refine ⟨?_, ?_, ?_, ?_⟩
  · exact executeStep_failure_isolated.1 _ _ [] "T" "boom" (by rw [if_pos rfl])
  · exact executeStep_failure_isolated.2.1 _ _ _ "T" 3
  · exact (executeStep_failure_isolated.2.2.1 _ _ _ _).mpr
      (by refine ⟨by decide, by decide, by decide, ?_⟩
          intro d hd
          simp only [depsOf] at hd
          simp at hd
          subst hd
          decide)
  · exact (executeStep_failure_isolated.2.2.2
      { id := "b", goal := "gb", dependsOn := some ["a"] }
      [("a",
        { stepId := "a", status := "failed", sessionId := "",
          outputText := "", error := some "boom" })] "T" "a"
      { stepId := "a", status := "failed", sessionId := "",
        outputText := "", error := some "boom" }
      (by decide) (by rfl) (by rfl)).1

end Runner

namespace Cli

/-! Embedding of the standalone autopilot engine
(`examples/codex-autopilot.ts`, shipped in the repository snapshot as an
unnamed source file).  `codexExec` is modelled as an adapter from the
prompt to a result or a thrown error (a `CodexExecError` carries its exec
and thread ids); manifest/artifact bookkeeping is not modelled.  The
execution loop carries a ghost trace of the launched waves (write-only; the
source has no such value) so that the concurrency bound can be stated. -/

/-- Result of `codexExec`. -/
structure CodexRunResult where
  execId : String
  threadId : String
  outputText : String
  usage : Option String := none
  deriving Repr, DecidableEq

/-- A thrown adapter error: `CodexExecError` (with ids) or any other
exception. -/
inductive CodexErr where
  | execError (execId threadId : String) (message : String)
  | other (message : String)
  deriving Repr, DecidableEq

/-- The `codexExec` oracle. -/
def Adapter : Type := String → Except CodexErr CodexRunResult

/-- `StepResult` of the standalone engine. -/
structure StepResult where
  stepId : String
  status : String
  execId : String
  threadId : String
  outputText : String
  usage : Option String := none
  error : Option String := none
  deriving Repr, DecidableEq

/-- The `RunnerOptions` fields the execution loop reads. -/
structure RunnerOptions where
  task : String
  concurrency : Int
  maxIterations : Int
  deriving Repr, DecidableEq

/-- `getDeps` of `executeWorkflow`: dependency ids of a step through the
`byId` map, trimmed, dropping empties. -/
def getDeps (steps : List WorkflowStep) (stepId : String) : List String :=
  match Executor.byIdGet steps stepId with
  | none => []
  | some step =>
    ((step.dependsOn.getD []).map (fun dep => Js.trimStr dep)).filter
      (fun dep => ¬ dep = "")

/-- The blocks of the standalone engine's `buildStepPrompt`; a dependency
entry is `(id, status, outputText)`. -/
def buildStepPromptBlocks (task : String) (step : WorkflowStep)
    (deps : List (String × String × String)) : List String :=
  [Js.trimStr step.goal, "", "Overall task: " ++ task]
  ++ (if deps = [] then []
      else ["", "Dependency outputs (copy/paste; may be long):"]
        ++ deps.flatMap (fun dep =>
          ["\n--- " ++ dep.1 ++ " (" ++ dep.2.1 ++ ") ---\n",
           if dep.2.2 = "" then "(empty)" else dep.2.2]))
  ++ (match step.context with
      | some ctx =>
        if Js.trimStr ctx = "" then [] else ["", "Additional context:", Js.trimStr ctx]
      | none => [])
  ++ ["",
      "If you make code changes, run the most relevant checks/tests and report results.",
      "Finish with a short 'Done' summary and any remaining risks."]

/-- `buildStepPrompt` of the standalone engine. -/
def buildStepPrompt (task : String) (step : WorkflowStep)
    (deps : List (String × String × String)) : String :=
  String.intercalate "\n" (buildStepPromptBlocks task step deps)

/-- The body of one wave entry of `executeWorkflow`: resolve the step,
collect dependency outputs (a missing dependency result becomes
`("failed", "(missing)")`), call the adapter, and catch a throw into a
`"failed"` result. -/
def runStep (adapter : Adapter) (options : RunnerOptions)
    (steps : List WorkflowStep) (results : List (String × StepResult))
    (stepId : String) : StepResult :=
  match Executor.byIdGet steps stepId with
  | none =>
    { stepId := stepId, status := "failed", execId := "unknown",
      threadId := "unknown", outputText := "",
      error := some ("Missing step: " ++ stepId) }
  | some step =>
    let depOutputs := (getDeps steps stepId).map (fun depId =>
      match Runner.mapGet results depId with
      | some dep => (depId, dep.status, dep.outputText)
      | none => (depId, "failed", "(missing)"))
    match adapter (buildStepPrompt options.task step depOutputs) with
    | .ok run =>
      { stepId := stepId, status := "succeeded", execId := run.execId,
        threadId := run.threadId, outputText := run.outputText,
        usage := run.usage }
    | .error (.execError execId threadId message) =>
      { stepId := stepId, status := "failed", execId := execId,
        threadId := threadId, outputText := "", error := some message }
    | .error (.other message) =>
      { stepId := stepId, status := "failed", execId := "unknown",
        threadId := "unknown", outputText := "", error := some message }

/-- JS `Set.add` on an insertion-ordered list. -/
def setAdd (l : List String) (x : String) : List String :=
  if x ∈ l then l else l ++ [x]

/-- Faults of the standalone execution loop. -/
inductive ExecErrA where
  | stuck (remaining : List String)
  | fuelExhausted
  deriving Repr, DecidableEq

/-- The `while (remaining.size > 0)` loop of the standalone
`executeWorkflow`.  Between waves the `running` set is always empty, so its
membership test is dropped from the `ready` filter; the wave bound
`ready.slice(0, max(1, slots))` with
`slots = max(1, effectiveConcurrency) - running.size` and
`effectiveConcurrency = workflow.concurrency ?? options.concurrency` is
kept verbatim. -/
def execLoop (adapter : Adapter) (options : RunnerOptions)
    (workflow : Workflow) :
    Nat → List (String × StepResult) → List String → List String →
      List (List String) →
      Except ExecErrA (List (String × StepResult) × List (List String))
  | 0, _, _, _, _ => .error .fuelExhausted
  | fuel + 1, results, completed, remaining, waves =>
    if remaining = [] then .ok (results, waves)
    else
      let ready := remaining.filter (fun id =>
        (getDeps workflow.steps id).all (fun dep => dep ∈ completed))
      if ready = [] then .error (.stuck remaining)
      else
        let effectiveConcurrency := workflow.concurrency.getD options.concurrency
        let slots : Int := max 1 effectiveConcurrency - 0
        let wave := ready.take (max 1 slots).toNat
        let waveResults := wave.map (fun stepId =>
          runStep adapter options workflow.steps results stepId)
        execLoop adapter options workflow fuel
          (waveResults.foldl (fun m r => Runner.mapSet m r.stepId r) results)
          (waveResults.foldl (fun l r => setAdd l r.stepId) completed)
          (remaining.filter (fun id => ¬ waveResults.any (fun r => r.stepId == id)))
          (waves ++ [wave])

/-- The standalone `executeWorkflow`: run the loop, then read one result
per declared step, with the source's explicit `"Missing step result."`
fallback. -/
def executeWorkflow (adapter : Adapter) (options : RunnerOptions)
    (workflow : Workflow) : Except ExecErrA (List StepResult) :=
  (execLoop adapter options workflow (workflow.steps.length + 1) [] []
      ((workflow.steps.map (fun s => s.id)).eraseDups) []).map
    (fun p => workflow.steps.map (fun step =>
      (Runner.mapGet p.1 step.id).getD
        { stepId := step.id, status := "failed", execId := "unknown",
          threadId := "unknown", outputText := "",
          error := some "Missing step result." }))

/-- `resolvedConcurrency` of the CLI parser:
`Number.isFinite(concurrency) ? Math.max(1, concurrency) : 3` (`none`
models a non-finite parse). -/
def resolveConcurrency (c : Option Int) : Int :=
  match c with
  | some n => max 1 n
  | none => 3

/-- `resolvedMaxIterations` of the CLI parser. -/
def resolveMaxIterations (m : Option Int) : Int :=
  match m with
  | some n => max 1 n
  | none => 4

/-- Every wave launched by the standalone loop respects the effective
concurrency bound `max(1, workflow.concurrency ?? options.concurrency)`. -/
theorem execLoopA_waves_bound :
    ∀ (fuel : Nat) (adapter : Adapter) (options : RunnerOptions)
      (workflow : Workflow) (results : List (String × StepResult))
      (completed remaining : List String) (waves : List (List String))
      (m : List (String × StepResult)) (w : List (List String)),
      execLoop adapter options workflow fuel results completed remaining waves
        = .ok (m, w) →
      (∀ wv ∈ waves,
        wv.length ≤ (max 1 (workflow.concurrency.getD options.concurrency)).toNat) →
      ∀ wv ∈ w,
        wv.length ≤ (max 1 (workflow.concurrency.getD options.concurrency)).toNat := by
  intro fuel
  induction fuel with
  | zero =>
    intro adapter options workflow results completed remaining waves m w h hacc
    simp [execLoop] at h
  | succ fuel ih =>
    intro adapter options workflow results completed remaining waves m w h hacc
    simp only [execLoop] at h
    by_cases hrem : remaining = []
    · rw [if_pos hrem] at h
      simp only [Except.ok.injEq, Prod.mk.injEq] at h
      obtain ⟨_, hw⟩ := h
      subst hw
      exact hacc
    · rw [if_neg hrem] at h
      by_cases hready : remaining.filter (fun id =>
          (getDeps workflow.steps id).all (fun dep => dep ∈ completed)) = []
      · rw [if_pos hready] at h
        simp at h
      · rw [if_neg hready] at h
        refine ih adapter options workflow _ _ _ _ m w h ?_
        intro wv hwv
        rcases List.mem_append.1 hwv with hold | hnew
        · exact hacc wv hold
        · simp only [List.mem_singleton] at hnew
          subst hnew
          have hmax : max 1 (max 1 (workflow.concurrency.getD options.concurrency) - 0)
              = max 1 (workflow.concurrency.getD options.concurrency) := by
            omega
          rw [List.length_take, hmax]
          exact Nat.min_le_left _ _

/-- `runStep` always reports the requested step id. -/
theorem runStep_stepId (adapter : Adapter) (options : RunnerOptions)
    (steps : List WorkflowStep) (results : List (String × StepResult))
    (stepId : String) :
    (runStep adapter options steps results stepId).stepId = stepId := by
  unfold runStep
  split
  · rfl
  · dsimp only
    split <;> rfl

end Cli

namespace Runner

/-- Every wave launched by the library loop respects the bound
`max(1, concurrency)`. -/
theorem execLoop_waves_bound :
    ∀ (fuel : Nat) (adapter : Adapter) (steps : List WorkflowStep)
      (task : String) (c : Int) (completed : List (String × StepResult))
      (pending : List String) (waves : List (List WorkflowStep))
      (m : List (String × StepResult)) (w : List (List WorkflowStep)),
      execLoop adapter steps task c fuel completed pending waves = .ok (m, w) →
      (∀ wv ∈ waves, wv.length ≤ (max 1 c).toNat) →
      ∀ wv ∈ w, wv.length ≤ (max 1 c).toNat := by
  intro fuel
  induction fuel with
  | zero =>
    intro adapter steps task c completed pending waves m w h hacc
    simp [execLoop] at h
  | succ fuel ih =>
    intro adapter steps task c completed pending waves m w h hacc
    simp only [execLoop] at h
    by_cases hp : pending = []
    · rw [if_pos hp] at h
      simp only [Except.ok.injEq, Prod.mk.injEq] at h
      obtain ⟨_, hw⟩ := h
      subst hw
      exact hacc
    · rw [if_neg hp] at h
      by_cases hr : Executor.findReadySteps (steps.filter (fun s => s.id ∈ pending))
          (completed.map (fun p => p.1)) [] = []
      · rw [if_pos hr] at h
        simp at h
      · rw [if_neg hr] at h
        refine ih adapter steps task c _ _ _ m w h ?_
        intro wv hwv
        rcases List.mem_append.1 hwv with hold | hnew
        · exact hacc wv hold
        · simp only [List.mem_singleton] at hnew
          subst hnew
          have hmax : max 1 (max 1 c - 0) = max 1 c := by omega
          rw [List.length_take, hmax]
          exact Nat.min_le_left _ _

/-- `mapSet` preserves a pointwise property that the written pair
satisfies. -/
theorem mapSet_pair_inv {α : Type} (P : String × α → Prop)
    (m : List (String × α)) (k : String) (v : α)
    (hm : ∀ p ∈ m, P p) (hv : P (k, v)) :
    ∀ p ∈ mapSet m k v, P p := by
  intro p hp
  unfold mapSet at hp
  by_cases h : m.any (fun p => p.1 == k) = true
  · rw [if_pos h] at hp
    rw [List.mem_map] at hp
    obtain ⟨q, hq, hpq⟩ := hp
    by_cases hqk : (q.1 == k) = true
    · rw [if_pos hqk] at hpq
      subst hpq
      exact hv
    · rw [if_neg hqk] at hpq
      subst hpq
      exact hm q hq
  · rw [if_neg h] at hp
    rcases List.mem_append.1 hp with hp1 | hp1
    · exact hm p hp1
    · simp only [List.mem_singleton] at hp1
      subst hp1
      exact hv

/-- A hit of the association-list search is a member whose key is the
looked-up key. -/
theorem find?_key {α : Type} (k : String) (q : String × α) :
    ∀ m : List (String × α), m.find? (fun p => p.1 == k) = some q →
      q ∈ m ∧ q.1 = k := by
  intro m
  induction m with
  | nil => intro hfind; simp at hfind
  | cons p t ih =>
    intro hfind
    by_cases hp : (p.1 == k) = true
    · rw [List.find?_cons_of_pos t hp] at hfind
      simp only [Option.some.injEq] at hfind
      subst hfind
      exact ⟨List.mem_cons_self p t, eq_of_beq hp⟩
    · rw [List.find?_cons_of_neg t (by simpa using hp)] at hfind
      obtain ⟨h1, h2⟩ := ih hfind
      exact ⟨List.mem_cons_of_mem p h1, h2⟩

/-- A successful lookup pulls out a pair of the list whose key is the
looked-up key. -/
theorem mapGet_inv {α : Type} (P : String × α → Prop)
    (m : List (String × α)) (k : String) (r : α)
    (hm : ∀ p ∈ m, P p) (hget : mapGet m k = some r) : P (k, r) := by
  unfold mapGet at hget
  cases hfind : m.find? (fun p => p.1 == k) with
  | none => rw [hfind] at hget; simp at hget
  | some q =>
    rw [hfind] at hget
    simp only [Option.map, Option.some.injEq] at hget
    obtain ⟨hq, hk⟩ := find?_key k q m hfind
    have hpq : q = (k, r) := Prod.ext hk hget
    rw [← hpq]
    exact hm q hq

/-- The completed map of the library loop always binds each key to a
result carrying that key as its step id. -/
theorem execLoop_result_ids :
    ∀ (fuel : Nat) (adapter : Adapter) (steps : List WorkflowStep)
      (task : String) (c : Int) (completed : List (String × StepResult))
      (pending : List String) (waves : List (List WorkflowStep))
      (m : List (String × StepResult)) (w : List (List WorkflowStep)),
      (∀ p ∈ completed, (p.2).stepId = p.1) →
      execLoop adapter steps task c fuel completed pending waves = .ok (m, w) →
      ∀ p ∈ m, (p.2).stepId = p.1 := by
  intro fuel
  induction fuel with
  | zero =>
    intro adapter steps task c completed pending waves m w hinv h
    simp [execLoop] at h
  | succ fuel ih =>
    intro adapter steps task c completed pending waves m w hinv h
    simp only [execLoop] at h
    by_cases hp : pending = []
    · rw [if_pos hp] at h
      simp only [Except.ok.injEq, Prod.mk.injEq] at h
      obtain ⟨hm, _⟩ := h
      subst hm
      exact hinv
    · rw [if_neg hp] at h
      by_cases hr : Executor.findReadySteps (steps.filter (fun s => s.id ∈ pending))
          (completed.map (fun p => p.1)) [] = []
      · rw [if_pos hr] at h
        simp at h
      · rw [if_neg hr] at h
        refine ih adapter steps task c _ _ _ m w ?_ h
        have hfold : ∀ (rs : List StepResult) (m0 : List (String × StepResult)),
            (∀ p ∈ m0, (p.2).stepId = p.1) →
            ∀ p ∈ rs.foldl (fun acc r => mapSet acc r.stepId r) m0,
              (p.2).stepId = p.1 := by
          intro rs
          induction rs with
          | nil => intro m0 h0; exact h0
          | cons r t iht =>
            intro m0 h0
            simp only [List.foldl_cons]
            exact iht _ (mapSet_pair_inv _ _ _ _ h0 rfl)
        exact hfold _ _ hinv

end Runner

namespace Cli

/-- The completed map of the standalone loop always binds each key to a
result carrying that key as its step id. -/
theorem execLoopA_result_ids :
    ∀ (fuel : Nat) (adapter : Adapter) (options : RunnerOptions)
      (workflow : Workflow) (results : List (String × StepResult))
      (completed remaining : List String) (waves : List (List String))
      (m : List (String × StepResult)) (w : List (List String)),
      (∀ p ∈ results, (p.2).stepId = p.1) →
      execLoop adapter options workflow fuel results completed remaining waves
        = .ok (m, w) →
      ∀ p ∈ m, (p.2).stepId = p.1 := by
  intro fuel
  induction fuel with
  | zero =>
    intro adapter options workflow results completed remaining waves m w hinv h
    simp [execLoop] at h
  | succ fuel ih =>
    intro adapter options workflow results completed remaining waves m w hinv h
    simp only [execLoop] at h
    by_cases hrem : remaining = []
    · rw [if_pos hrem] at h
      simp only [Except.ok.injEq, Prod.mk.injEq] at h
      obtain ⟨hm, _⟩ := h
      subst hm
      exact hinv
    · rw [if_neg hrem] at h
      by_cases hready : remaining.filter (fun id =>
          (getDeps workflow.steps id).all (fun dep => dep ∈ completed)) = []
      · rw [if_pos hready] at h
        simp at h
      · rw [if_neg hready] at h
        refine ih adapter options workflow _ _ _ _ m w ?_ h
        have hfold : ∀ (rs : List StepResult) (m0 : List (String × StepResult)),
            (∀ p ∈ m0, (p.2).stepId = p.1) →
            ∀ p ∈ rs.foldl (fun acc r => Runner.mapSet acc r.stepId r) m0,
              (p.2).stepId = p.1 := by
          intro rs
          induction rs with
          | nil => intro m0 h0; exact h0
          | cons r t iht =>
            intro m0 h0
            simp only [List.foldl_cons]
            exact iht _ (Runner.mapSet_pair_inv _ _ _ _ h0 rfl)
        exact hfold _ _ hinv

end Cli

/-- A workflow accepted by `normalizeWorkflow` never carries a concurrency
below 1 (the parser floors it). -/
theorem normalizeWorkflow_concurrency_floor (v : Js.JsValue) (w : Workflow)
    (h : Parser.normalizeWorkflow v = .ok w) :
    ∀ c : Int, w.concurrency = some c → 1 ≤ c := by
  simp only [Parser.normalizeWorkflow] at h
  split at h
  · exact absurd h (by simp)
  · split at h
    · exact absurd h (by simp)
    · split at h
      next id0 heq =>
        split at h
        · exact absurd h (by simp)
        · split at h
          next rawSteps heq2 =>
            split at h
            next e heq3 => exact absurd h (by simp)
            next steps heq3 =>
              simp only [Except.ok.injEq] at h
              subst h
              intro c hc
              simp only [] at hc
              split at hc
              next q heq4 =>
                simp only [Option.some.injEq] at hc
                subst hc
                exact le_max_left 1 _
              next heq4 => simp at hc
          next heq2 => exact absurd h (by simp)
      next heq => exact absurd h (by simp)

/-- C4 (corrected): every launched wave has at most
`max(1, effectiveConcurrency)` steps in flight. In the standalone engine
(`examples/codex-autopilot.ts`), `effectiveConcurrency` is the workflow's
own `concurrency` field if set, else the run's global option (the workflow
value overrides the global one). The library engine (`src/runner.ts`)
however never reads `workflow.concurrency` — `run` passes
`options.concurrency` to `executeWorkflow`, so the bound there is
`max(1, options.concurrency)` and a workflow-level `concurrency` does not
override it (third conjunct: the library `executeWorkflow` is invariant
under changing `workflow.concurrency`). The CLI floors both `concurrency`
and `maxIterations` at 1 (defaulting to 3 and 4 when not finite), and a
concurrency coming from workflow JSON is itself floored at 1 by the
parser. -/
theorem concurrency_bounds :
    (∀ (fuel : Nat) (adapter : Cli.Adapter) (options : Cli.RunnerOptions)
      (workflow : Workflow) (results : List (String × Cli.StepResult))
      (completed remaining : List String) (m : List (String × Cli.StepResult))
      (w : List (List String)),
      Cli.execLoop adapter options workflow fuel results completed remaining []
        = .ok (m, w) →
      ∀ wv ∈ w,
        wv.length ≤ (max 1 (workflow.concurrency.getD options.concurrency)).toNat) ∧
    (∀ (fuel : Nat) (adapter : Runner.Adapter) (steps : List WorkflowStep)
      (task : String) (c : Int) (completed : List (String × Runner.StepResult))
      (pending : List String) (m : List (String × Runner.StepResult))
      (w : List (List WorkflowStep)),
      Runner.execLoop adapter steps task c fuel completed pending []
        = .ok (m, w) →
      ∀ wv ∈ w, wv.length ≤ (max 1 c).toNat) ∧
    (∀ (adapter : Runner.Adapter) (w : Workflow) (task : String) (c : Int)
      (x : Option Int),
      Runner.executeWorkflow adapter { w with concurrency := x } task c
        = Runner.executeWorkflow adapter w task c) ∧
    (∀ c : Option Int, 1 ≤ Cli.resolveConcurrency c) ∧
    (∀ m : Option Int, 1 ≤ Cli.resolveMaxIterations m) ∧
    (∀ (raw : String) (w : Workflow), Parser.parseWorkflow raw = .ok w →
      ∀ c : Int, w.concurrency = some c → 1 ≤ c) := by
  refine ⟨?_, ?_, ?_, ?_, ?_, ?_⟩
  · intro fuel adapter options workflow results completed remaining m w h
    exact Cli.execLoopA_waves_bound fuel adapter options workflow results completed
      remaining [] m w h (by intro wv hwv; simp at hwv)
  · intro fuel adapter steps task c completed pending m w h
    exact Runner.execLoop_waves_bound fuel adapter steps task c completed
      pending [] m w h (by intro wv hwv; simp at hwv)
  · intro adapter w task c x
    rfl
  · intro c
    cases c with
    | none => norm_num [Cli.resolveConcurrency]
    | some n => exact le_max_left 1 n
  · intro m
    cases m with
    | none => norm_num [Cli.resolveMaxIterations]
    | some n => exact le_max_left 1 n
  · intro raw w h
    unfold Parser.parseWorkflow at h
    split at h
    · exact absurd h (by simp)
    next v heq =>
      split at h
      · exact absurd h (by simp)
      · exact normalizeWorkflow_concurrency_floor v w h

/-- C10: when execution completes, both engines return exactly one
`StepResult` per declared step, in the workflow's step-declaration order
(the result list mirrors `workflow.steps`, each entry carrying the matching
step's id), for every adapter and concurrency. -/
theorem executeWorkflow_results_aligned :
    (∀ (adapter : Runner.Adapter) (w : Workflow) (task : String) (c : Int)
      (results : List Runner.StepResult),
      Runner.executeWorkflow adapter w task c = .ok results →
      results.length = w.steps.length ∧
      results.map (fun r => r.stepId) = w.steps.map (fun s => s.id)) ∧
    (∀ (adapter : Cli.Adapter) (options : Cli.RunnerOptions)
      (workflow : Workflow) (results : List Cli.StepResult),
      Cli.executeWorkflow adapter options workflow = .ok results →
      results.length = workflow.steps.length ∧
      results.map (fun r => r.stepId) = workflow.steps.map (fun s => s.id)) := by
  constructor
  · intro adapter w task c results h
    unfold Runner.executeWorkflow at h
    cases hloop : Runner.execLoop adapter w.steps task c (w.steps.length + 1) []
        ((w.steps.map (fun s => s.id)).eraseDups) [] with
    | error e => rw [hloop] at h; simp [Except.map] at h
    | ok p =>
      rw [hloop] at h
      simp only [Except.map, Except.ok.injEq] at h
      subst h
      have hinv := Runner.execLoop_result_ids (w.steps.length + 1) adapter w.steps
        task c [] ((w.steps.map (fun s => s.id)).eraseDups) [] p.1 p.2
        (by intro q hq; simp at hq) (by rw [hloop])
      refine ⟨by simp, ?_⟩
      rw [List.map_map]
      apply List.map_congr_left
      intro s _
      show ((Runner.mapGet p.1 s.id).getD _).stepId = s.id
      cases hget : Runner.mapGet p.1 s.id with
      | none => rfl
      | some r =>
        simp only [Option.getD_some]
        exact Runner.mapGet_inv (fun q => q.2.stepId = q.1) p.1 s.id r hinv hget
  · intro adapter options workflow results h
    unfold Cli.executeWorkflow at h
    cases hloop : Cli.execLoop adapter options workflow (workflow.steps.length + 1)
        [] [] ((workflow.steps.map (fun s => s.id)).eraseDups) [] with
    | error e => rw [hloop] at h; simp [Except.map] at h
    | ok p =>
      rw [hloop] at h
      simp only [Except.map, Except.ok.injEq] at h
      subst h
      have hinv := Cli.execLoopA_result_ids (workflow.steps.length + 1) adapter
        options workflow [] [] ((workflow.steps.map (fun s => s.id)).eraseDups)
        [] p.1 p.2 (by intro q hq; simp at hq) (by rw [hloop])
      refine ⟨by simp, ?_⟩
      rw [List.map_map]
      apply List.map_congr_left
      intro s _
      show ((Runner.mapGet p.1 s.id).getD _).stepId = s.id
      cases hget : Runner.mapGet p.1 s.id with
      | none => rfl
      | some r =>
        simp only [Option.getD_some]
        exact Runner.mapGet_inv (fun q => q.2.stepId = q.1) p.1 s.id r hinv hget

/-- Three independent steps for concrete loop runs. -/
def c4Steps : List WorkflowStep :=
  [{ id := "a", goal := "ga" }, { id := "b", goal := "gb" },
   { id := "c", goal := "gc" }]

/-- A workflow whose own `concurrency` field (2) overrides the global
option. -/
def c4Wf : Workflow := { id := "wf", concurrency := some 2, steps := c4Steps }

/-- A standalone-engine adapter that always succeeds. -/
def c4CliAdapter : Cli.Adapter := fun _ =>
  .ok { execId := "e", threadId := "t", outputText := "out" }

/-- Options with a global concurrency of 5 (overridden by `c4Wf`). -/
def c4Options : Cli.RunnerOptions :=
  { task := "T", concurrency := 5, maxIterations := 4 }

/-- A library-engine adapter that always succeeds. -/
def c4RunnerAdapter : Runner.Adapter := fun _ =>
  .ok { sessionId := "s", status := "ok", outputText := "out" }

/-- Workflow JSON carrying `concurrency: 0`, floored to 1 by the parser. -/
def wfConcText : String :=
  "\x7b\"version\":1,\"id\":\"w\",\"concurrency\":0,\"steps\":[\x7b\"id\":\"a\",\"type\":\"agent.run\",\"goal\":\"g\"\x7d]\x7d"

/-- The workflow parsed from `wfConcText`. -/
def wfConcParsed : Workflow :=
  { id := "w", concurrency := some 1, steps := [{ id := "a", goal := "g" }] }

/-- A successful standalone-engine step record for step `id`. -/
def c4CliRes (id : String) : Cli.StepResult :=
  { stepId := id, status := "succeeded", execId := "e", threadId := "t",
    outputText := "out" }

/-- Concrete output of the standalone loop on the 3-step run. -/
def c4CliOut : List (String × Cli.StepResult) × List (List String) :=
  ([("a", c4CliRes "a"), ("b", c4CliRes "b"), ("c", c4CliRes "c")],
   [["a", "b"], ["c"]])

/-- A successful library-engine step record for step `id`. -/
def c4RunRes (id : String) : Runner.StepResult :=
  { stepId := id, status := "ok", sessionId := "s", outputText := "out" }

/-- Concrete output of the library loop on the 3-step run. -/
def c4RunOut : List (String × Runner.StepResult) × List (List WorkflowStep) :=
  ([("a", c4RunRes "a"), ("b", c4RunRes "b"), ("c", c4RunRes "c")],
   [c4Steps.take 2, c4Steps.drop 2])

/-- The library workflow with its own concurrency 1 (ignored by the
library engine, which runs at the global option, here 3). -/
def cexWfC4 : Workflow := { id := "wf", concurrency := some 1, steps := c4Steps }

/-- Concrete output of the library loop at concurrency 3 on the 3-step
run: one single wave of all three steps. -/
def cexRunOut : List (String × Runner.StepResult) × List (List WorkflowStep) :=
  ([("a", c4RunRes "a"), ("b", c4RunRes "b"), ("c", c4RunRes "c")],
   [c4Steps])

/-- Counterexample for C4: the library engine (`src/runner.ts`) runs
`cexWfC4` at the global `options.concurrency` 3 that `run` passes through
(`runner.ts:244`), launching a wave of 3 steps even though the workflow's
own `concurrency` field is 1 — the claimed override bound
`max(1, workflow.concurrency) = 1` is violated. -/
theorem concurrency_bounds_cex :
    Runner.execLoop c4RunnerAdapter cexWfC4.steps "T"
        ({ maxIterations := 2, concurrency := 3 } : Runner.RunOptions).concurrency
        4 [] ["a", "b", "c"] [] = .ok cexRunOut ∧
    ∃ wv ∈ cexRunOut.2,
      (max 1 (cexWfC4.concurrency.getD 3)).toNat < wv.length :=
  ⟨rfl, c4Steps, List.mem_singleton.mpr rfl, by decide⟩

/-- Witness for C4: on a concrete 3-step run with workflow concurrency 2
and global option 5, every wave of both engines obeys the bound; the
library `executeWorkflow` ignores a workflow-level concurrency at a
concrete input; the CLI floors hold at concrete inputs; and
`concurrency: 0` in workflow JSON is floored to 1. -/
theorem concurrency_bounds_witness :
    (Cli.execLoop c4CliAdapter c4Options c4Wf 4 [] [] ["a", "b", "c"] []
        = .ok c4CliOut ∧
      ∀ wv ∈ c4CliOut.2,
        wv.length ≤ (max 1 (c4Wf.concurrency.getD c4Options.concurrency)).toNat) ∧
    (Runner.execLoop c4RunnerAdapter c4Steps "T" 2 4 [] ["a", "b", "c"] []
        = .ok c4RunOut ∧
      ∀ wv ∈ c4RunOut.2, wv.length ≤ (max 1 (2 : Int)).toNat) ∧
    Runner.executeWorkflow c4RunnerAdapter { c4Wf with concurrency := some 99 }
        "T" 2
      = Runner.executeWorkflow c4RunnerAdapter c4Wf "T" 2 ∧
    1 ≤ Cli.resolveConcurrency (some (-5)) ∧
    1 ≤ Cli.resolveMaxIterations none ∧
    (Parser.parseWorkflow wfConcText = .ok wfConcParsed ∧
      ∀ c : Int, wfConcParsed.concurrency = some c → 1 ≤ c) :=
  ⟨⟨rfl, concurrency_bounds.1 4 c4CliAdapter c4Options c4Wf [] []
      ["a", "b", "c"] c4CliOut.1 c4CliOut.2 rfl⟩,
   ⟨rfl, concurrency_bounds.2.1 4 c4RunnerAdapter c4Steps "T" 2 []
      ["a", "b", "c"] c4RunOut.1 c4RunOut.2 rfl⟩,
   concurrency_bounds.2.2.1 c4RunnerAdapter c4Wf "T" 2 (some 99),
   concurrency_bounds.2.2.2.1 _,
   concurrency_bounds.2.2.2.2.1 _,
   ⟨rfl, concurrency_bounds.2.2.2.2.2 wfConcText wfConcParsed rfl⟩⟩

/-- Concrete result list of the library engine on the 3-step run. -/
def c10RunResults : List Runner.StepResult :=
  [c4RunRes "a", c4RunRes "b", c4RunRes "c"]

/-- Concrete result list of the standalone engine on the 3-step run. -/
def c10CliResults : List Cli.StepResult :=
  [c4CliRes "a", c4CliRes "b", c4CliRes "c"]

/-- Witness for C10: on the concrete 3-step workflow both engines return
one result per declared step, in declaration order. -/
theorem executeWorkflow_results_aligned_witness :
    (Runner.executeWorkflow c4RunnerAdapter c4Wf "T" 2 = .ok c10RunResults ∧
      c10RunResults.length = c4Wf.steps.length ∧
      c10RunResults.map (fun r => r.stepId) = c4Wf.steps.map (fun s => s.id)) ∧
    (Cli.executeWorkflow c4CliAdapter c4Options c4Wf = .ok c10CliResults ∧
      c10CliResults.length = c4Wf.steps.length ∧
      c10CliResults.map (fun r => r.stepId)
        = c4Wf.steps.map (fun s => s.id)) :=
  ⟨⟨rfl, executeWorkflow_results_aligned.1 c4RunnerAdapter c4Wf "T" 2
      c10RunResults rfl⟩,
   ⟨rfl, executeWorkflow_results_aligned.2 c4CliAdapter c4Options c4Wf
      c10CliResults rfl⟩⟩

namespace Cli

/-- `CompletionCheck` of the standalone engine
(`examples/codex-autopilot.ts`). -/
structure Completion where
  done : Bool
  summary : String := ""
  reason : String := ""
  nextWorkflow : Option Workflow := none
  deriving Repr, DecidableEq

/-- Message of the stuck-workflow `throw` of the standalone
`executeWorkflow`; the fuel case is a modelling artifact. -/
def execErrMsgA : ExecErrA → String
  | .stuck remaining => "Workflow is stuck (missing deps or cycle). Remaining: "
      ++ String.intercalate ", " (remaining.take 10)
  | .fuelExhausted => "fuel exhausted"

/-- The iteration loop of the standalone `run`
(`examples/codex-autopilot.ts`). `gen` is the `generateWorkflow` call
(its codex and parse errors are uncaught), `check` the `checkCompletion`
call (its codex errors are uncaught), `carryOf` the `formatCarrySummary`
computation. There is no `try`/`catch`: every error returns `.error`
carrying the state exactly as it was at the throw — without stamping
`finishedAt`. Only the `done:true` exit and the maxIterations exhaustion
stamp and flush the manifest. -/
def runLoop (adapter : Adapter) (options : RunnerOptions)
    (gen : Nat → String → Except String Workflow)
    (check : Workflow → List StepResult → Nat → Except String Completion)
    (carryOf : Workflow → List StepResult → Completion → String)
    (now : String) :
    Nat → Nat → String → Option Workflow → Runner.RunSt →
      Except (String × Runner.RunSt) Runner.RunSt
  | 0, _, _, _, st =>
    .ok (Runner.writeManifest (Runner.finalizeRun now st))
  | rem + 1, iteration, carry, override, st =>
    match (match override with
           | some wf => Except.ok wf
           | none => gen iteration carry) with
    | .error e => .error (e, st)
    | .ok workflow =>
      match executeWorkflow adapter options workflow with
      | .error e => .error (execErrMsgA e, st)
      | .ok stepResults =>
        match check workflow stepResults iteration with
        | .error e => .error (e, st)
        | .ok completion =>
          let st1 := Runner.writeManifest st
          if completion.done then
            .ok (Runner.writeManifest (Runner.finalizeRun now st1))
          else
            runLoop adapter options gen check carryOf now rem (iteration + 1)
              (carryOf workflow stepResults completion) completion.nextWorkflow
              st1

/-- The standalone `run`: the fresh manifest is written to disk up-front,
then the loop runs up to `maxIterations` with no surrounding
`try`/`catch`. -/
def run (adapter : Adapter) (options : RunnerOptions)
    (gen : Nat → String → Except String Workflow)
    (check : Workflow → List StepResult → Nat → Except String Completion)
    (carryOf : Workflow → List StepResult → Completion → String)
    (now : String) : Except (String × Runner.RunSt) Runner.RunSt :=
  runLoop adapter options gen check carryOf now options.maxIterations.toNat 1
    "" none { manifest := {}, disk := some {} }

/-- Along the standalone loop the manifest stays unstamped until one of
the two normal exits, so an error exit surfaces with the manifest never
finalized, neither in memory nor on disk. -/
theorem runLoop_error_unstamped (adapter : Adapter)
    (options : RunnerOptions)
    (gen : Nat → String → Except String Workflow)
    (check : Workflow → List StepResult → Nat → Except String Completion)
    (carryOf : Workflow → List StepResult → Completion → String)
    (now : String) :
    ∀ (rem iteration : Nat) (carry : String) (override : Option Workflow)
      (st : Runner.RunSt) (e : String) (stE : Runner.RunSt),
      st.manifest = {} → st.disk = some {} →
      runLoop adapter options gen check carryOf now rem iteration carry
        override st = .error (e, stE) →
      stE.manifest = {} ∧ stE.disk = some {} := by
  intro rem
  induction rem with
  | zero =>
    intro iteration carry override st e stE h1 h2 h
    exact absurd h (by simp [runLoop])
  | succ n ih =>
    intro iteration carry override st e stE h1 h2 h
    simp only [runLoop] at h
    split at h
    next eg heq =>
      simp only [Except.error.injEq, Prod.mk.injEq] at h
      obtain ⟨he, hst⟩ := h
      rw [← hst]
      exact ⟨h1, h2⟩
    next workflow heq =>
      split at h
      next ee heq2 =>
        simp only [Except.error.injEq, Prod.mk.injEq] at h
        obtain ⟨he, hst⟩ := h
        rw [← hst]
        exact ⟨h1, h2⟩
      next stepResults heq2 =>
        split at h
        next ec heq3 =>
          simp only [Except.error.injEq, Prod.mk.injEq] at h
          obtain ⟨he, hst⟩ := h
          rw [← hst]
          exact ⟨h1, h2⟩
        next completion heq3 =>
          split at h
          · exact absurd h (by simp)
          · exact ih (iteration + 1) _ completion.nextWorkflow
              (Runner.writeManifest st) e stE
              (by simp [Runner.writeManifest, h1])
              (by simp [Runner.writeManifest, h1]) h

end Cli

namespace Graph

/-- A node of the capture graph (`GraphNode`); only the thread-node fields
reached by transcript enrichment are modelled. -/
structure GraphNode where
  id : String
  type : String
  threadId : String
  deriving Repr, DecidableEq

/-- An edge of the capture graph (`GraphEdge`); `from` is a Lean keyword,
so the field is spelled `from_`; likewise `to` is spelled `to_`. -/
structure GraphEdge where
  type : String
  from_ : String
  to_ : String
  callId : Option String := none
  status : Option String := none
  prompt : Option String := none
  source : String
  deriving Repr, DecidableEq

/-- The mutable `graphIndex` of the capture context: `Map`s become
association lists in insertion order, the warning `Set` and the
`transcriptThreads` `Set` become duplicate-free lists. -/
structure GraphIndex where
  nodes : List (String × GraphNode) := []
  edges : List (String × GraphEdge) := []
  warnings : List String := []
  transcriptThreads : List String := []
  transcriptCallIds : List (String × String) := []
  deriving Repr, DecidableEq

/-- `ensureThreadNode`: create the `thread:` node if absent; returns the
node id together with the updated index. -/
def ensureThreadNode (threadId : String) (g : GraphIndex) :
    String × GraphIndex :=
  let nodeId := "thread:" ++ threadId
  let node : GraphNode := { id := nodeId, type := "thread", threadId := threadId }
  if (Runner.mapGet g.nodes nodeId).isSome then (nodeId, g)
  else (nodeId, { g with nodes := Runner.mapSet g.nodes nodeId node })

/-- `recordGraphEdge`: insert the edge under its dedupe key only if the key
is not already present (first write wins). -/
def recordGraphEdge (edge : GraphEdge) (dedupeKey : Option String)
    (g : GraphIndex) : GraphIndex :=
  let key := dedupeKey.getD (String.intercalate "|"
    [edge.type, edge.from_, edge.to_, edge.callId.getD "",
     edge.status.getD "", edge.prompt.getD ""])
  if (Runner.mapGet g.edges key).isSome then g
  else { g with edges := Runner.mapSet g.edges key edge }

/-- `recordWarning`: the warnings live in a `Set`. -/
def recordWarning (message : String) (g : GraphIndex) : GraphIndex :=
  { g with warnings := Cli.setAdd g.warnings message }

/-- The four transcript event kinds handled by `parseTranscript`. -/
def collabTypes : List String :=
  ["collab_agent_spawn_begin", "collab_agent_spawn_end",
   "collab_agent_interaction_begin", "collab_agent_interaction_end"]

/-- Status of a transcript event: the explicit `status` string if present,
else `begin`/`end` from the event-type suffix. -/
def statusOf (evtType : String) (statusOpt : Option String) : String :=
  statusOpt.getD
    (if ("_begin".data).isSuffixOf evtType.data then "begin" else "end")

/-- `newThreadId || receiverThreadId` (empty strings are falsy). -/
def targetOf (newT recvT : String) : String :=
  if newT = "" then recvT else newT

/-- Model of `String.prototype.includes` on character lists. -/
def listIncludes (needle : List Char) : List Char → Bool
  | [] => needle.isPrefixOf []
  | c :: t => needle.isPrefixOf (c :: t) || listIncludes needle t

/-- `evtType.includes("spawn") ? "spawn" : "interact"`. -/
def edgeTypeOf (evtType : String) : String :=
  if listIncludes ("spawn".data) evtType.data then "spawn" else "interact"

/-- `callSignature = [edgeType, sender, target, status].join("|")`. -/
def callSignatureOf (edgeType sender target status : String) : String :=
  String.intercalate "|" [edgeType, sender, target, status]

/-- `transcriptKey = [edgeType, sender, target, callId ?? "", status]
.join("|")` — note the prompt is NOT part of the key. -/
def transcriptKeyOf (edgeType sender target : String)
    (callId : Option String) (status : String) : String :=
  String.intercalate "|" [edgeType, sender, target, callId.getD "", status]

/-- The `if (callId) { ... }` block of `parseTranscript`: record or check
the call signature registered under a non-empty `call_id`, warning on a
collision. -/
def applyCallId (callId : Option String) (sig : String) (g : GraphIndex) :
    GraphIndex :=
  match callId with
  | some cid =>
    if cid = "" then g
    else
      match Runner.mapGet g.transcriptCallIds cid with
      | some prior =>
        if prior = sig then g
        else recordWarning ("Transcript call_id collision for call_id="
          ++ cid ++ " (saw " ++ prior ++ " and " ++ sig ++ ")") g
      | none =>
        { g with transcriptCallIds :=
            Runner.mapSet g.transcriptCallIds cid sig }
  | none => g

/-- The body of the `parseTranscript` loop for one extracted collab event:
guard the event type, resolve the target thread, ensure both thread nodes,
run the call-id block, and record the transcript edge under the
prompt-free dedupe key. -/
def applyCollabEvent (evtType sender newT recvT : String)
    (callId prompt statusOpt : Option String) (g : GraphIndex) :
    GraphIndex :=
  if evtType ∈ collabTypes then
    if sender = "" ∨ targetOf newT recvT = "" then g
    else
      recordGraphEdge
        { type := edgeTypeOf evtType,
          from_ := (ensureThreadNode sender g).1,
          to_ := (ensureThreadNode (targetOf newT recvT)
            (ensureThreadNode sender g).2).1,
          callId := callId,
          status := some (statusOf evtType statusOpt),
          prompt := prompt,
          source := "transcript" }
        (some ("transcript|" ++ transcriptKeyOf (edgeTypeOf evtType) sender
          (targetOf newT recvT) callId (statusOf evtType statusOpt)))
        (applyCallId callId
          (callSignatureOf (edgeTypeOf evtType) sender (targetOf newT recvT)
            (statusOf evtType statusOpt))
          (ensureThreadNode (targetOf newT recvT)
            (ensureThreadNode sender g).2).2)
  else g

/-- String value of a field, with `""` standing for a missing or
non-string value (as the `typeof x === "string" ? x : ""` extractions). -/
def strField (v : Js.JsValue) (k : String) : String :=
  match Js.getField v k with
  | some (.str s) => s
  | _ => ""

/-- Optional string value of a field (`typeof x === "string" ? x :
undefined`). -/
def strFieldOpt (v : Js.JsValue) (k : String) : Option String :=
  match Js.getField v k with
  | some (.str s) => some s
  | _ => none

/-- One line of the transcript: trim, `JSON.parse` (a failure skips the
line), require a truthy object whose `type` is `event_msg` with a truthy
object payload, then process the collab event. -/
def applyTranscriptLine (line : String) (g : GraphIndex) : GraphIndex :=
  let trimmed := Js.trimStr line
  if trimmed = "" then g
  else
    match Js.jsonParse trimmed with
    | none => g
    | some payload =>
      if Js.isFalsy payload ∨ ¬ Js.isObjTy payload then g
      else if ¬ Js.getField payload "type" = some (.str "event_msg") then g
      else
        match Js.getField payload "payload" with
        | none => g
        | some pl =>
          if Js.isFalsy pl ∨ ¬ Js.isObjTy pl then g
          else
            applyCollabEvent (strField pl "type")
              (strField pl "sender_thread_id") (strField pl "new_thread_id")
              (strField pl "receiver_thread_id") (strFieldOpt pl "call_id")
              (strFieldOpt pl "prompt") (strFieldOpt pl "status") g

/-- `parseTranscript`: fold the per-line processing over the transcript
lines. -/
def parseTranscript (lines : List String) (g : GraphIndex) : GraphIndex :=
  lines.foldl (fun acc l => applyTranscriptLine l acc) g

/-- `enrichGraphFromTranscript`: a thread already enriched is skipped
up-front; otherwise it is marked, its transcript is located through the
oracle (a missing transcript records a warning), and parsed. -/
def enrichGraphFromTranscript (transcripts : String → Option (List String))
    (threadId : String) (g : GraphIndex) : GraphIndex :=
  if threadId ∈ g.transcriptThreads then g
  else
    let g1 := { g with
      transcriptThreads := Cli.setAdd g.transcriptThreads threadId }
    match transcripts threadId with
    | none => recordWarning ("Transcript not found for threadId=" ++ threadId) g1
    | some lines => parseTranscript lines g1

theorem find?_map_overwrite {α : Type} (m : List (String × α)) (k : String)
    (v : α) (h : m.any (fun p => p.1 == k) = true) :
    ((m.map (fun p => if p.1 == k then (k, v) else p)).find?
      (fun p => p.1 == k)) = some (k, v) := by
  induction m with
  | nil => simp at h
  | cons p t ih =>
    simp only [List.map_cons]
    by_cases hp : p.1 == k
    · rw [if_pos hp]
      exact List.find?_cons_of_pos _ (by simp)
    · rw [if_neg hp]
      rw [List.find?_cons_of_neg]
      · apply ih
        simp only [List.any_cons] at h
        rcases (Bool.or_eq_true _ _).mp h with h1 | h2
        · exact absurd h1 hp
        · exact h2
      · exact hp

theorem mapGet_set_self {α : Type} (m : List (String × α)) (k : String)
    (v : α) : Runner.mapGet (Runner.mapSet m k v) k = some v := by
  unfold Runner.mapGet Runner.mapSet
  by_cases h : m.any (fun p => p.1 == k) = true
  · rw [if_pos h, find?_map_overwrite m k v h]
    rfl
  · rw [if_neg h]
    have hnone : m.find? (fun p => p.1 == k) = none := by
      rw [List.find?_eq_none]
      intro x hx hpx
      exact h (List.any_eq_true.mpr ⟨x, hx, hpx⟩)
    rw [List.find?_append, hnone, List.find?_cons_of_pos _ (by simp)]
    rfl

theorem mapGet_set_isSome {α : Type} (m : List (String × α))
    (k k' : String) (v : α) (h : (Runner.mapGet m k).isSome) :
    (Runner.mapGet (Runner.mapSet m k' v) k).isSome := by
  unfold Runner.mapGet at h ⊢
  rw [Option.isSome_map'] at h ⊢
  rw [List.find?_isSome] at h ⊢
  obtain ⟨x, hx, hpx⟩ := h
  unfold Runner.mapSet
  split
  · refine ⟨if x.1 == k' then (k', v) else x, List.mem_map_of_mem _ hx, ?_⟩
    by_cases hk' : x.1 == k'
    · rw [if_pos hk']
      show (k' == k) = true
      have h2 : x.1 = k' := eq_of_beq hk'
      rw [← h2]
      exact hpx
    · rw [if_neg hk']
      exact hpx
  · exact ⟨x, List.mem_append.mpr (Or.inl hx), hpx⟩

theorem ensureThreadNode_fst (t : String) (g : GraphIndex) :
    (ensureThreadNode t g).1 = "thread:" ++ t := by
  simp only [ensureThreadNode]
  split <;> rfl

theorem ensureThreadNode_nodes_isSome (t : String) (g : GraphIndex) :
    (Runner.mapGet (ensureThreadNode t g).2.nodes ("thread:" ++ t)).isSome := by
  simp only [ensureThreadNode]
  split
  next h => exact h
  next h =>
    rw [mapGet_set_self]
    rfl

theorem ensureThreadNode_nodes_mono (t k : String) (g : GraphIndex)
    (h : (Runner.mapGet g.nodes k).isSome) :
    (Runner.mapGet (ensureThreadNode t g).2.nodes k).isSome := by
  simp only [ensureThreadNode]
  split
  · exact h
  · exact mapGet_set_isSome g.nodes k ("thread:" ++ t) _ h

theorem ensureThreadNode_of_isSome (t : String) (g : GraphIndex)
    (h : (Runner.mapGet g.nodes ("thread:" ++ t)).isSome) :
    ensureThreadNode t g = ("thread:" ++ t, g) := by
  simp only [ensureThreadNode]
  rw [if_pos h]

theorem ensureThreadNode_edges (t : String) (g : GraphIndex) :
    (ensureThreadNode t g).2.edges = g.edges := by
  simp only [ensureThreadNode]
  split <;> rfl

theorem ensureThreadNode_warnings (t : String) (g : GraphIndex) :
    (ensureThreadNode t g).2.warnings = g.warnings := by
  simp only [ensureThreadNode]
  split <;> rfl

theorem ensureThreadNode_threads (t : String) (g : GraphIndex) :
    (ensureThreadNode t g).2.transcriptThreads = g.transcriptThreads := by
  simp only [ensureThreadNode]
  split <;> rfl

theorem ensureThreadNode_callIds (t : String) (g : GraphIndex) :
    (ensureThreadNode t g).2.transcriptCallIds = g.transcriptCallIds := by
  simp only [ensureThreadNode]
  split <;> rfl

theorem recordGraphEdge_nodes (e : GraphEdge) (dk : Option String)
    (g : GraphIndex) : (recordGraphEdge e dk g).nodes = g.nodes := by
  simp only [recordGraphEdge]
  split <;> rfl

theorem recordGraphEdge_warnings (e : GraphEdge) (dk : Option String)
    (g : GraphIndex) : (recordGraphEdge e dk g).warnings = g.warnings := by
  simp only [recordGraphEdge]
  split <;> rfl

theorem recordGraphEdge_threads (e : GraphEdge) (dk : Option String)
    (g : GraphIndex) :
    (recordGraphEdge e dk g).transcriptThreads = g.transcriptThreads := by
  simp only [recordGraphEdge]
  split <;> rfl

theorem recordGraphEdge_callIds (e : GraphEdge) (dk : Option String)
    (g : GraphIndex) :
    (recordGraphEdge e dk g).transcriptCallIds = g.transcriptCallIds := by
  simp only [recordGraphEdge]
  split <;> rfl

theorem recordGraphEdge_some_isSome (e : GraphEdge) (k : String)
    (g : GraphIndex) :
    (Runner.mapGet (recordGraphEdge e (some k) g).edges k).isSome := by
  simp only [recordGraphEdge, Option.getD]
  split
  next h => exact h
  next h =>
    rw [mapGet_set_self]
    rfl

theorem recordGraphEdge_of_isSome (e : GraphEdge) (k : String)
    (g : GraphIndex) (h : (Runner.mapGet g.edges k).isSome) :
    recordGraphEdge e (some k) g = g := by
  simp only [recordGraphEdge, Option.getD]
  rw [if_pos h]

theorem setAdd_mem_self (l : List String) (x : String) :
    x ∈ Cli.setAdd l x := by
  unfold Cli.setAdd
  split
  next h => exact h
  next h => exact List.mem_append.mpr (Or.inr (List.mem_singleton.mpr rfl))

theorem setAdd_of_mem (l : List String) (x : String) (h : x ∈ l) :
    Cli.setAdd l x = l := by
  unfold Cli.setAdd
  rw [if_pos h]

theorem recordWarning_of_mem (m : String) (g : GraphIndex)
    (h : m ∈ g.warnings) : recordWarning m g = g := by
  unfold recordWarning
  rw [setAdd_of_mem g.warnings m h]

theorem applyCallId_nodes (c : Option String) (s : String) (g : GraphIndex) :
    (applyCallId c s g).nodes = g.nodes := by
  cases c with
  | none => rfl
  | some cid =>
    simp only [applyCallId]
    split
    · rfl
    · split
      next prior heq => split <;> rfl
      next heq => rfl

theorem applyCallId_edges (c : Option String) (s : String) (g : GraphIndex) :
    (applyCallId c s g).edges = g.edges := by
  cases c with
  | none => rfl
  | some cid =>
    simp only [applyCallId]
    split
    · rfl
    · split
      next prior heq => split <;> rfl
      next heq => rfl

theorem applyCallId_threads (c : Option String) (s : String)
    (g : GraphIndex) :
    (applyCallId c s g).transcriptThreads = g.transcriptThreads := by
  cases c with
  | none => rfl
  | some cid =>
    simp only [applyCallId]
    split
    · rfl
    · split
      next prior heq => split <;> rfl
      next heq => rfl

theorem applyCallId_absorb (c : Option String) (s : String)
    (g g' : GraphIndex)
    (h1 : g'.transcriptCallIds = (applyCallId c s g).transcriptCallIds)
    (h2 : g'.warnings = (applyCallId c s g).warnings) :
    applyCallId c s g' = g' := by
  cases c with
  | none => rfl
  | some cid =>
    by_cases hc : cid = ""
    · simp only [applyCallId]
      rw [if_pos hc]
    · cases hm : Runner.mapGet g.transcriptCallIds cid with
      | some prior =>
        by_cases hp : prior = s
        · have hg : applyCallId (some cid) s g = g := by
            simp only [applyCallId]
            rw [if_neg hc, hm]
            simp only []
            rw [if_pos hp]
          rw [hg] at h1
          simp only [applyCallId]
          rw [if_neg hc, h1, hm]
          simp only []
          rw [if_pos hp]
        · have hg : applyCallId (some cid) s g
              = recordWarning ("Transcript call_id collision for call_id="
                ++ cid ++ " (saw " ++ prior ++ " and " ++ s ++ ")") g := by
            simp only [applyCallId]
            rw [if_neg hc, hm]
            simp only []
            rw [if_neg hp]
          rw [hg] at h1 h2
          simp only [applyCallId]
          rw [if_neg hc]
          have h1' : Runner.mapGet g'.transcriptCallIds cid = some prior := by
            rw [h1]
            exact hm
          rw [h1']
          simp only []
          rw [if_neg hp]
          apply recordWarning_of_mem
          rw [h2]
          exact setAdd_mem_self g.warnings _
      | none =>
        have hg : applyCallId (some cid) s g
            = { g with transcriptCallIds :=
                Runner.mapSet g.transcriptCallIds cid s } := by
          simp only [applyCallId]
          rw [if_neg hc, hm]
        rw [hg] at h1
        simp only [applyCallId]
        rw [if_neg hc]
        have h1' : Runner.mapGet g'.transcriptCallIds cid = some s := by
          rw [h1]
          exact mapGet_set_self g.transcriptCallIds cid s
        rw [h1']
        simp only []
        rw [if_pos trivial]

theorem applyCollabEvent_threads (evtType sender newT recvT : String)
    (callId prompt statusOpt : Option String) (g : GraphIndex) :
    (applyCollabEvent evtType sender newT recvT callId prompt statusOpt
      g).transcriptThreads = g.transcriptThreads := by
  unfold applyCollabEvent
  split
  · split
    · rfl
    · rw [recordGraphEdge_threads, applyCallId_threads,
        ensureThreadNode_threads, ensureThreadNode_threads]
  · rfl

theorem applyTranscriptLine_threads (line : String) (g : GraphIndex) :
    (applyTranscriptLine line g).transcriptThreads
      = g.transcriptThreads := by
  simp only [applyTranscriptLine]
  split
  · rfl
  · split
    · rfl
    next payload heq =>
      split
      · rfl
      · split
        · rfl
        · split
          · rfl
          next pl heq2 =>
            split
            · rfl
            · exact applyCollabEvent_threads _ _ _ _ _ _ _ _

theorem parseTranscript_threads (lines : List String) (g : GraphIndex) :
    (parseTranscript lines g).transcriptThreads = g.transcriptThreads := by
  induction lines generalizing g with
  | nil => rfl
  | cons l t ih =>
    show (parseTranscript t (applyTranscriptLine l g)).transcriptThreads = _
    rw [ih, applyTranscriptLine_threads]

theorem enrich_of_mem (transcripts : String → Option (List String))
    (threadId : String) (g : GraphIndex)
    (h : threadId ∈ g.transcriptThreads) :
    enrichGraphFromTranscript transcripts threadId g = g := by
  unfold enrichGraphFromTranscript
  rw [if_pos h]

theorem enrich_mem_threads (transcripts : String → Option (List String))
    (threadId : String) (g : GraphIndex) :
    threadId ∈ (enrichGraphFromTranscript transcripts threadId
      g).transcriptThreads := by
  by_cases h : threadId ∈ g.transcriptThreads
  · rw [enrich_of_mem transcripts threadId g h]
    exact h
  · unfold enrichGraphFromTranscript
    rw [if_neg h]
    simp only []
    split
    · exact setAdd_mem_self g.transcriptThreads threadId
    next lines heq =>
      rw [parseTranscript_threads]
      exact setAdd_mem_self g.transcriptThreads threadId

theorem applyCollabEvent_of_state (evtType sender newT recvT : String)
    (callId p2 statusOpt : Option String)
    (hty : evtType ∈ collabTypes)
    (hg : ¬ (sender = "" ∨ targetOf newT recvT = ""))
    (gf : GraphIndex)
    (hs : (Runner.mapGet gf.nodes ("thread:" ++ sender)).isSome)
    (ht : (Runner.mapGet gf.nodes
      ("thread:" ++ targetOf newT recvT)).isSome)
    (hcall : applyCallId callId
      (callSignatureOf (edgeTypeOf evtType) sender (targetOf newT recvT)
        (statusOf evtType statusOpt)) gf = gf)
    (hedge : (Runner.mapGet gf.edges ("transcript|"
      ++ transcriptKeyOf (edgeTypeOf evtType) sender (targetOf newT recvT)
        callId (statusOf evtType statusOpt))).isSome) :
    applyCollabEvent evtType sender newT recvT callId p2 statusOpt gf
      = gf := by
  unfold applyCollabEvent
  rw [if_pos hty, if_neg hg]
  rw [ensureThreadNode_of_isSome sender gf hs]
  dsimp only
  rw [ensureThreadNode_of_isSome (targetOf newT recvT) gf ht]
  dsimp only
  rw [hcall]
  exact recordGraphEdge_of_isSome _ _ _ hedge

theorem collab_prompt_collapse (evtType sender newT recvT : String)
    (callId p1 p2 statusOpt : Option String) (g : GraphIndex) :
    applyCollabEvent evtType sender newT recvT callId p2 statusOpt
      (applyCollabEvent evtType sender newT recvT callId p1 statusOpt g)
    = applyCollabEvent evtType sender newT recvT callId p1 statusOpt g := by
  by_cases hty : evtType ∈ collabTypes
  · by_cases hg : sender = "" ∨ targetOf newT recvT = ""
    · have hid : ∀ p' g', applyCollabEvent evtType sender newT recvT callId
          p' statusOpt g' = g' := by
        intro p' g'
        unfold applyCollabEvent
        rw [if_pos hty, if_pos hg]
      rw [hid, hid]
    · apply applyCollabEvent_of_state evtType sender newT recvT callId p2
        statusOpt hty hg
      · rw [show applyCollabEvent evtType sender newT recvT callId p1
            statusOpt g = applyCollabEvent evtType sender newT recvT callId
            p1 statusOpt g from rfl]
        unfold applyCollabEvent
        rw [if_pos hty, if_neg hg]
        rw [recordGraphEdge_nodes, applyCallId_nodes]
        exact ensureThreadNode_nodes_mono _ _ _
          (ensureThreadNode_nodes_isSome sender g)
      · unfold applyCollabEvent
        rw [if_pos hty, if_neg hg]
        rw [recordGraphEdge_nodes, applyCallId_nodes]
        exact ensureThreadNode_nodes_isSome _ _
      · unfold applyCollabEvent
        rw [if_pos hty, if_neg hg]
        exact applyCallId_absorb _ _ _ _
          (recordGraphEdge_callIds _ _ _) (recordGraphEdge_warnings _ _ _)
      · unfold applyCollabEvent
        rw [if_pos hty, if_neg hg]
        exact recordGraphEdge_some_isSome _ _ _
  · have hid : ∀ p' g', applyCollabEvent evtType sender newT recvT callId
        p' statusOpt g' = g' := by
      intro p' g'
      unfold applyCollabEvent
      rw [if_neg hty]
    rw [hid, hid]

end Graph

/-- C8: graph edge insertion is deduplicated by identity key — (1) the
transcript-enrichment operation is idempotent per thread: a second call
for the same thread within a run leaves the graph (and thus the edge set)
unchanged; (2) two edges recorded under the same dedupe key collapse to
one stored edge (the first wins); (3) the transcript dedupe key excludes
the prompt, so replaying a collab event that differs only in its prompt
text changes nothing: the two edges collapse to one. -/
theorem transcript_enrichment_dedup :
    (∀ (transcripts : String → Option (List String)) (threadId : String)
      (g : Graph.GraphIndex),
      Graph.enrichGraphFromTranscript transcripts threadId
        (Graph.enrichGraphFromTranscript transcripts threadId g)
      = Graph.enrichGraphFromTranscript transcripts threadId g) ∧
    (∀ (e1 e2 : Graph.GraphEdge) (k : String) (g : Graph.GraphIndex),
      Graph.recordGraphEdge e2 (some k) (Graph.recordGraphEdge e1 (some k) g)
      = Graph.recordGraphEdge e1 (some k) g) ∧
    (∀ (evtType sender newT recvT : String)
      (callId p1 p2 statusOpt : Option String) (g : Graph.GraphIndex),
      Graph.applyCollabEvent evtType sender newT recvT callId p2 statusOpt
        (Graph.applyCollabEvent evtType sender newT recvT callId p1
          statusOpt g)
      = Graph.applyCollabEvent evtType sender newT recvT callId p1
          statusOpt g) := by
  refine ⟨?_, ?_, ?_⟩
  · intro transcripts threadId g
    exact Graph.enrich_of_mem transcripts threadId _
      (Graph.enrich_mem_threads transcripts threadId g)
  · intro e1 e2 k g
    exact Graph.recordGraphEdge_of_isSome e2 k _
      (Graph.recordGraphEdge_some_isSome e1 k g)
  · exact Graph.collab_prompt_collapse

/-- The workflow whose only step depends on a missing id: the execution
loop throws its stuck error on the first wave. -/
def cexStuckWf : Workflow :=
  { id := "wf",
    steps := [{ id := "a", goal := "g", dependsOn := some ["ghost"] }] }

/-- C5 (corrected): the library engine's `run` (`src/runner.ts`) always
terminates in exactly one of the statuses `completed`, `max-iterations`
or `error` (the last carrying the message), and in all three cases —
including any exception, which its `try`/`catch` intercepts — the
manifest has `finishedAt` stamped and is flushed to disk before
returning. The standalone engine's `run`
(`examples/codex-autopilot.ts`) however has no `try`/`catch`: any
uncaught error (stuck-workflow throw, generator or reviewer codex/parse
error) propagates out of `run` with the manifest never stamped, neither
in memory nor on disk. -/
theorem run_status_manifest :
    (∀ (adapter : Runner.Adapter) (task : String)
      (options : Runner.RunOptions) (now : String)
      (res : Runner.RunnerResult) (stF : Runner.RunSt),
      Runner.run adapter task options now = (res, stF) →
      (res.status = "completed" ∨ res.status = "max-iterations" ∨
        res.status = "error") ∧
      stF.manifest.finishedAt = some now ∧
      stF.disk = some stF.manifest ∧
      (res.status = "error" → ∃ msg, res.error = some msg)) ∧
    (∀ (adapter : Cli.Adapter) (options : Cli.RunnerOptions)
      (gen : Nat → String → Except String Workflow)
      (check : Workflow → List Cli.StepResult → Nat →
        Except String Cli.Completion)
      (carryOf : Workflow → List Cli.StepResult → Cli.Completion → String)
      (now e : String) (stE : Runner.RunSt),
      Cli.run adapter options gen check carryOf now = .error (e, stE) →
      stE.manifest.finishedAt = none ∧
      stE.disk = some { finishedAt := none }) := by
  constructor
  · intro adapter task options now res stF h
    exact Runner.runLoop_spec adapter task options now options.maxIterations
      1 "" none { manifest := {}, disk := some {} } res stF h
  · intro adapter options gen check carryOf now e stE h
    have hinv := Cli.runLoop_error_unstamped adapter options gen check
      carryOf now options.maxIterations.toNat 1 "" none
      { manifest := {}, disk := some {} } e stE rfl rfl h
    exact ⟨by rw [hinv.1], by rw [hinv.2]⟩

/-- The standalone run state at the stuck throw: manifest unstamped in
memory, unstamped on disk. -/
def cexStuckSt : Runner.RunSt :=
  { manifest := { finishedAt := none }, disk := some { finishedAt := none } }

/-- Counterexample for C5: the standalone `run` on a workflow stuck at
iteration 1 propagates the stuck-workflow error with `finishedAt` never
stamped (in memory or on disk) — refuting the original claim's "no run is
left without a finalized manifest, even on an uncaught exception" for the
cited `examples/codex-autopilot.ts` engine. -/
theorem run_status_manifest_cex :
    Cli.run c4CliAdapter { task := "T", concurrency := 2, maxIterations := 3 }
        (fun _ _ => .ok cexStuckWf) (fun _ _ _ => .ok { done := true })
        (fun _ _ _ => "") "NOW"
      = .error ("Workflow is stuck (missing deps or cycle). Remaining: a",
          cexStuckSt) ∧
    cexStuckSt.manifest.finishedAt ≠ some "NOW" :=
  ⟨rfl, by decide⟩

/-- Witness for C5: the library run with a failing adapter exits with
status `error` and a stamped, flushed manifest; the standalone run on the
stuck workflow exits with an unstamped manifest. -/
theorem run_status_manifest_witness :
    (((Runner.run (fun _ => Except.error "net down") "T"
        { maxIterations := 2, concurrency := 3 } "NOW").1.status = "completed" ∨
      (Runner.run (fun _ => Except.error "net down") "T"
        { maxIterations := 2, concurrency := 3 } "NOW").1.status = "max-iterations" ∨
      (Runner.run (fun _ => Except.error "net down") "T"
        { maxIterations := 2, concurrency := 3 } "NOW").1.status = "error") ∧
    (Runner.run (fun _ => Except.error "net down") "T"
      { maxIterations := 2, concurrency := 3 } "NOW").2.manifest.finishedAt
        = some "NOW" ∧
    (Runner.run (fun _ => Except.error "net down") "T"
      { maxIterations := 2, concurrency := 3 } "NOW").2.disk
        = some (Runner.run (fun _ => Except.error "net down") "T"
            { maxIterations := 2, concurrency := 3 } "NOW").2.manifest ∧
    ((Runner.run (fun _ => Except.error "net down") "T"
        { maxIterations := 2, concurrency := 3 } "NOW").1.status = "error" →
      ∃ msg, (Runner.run (fun _ => Except.error "net down") "T"
        { maxIterations := 2, concurrency := 3 } "NOW").1.error = some msg)) ∧
    (cexStuckSt.manifest.finishedAt = none ∧
      cexStuckSt.disk = some { finishedAt := none }) :=
  ⟨run_status_manifest.1 (fun _ => Except.error "net down") "T"
      { maxIterations := 2, concurrency := 3 } "NOW" _ _ rfl,
   run_status_manifest.2 c4CliAdapter
      { task := "T", concurrency := 2, maxIterations := 3 }
      (fun _ _ => .ok cexStuckWf) (fun _ _ _ => .ok { done := true })
      (fun _ _ _ => "") "NOW"
      "Workflow is stuck (missing deps or cycle). Remaining: a"
      cexStuckSt rfl⟩

end Autopilot
